import Mathlib

/-!
# LRU cache (`00_Excercises/lru.cc`)

A shallow embedding of the class `Cache<K, V>` and a verification of its
behaviour.  Raw `Entry*` pointers become values of `Ptr`; the two sentinel
entries allocated with `new Entry()` and the pool `z_entry_` are the only
storage a pointer can address.  Dereferencing `NULL` and calling `back()` /
`pop_back()` on an empty vector are undefined in C++; the embedding makes
them explicit faults.
-/

namespace LRU

/-! ## Data model -/

/-- An `Entry*`: `NULL`, the sentinel `head_`, the sentinel `tail_`, or
`&z_entry_[i]`. -/
inductive Ptr where
  | null : Ptr
  | head : Ptr
  | tail : Ptr
  | slot (i : Nat) : Ptr
  deriving DecidableEq, Repr

/-- The struct `CacheEntry<K, V>`. -/
structure Entry (K V : Type) where
  key : K
  value : V
  prev : Ptr
  next : Ptr
  deriving DecidableEq, Repr

/-- A value-initialised entry (`new Entry()`, or an element of
`vector<Entry>(capacity)`): default key and value, both links `NULL`. -/
instance instInhabitedEntry {K V : Type} [Inhabited K] [Inhabited V] : Inhabited (Entry K V) :=
  ⟨⟨default, default, Ptr.null, Ptr.null⟩⟩

/-- What goes wrong when the C++ code leaves defined behaviour. -/
inductive Fault where
  | nullDeref : Fault
  | dangling : Fault
  | emptyVector : Fault
  | lengthError : Fault
  deriving DecidableEq, Repr

/-- The data members of `Cache<K, V>`.  `head_` and `tail_` hold the entries
the two sentinel pointers address (the pointers themselves never change, they
are `Ptr.head` and `Ptr.tail`); `free_entry_list_` is a vector whose back is
the last element of the list; `key_entry_map_` lists the entries of the
`unordered_map`. -/
structure Cache (K V : Type) where
  head_ : Entry K V
  tail_ : Entry K V
  z_entry_ : List (Entry K V)
  free_entry_list_ : List Ptr
  key_entry_map_ : List (K × Ptr)
  deriving DecidableEq, Repr

variable {K V : Type}

/-! ## Memory access -/

/-- The entry a pointer addresses, if it addresses one. -/
def Cache.ent (c : Cache K V) : Ptr → Option (Entry K V)
  | Ptr.null => none
  | Ptr.head => some c.head_
  | Ptr.tail => some c.tail_
  | Ptr.slot i => c.z_entry_[i]?

/-- Reading through a pointer (`p->...` as an rvalue). -/
def Cache.deref (c : Cache K V) (p : Ptr) : Except Fault (Entry K V) :=
  match c.ent p with
  | some e => Except.ok e
  | none => Except.error (if p = Ptr.null then Fault.nullDeref else Fault.dangling)

/-- Overwriting the entry a pointer addresses, when the pointer is valid. -/
def Cache.store (c : Cache K V) (p : Ptr) (e : Entry K V) : Cache K V :=
  match p with
  | Ptr.null => c
  | Ptr.head => { c with head_ := e }
  | Ptr.tail => { c with tail_ := e }
  | Ptr.slot i => { c with z_entry_ := c.z_entry_.set i e }

/-- Writing one field through a pointer (`p->field = ...`). -/
def Cache.update (c : Cache K V) (p : Ptr) (f : Entry K V → Entry K V) :
    Except Fault (Cache K V) :=
  match c.deref p with
  | Except.ok e => Except.ok (c.store p (f e))
  | Except.error x => Except.error x

/-! ## The key index (`unordered_map<K, Entry*>`) -/

/-- The member `find`: the pointer stored under a key, if the key has an entry. -/
def mapFind [DecidableEq K] : List (K × Ptr) → K → Option Ptr
  | [], _ => none
  | (k', p) :: m, k => if k' = k then some p else mapFind m k

/-- The member `operator[]` used as an rvalue: an absent key is inserted with a
value-initialised (`NULL`) pointer, and the stored pointer is returned. -/
def mapIndex [DecidableEq K] (m : List (K × Ptr)) (k : K) : List (K × Ptr) × Ptr :=
  match mapFind m k with
  | some p => (m, p)
  | none => (m ++ [(k, Ptr.null)], Ptr.null)

/-- The statement `m[k] = p`. -/
def mapAssign [DecidableEq K] : List (K × Ptr) → K → Ptr → List (K × Ptr)
  | [], k, p => [(k, p)]
  | (k', p') :: m, k, p => if k' = k then (k', p) :: m else (k', p') :: mapAssign m k p

/-- The member `erase(key)`. -/
def mapErase [DecidableEq K] (m : List (K × Ptr)) (k : K) : List (K × Ptr) :=
  m.filter (fun kp => !decide (kp.1 = k))

/-! ## The class `Cache` -/

/-- The body of the constructor `Cache(int capacity)` once the pool
`z_entry_(capacity)` has been allocated with `capacity` elements.  The last two
statements are `tail_->prev = head_; tail_->prev = NULL;`: the second
overwrites the first, and `tail_->next` keeps its value-initialised `NULL`. -/
def Cache.init [Inhabited K] [Inhabited V] (capacity : Nat) : Cache K V :=
  let z : List (Entry K V) := List.replicate capacity default
  let free : List Ptr := (List.range z.length).map Ptr.slot
  let head : Entry K V := default
  let tail : Entry K V := default
  let head := { head with prev := Ptr.null }
  let head := { head with next := Ptr.tail }
  let tail := { tail with prev := Ptr.head }
  let tail := { tail with prev := Ptr.null }
  { head_ := head, tail_ := tail, z_entry_ := z, free_entry_list_ := free,
    key_entry_map_ := [] }

/-- The constructor `Cache(int capacity)`.  There is no check of `capacity`:
the only failure is the one of `vector<Entry>(capacity)`, whose size argument
is the `int` converted to `size_t`, so that a negative capacity asks for more
than `max_size()` elements and the vector throws `std::length_error`. -/
def Cache.construct [Inhabited K] [Inhabited V] (capacity : Int) : Except Fault (Cache K V) :=
  if capacity < 0 then Except.error Fault.lengthError
  else Except.ok (Cache.init capacity.toNat)

/-- The method `Detach(Entry* p)`. -/
def Cache.Detach (c : Cache K V) (p : Ptr) : Except Fault (Cache K V) := do
  -- p->prev->next = p->next;
  let e ← c.deref p
  let c ← c.update e.prev (fun x => { x with next := e.next })
  -- p->next->prev = p->prev;
  let e ← c.deref p
  let c ← c.update e.next (fun x => { x with prev := e.prev })
  return c

/-- The method `Attach(Entry* p)`. -/
def Cache.Attach (c : Cache K V) (p : Ptr) : Except Fault (Cache K V) := do
  -- p->prev = head_;
  let c ← c.update p (fun x => { x with prev := Ptr.head })
  -- p->next = head_->next;
  let h ← c.deref Ptr.head
  let c ← c.update p (fun x => { x with next := h.next })
  -- head_->next->prev = p;
  let h ← c.deref Ptr.head
  let c ← c.update h.next (fun x => { x with prev := p })
  -- head_->next = p;
  let c ← c.update Ptr.head (fun x => { x with next := p })
  return c

/-- The eviction block of `Put`, run when `free_entry_list_.empty()`. -/
def Cache.evict [DecidableEq K] (c : Cache K V) : Except Fault (Cache K V) := do
  -- Entry* q = tail_->prev;
  let t ← c.deref Ptr.tail
  let q := t.prev
  -- Detach(q);
  let c ← c.Detach q
  -- free_entry_list_.push_back(q);
  let c := { c with free_entry_list_ := c.free_entry_list_ ++ [q] }
  -- key_entry_map_.erase(q->key);
  let e ← c.deref q
  return { c with key_entry_map_ := mapErase c.key_entry_map_ e.key }

/-- The last six statements of the miss branch of `Put`: a slot is taken from
the back of the free list, filled, attached and entered in the key index. -/
def Cache.insert [DecidableEq K] (c : Cache K V) (key : K) (value : V) :
    Except Fault (Cache K V) :=
  -- p = free_entry_list_.back();
  match c.free_entry_list_.getLast? with
  | none => throw Fault.emptyVector
  | some p => do
    -- p->key = key;
    let c ← c.update p (fun x => { x with key := key })
    -- p->value = value;
    let c ← c.update p (fun x => { x with value := value })
    -- Attach(p);
    let c ← c.Attach p
    -- free_entry_list_.pop_back();
    let c := { c with free_entry_list_ := c.free_entry_list_.dropLast }
    -- key_entry_map_[key] = p;
    return { c with key_entry_map_ := mapAssign c.key_entry_map_ key p }

/-- The method `Put(const K& key, const V& value)`. -/
def Cache.Put [DecidableEq K] (c : Cache K V) (key : K) (value : V) :
    Except Fault (Cache K V) := do
  -- Entry* p = key_entry_map_[key];
  let (m, p) := mapIndex c.key_entry_map_ key
  let c := { c with key_entry_map_ := m }
  if p ≠ Ptr.null then
    -- p->value = value; Detach(p); Attach(p);
    let c ← c.update p (fun x => { x with value := value })
    let c ← c.Detach p
    c.Attach p
  else
    -- if (free_entry_list_.empty()) { ... }
    let c ← if c.free_entry_list_.isEmpty then c.evict else pure c
    c.insert key value

/-- The method `Get(const K& key, V** pp_value)`.  The out-parameter
`*pp_value` is either `NULL` or the address of the `value` field of an entry;
it is returned as the pointer to that entry. -/
def Cache.Get [DecidableEq K] (c : Cache K V) (key : K) :
    Except Fault (Cache K V × Ptr) := do
  -- Entry* p = key_entry_map_[key];
  let (m, p) := mapIndex c.key_entry_map_ key
  let c := { c with key_entry_map_ := m }
  if p ≠ Ptr.null then
    -- *pp_value = &(p->value);
    let c ← c.Detach p
    let c ← c.Attach p
    return (c, p)
  else
    return (c, Ptr.null)

/-- What the caller sees through `*pp_value` after `Get`: nothing when it is
`NULL`, otherwise the value stored in the entry. -/
def Cache.valueAt (c : Cache K V) (pp : Ptr) : Option V :=
  (c.ent pp).map (fun e => e.value)

/-! ## Calls and runs -/

/-- A call of one of the two public methods. -/
inductive Op (K V : Type) where
  | put (key : K) (value : V) : Op K V
  | get (key : K) : Op K V
  deriving DecidableEq, Repr

/-- The key a call names. -/
def Op.key : Op K V → K
  | Op.put k _ => k
  | Op.get k => k

/-- One call on the cache: the new state and what the caller observes (`Put`
returns nothing; `Get` yields the value behind `*pp_value`, or nothing on a
miss). -/
def Cache.step [DecidableEq K] (c : Cache K V) : Op K V → Except Fault (Cache K V × Option V)
  | Op.put k v => do
    let c ← c.Put k v
    return (c, none)
  | Op.get k => do
    let (c, pp) ← c.Get k
    return (c, c.valueAt pp)

/-- A sequence of calls, with the observations in call order. -/
def Cache.run [DecidableEq K] (c : Cache K V) : List (Op K V) →
    Except Fault (Cache K V × List (Option V))
  | [] => Except.ok (c, [])
  | op :: ops => do
    let (c, o) ← c.step op
    let (c, os) ← c.run ops
    return (c, o :: os)

/-! ## Reading the structure -/

/-- The `next` link of the entry at `p`. -/
def Cache.nextOf (c : Cache K V) (p : Ptr) : Option Ptr := (c.ent p).map (fun e => e.next)

/-- The `prev` link of the entry at `p`. -/
def Cache.prevOf (c : Cache K V) (p : Ptr) : Option Ptr := (c.ent p).map (fun e => e.prev)

/-- The `key` field of the entry at `p`. -/
def Cache.keyOf (c : Cache K V) (p : Ptr) : Option K := (c.ent p).map (fun e => e.key)

/-- The `key` field of pool slot `i`. -/
def Cache.keyAt [Inhabited K] (c : Cache K V) (i : Nat) : K := (c.keyOf (Ptr.slot i)).getD default

/-- The `value` field of pool slot `i`. -/
def Cache.valAt [Inhabited V] (c : Cache K V) (i : Nat) : V := (c.valueAt (Ptr.slot i)).getD default

/-- The pool slots `l`, in this order, are what following `next` from `p`
visits before it arrives at `tail_`. -/
def Cache.Linked (c : Cache K V) : Ptr → List Nat → Prop
  | p, [] => c.nextOf p = some Ptr.tail
  | p, i :: l => c.nextOf p = some (Ptr.slot i) ∧ c.Linked (Ptr.slot i) l

/-- The Recency List: the live slots, from the one at `head_->next` to the
one whose `next` is `tail_`. -/
def Cache.RecencyList (c : Cache K V) (l : List Nat) : Prop := c.Linked Ptr.head l

/-- Two neighbours of the doubly-linked list: `a->next` is `b` and `b->prev`
is `a`.  The back link of `tail_` is not required while the list is empty (the
constructor leaves it `NULL`). -/
def Cache.Link (c : Cache K V) (a b : Ptr) : Prop :=
  c.nextOf a = some b ∧ (c.prevOf b = some a ∨ (a = Ptr.head ∧ b = Ptr.tail))

/-- The pointers of the list whose live slots are `live`, sentinels included. -/
def ptrs (live : List Nat) : List Ptr := Ptr.head :: (live.map Ptr.slot ++ [Ptr.tail])

/-- The representation invariant, for the live slots `live` in list order. -/
structure Cache.Inv [DecidableEq K] [Inhabited K] (c : Cache K V) (live : List Nat) : Prop where
  nodup : live.Nodup
  chain : List.Chain' c.Link (ptrs live)
  headPrev : c.head_.prev = Ptr.null
  tailNext : c.tail_.next = Ptr.null
  free : ∃ fl : List Nat, c.free_entry_list_ = fl.map Ptr.slot ∧
    (live ++ fl).Perm (List.range c.z_entry_.length)
  mapSound : ∀ k p, mapFind c.key_entry_map_ k = some p →
    p = Ptr.null ∨ ∃ i, p = Ptr.slot i ∧ i ∈ live ∧ c.keyAt i = k
  mapComplete : ∀ i ∈ live, mapFind c.key_entry_map_ (c.keyAt i) = some (Ptr.slot i)

/-- The key/value pairs of the slots `live`, in list order. -/
def Cache.pairs [Inhabited K] [Inhabited V] (c : Cache K V) (live : List Nat) : List (K × V) :=
  live.map (fun i => (c.keyAt i, c.valAt i))

/-- What `Detach` and `Attach` leave alone: the keys and values, which
pointers are valid, the free list, the key index, the size of the pool, and the
outward links of the two sentinels. -/
structure Cache.Frame (c c' : Cache K V) : Prop where
  key : ∀ q, c'.keyOf q = c.keyOf q
  val : ∀ q, c'.valueAt q = c.valueAt q
  valid : ∀ q, (c'.ent q).isSome = (c.ent q).isSome
  free : c'.free_entry_list_ = c.free_entry_list_
  map : c'.key_entry_map_ = c.key_entry_map_
  len : c'.z_entry_.length = c.z_entry_.length
  headPrev : c'.head_.prev = c.head_.prev
  tailNext : c'.tail_.next = c.tail_.next

/-! ## The reference model -/

/-- Reference `Put` on a list of pairs ordered most- to least-recently used: a
present key gets the new value and its pair moves to the front; a new key is
inserted at the front, after the last pair is dropped if the list already holds
`cap` pairs. -/
def RefLRU.put [DecidableEq K] (cap : Nat) (l : List (K × V)) (k : K) (v : V) : List (K × V) :=
  if k ∈ l.map Prod.fst then (k, v) :: l.filter (fun kv => !decide (kv.1 = k))
  else (k, v) :: (if l.length = cap then l.dropLast else l)

/-- Reference `Get`: a present key's pair moves to the front and its value is
returned; an absent key returns nothing and changes nothing. -/
def RefLRU.get [DecidableEq K] (l : List (K × V)) (k : K) : List (K × V) × Option V :=
  match l.find? (fun kv => decide (kv.1 = k)) with
  | some kv => (kv :: l.filter (fun kv => !decide (kv.1 = k)), some kv.2)
  | none => (l, none)

/-- One call on the reference model. -/
def RefLRU.step [DecidableEq K] (cap : Nat) (l : List (K × V)) : Op K V → List (K × V) × Option V
  | Op.put k v => (RefLRU.put cap l k v, none)
  | Op.get k => RefLRU.get l k

/-- A sequence of calls on the reference model, with the observations in call
order. -/
def RefLRU.run [DecidableEq K] (cap : Nat) (l : List (K × V)) :
    List (Op K V) → List (K × V) × List (Option V)
  | [] => (l, [])
  | op :: ops =>
    let r := RefLRU.step cap l op
    let rs := RefLRU.run cap r.1 ops
    (rs.1, r.2 :: rs.2)

/-! ## Observing a state -/

/-- Following `next` from `p` for at most `fuel` steps, collecting the pool
slots met before anything that is not a pool slot. -/
def Cache.walk (c : Cache K V) : Nat → Ptr → List Nat
  | 0, _ => []
  | fuel + 1, p =>
    match c.nextOf p with
    | some (Ptr.slot i) => i :: c.walk fuel (Ptr.slot i)
    | _ => []

/-- The live slots, most recently used first: the walk from `head_`, which
needs no more steps than the pool has slots. -/
def Cache.liveSlots (c : Cache K V) : List Nat := c.walk c.z_entry_.length Ptr.head

/-- The live keys, most recently used first. -/
def Cache.liveKeys [Inhabited K] (c : Cache K V) : List K := c.liveSlots.map c.keyAt

/-- The states a cache built with `capacity` slots goes through. -/
def Cache.ReachableFrom [DecidableEq K] [Inhabited K] [Inhabited V] (capacity : Nat)
    (c : Cache K V) : Prop :=
  ∃ ops outs, (Cache.init capacity : Cache K V).run ops = Except.ok (c, outs)

/-- The states a constructed cache goes through, whatever the capacity. -/
def Cache.Reachable [DecidableEq K] [Inhabited K] [Inhabited V] (c : Cache K V) : Prop :=
  ∃ (capacity : Int) (c0 : Cache K V) (ops : List (Op K V)) (outs : List (Option V)),
    Cache.construct capacity = Except.ok c0 ∧ c0.run ops = Except.ok (c, outs)

/-- The key a call touches: the key of a `Put`, the key of a `Get` that hit. -/
def touch : Op K V → Option V → Option K
  | Op.put k _, _ => some k
  | Op.get k, some _ => some k
  | Op.get _, none => none

/-- The keys touched by a run, oldest first, from its calls and what they
returned. -/
def touches (ops : List (Op K V)) (outs : List (Option V)) : List K :=
  (List.zipWith touch ops outs).filterMap id

/-- The time of the most recent touch of `k` in the log `t`: the position,
counted from 1, of the last occurrence of `k`; 0 when `k` was never touched. -/
def lastTouch [DecidableEq K] (t : List K) (k : K) : Nat := t.length - t.reverse.indexOf k

/-- The keys `ks` are listed from the most recently to the least recently
touched one, each of them has been touched, and the first is the key of the
last touch. -/
def Ordered [DecidableEq K] (t : List K) (ks : List K) : Prop :=
  ks.Pairwise (fun a b => lastTouch t b < lastTouch t a) ∧ (∀ a ∈ ks, 0 < lastTouch t a) ∧
    (ks = [] → t = []) ∧ ∀ a ∈ ks.head?, ∀ b ∈ t.getLast?, a = b

/-- The calls of `main`, on a `Cache<int, string>` of capacity 3. -/
def mainOps : List (Op Int String) :=
  [Op.put 1 "abc", Op.put 2 "def", Op.get 1, Op.put 3 "ghi", Op.put 4 "xyz",
    Op.put 3 "ghijk", Op.get 1, Op.get 1, Op.get 1, Op.get 3]

/-- The invariant of a state reached with the touch log `t`: the
representation invariant, and the live keys in the order of `t`. -/
def Cache.Good [DecidableEq K] [Inhabited K] (capacity : Nat) (c : Cache K V) (t : List K) :
    Prop :=
  ∃ live, c.Inv live ∧ c.z_entry_.length = capacity ∧ Ordered t (live.map c.keyAt)

/-- The state of the cache of `main` after its first `n` calls. -/
def mainState (n : Nat) : Cache Int String :=
  match (Cache.init 3 : Cache Int String).run (mainOps.take n) with
  | Except.ok r => r.1
  | Except.error _ => Cache.init 3

/-- What the first `n` calls of `main` returned. -/
def mainOuts (n : Nat) : List (Option String) :=
  match (Cache.init 3 : Cache Int String).run (mainOps.take n) with
  | Except.ok r => r.2
  | Except.error _ => []

/-- The pair `(k, v)` is in the model's list, and every key in front of it
is one of the keys `D`. -/
def RefLRU.Keeps (D : List K) (k : K) (v : V) (l : List (K × V)) : Prop :=
  (l.map Prod.fst).Nodup ∧
    ∃ pre post, l = pre ++ (k, v) :: post ∧ ∀ x ∈ pre.map Prod.fst, x ∈ D

/-- Two neighbours of a well-formed doubly-linked list: `a->next` is `b` and
`b->prev` is `a`. -/
def Cache.DLink (c : Cache K V) (a b : Ptr) : Prop :=
  c.nextOf a = some b ∧ c.prevOf b = some a

/-- Deciding `DLink` by comparing the two links. -/
instance Cache.decDLink (c : Cache K V) (a b : Ptr) : Decidable (c.DLink a b) :=
  inferInstanceAs (Decidable (c.nextOf a = some b ∧ c.prevOf b = some a))

/-- A well-formed recency list with the live slots `l`: the slots are distinct
and `head_`, the slots of `l` in order, and `tail_` are linked to each other in
both directions. -/
def Cache.WellFormed (c : Cache K V) (l : List Nat) : Prop :=
  l.Nodup ∧ List.Chain' c.DLink (ptrs l)

/-! ## Memory lemmas -/

theorem ent_store (c : Cache K V) (p q : Ptr) (e : Entry K V) :
    (c.store p e).ent q = if q = p ∧ (c.ent p).isSome then some e else c.ent q := by
  cases p <;> cases q <;> simp [Cache.store, Cache.ent, List.getElem?_set]
  rename_i i j
  by_cases h : j = i
  · subst h
    by_cases h2 : j < c.z_entry_.length
    · simp [h2]
    · have h3 : c.z_entry_[j]? = none := List.getElem?_eq_none (by omega)
      simp [h2, h3]
  · have : ¬ i = j := fun h3 => h h3.symm
    simp [h, this]

theorem update_ok (c : Cache K V) (p : Ptr) (f : Entry K V → Entry K V) (e : Entry K V)
    (h : c.ent p = some e) : c.update p f = Except.ok (c.store p (f e)) := by
  simp [Cache.update, Cache.deref, h]

theorem deref_ok (c : Cache K V) (p : Ptr) (e : Entry K V)
    (h : c.ent p = some e) : c.deref p = Except.ok e := by
  simp [Cache.deref, h]

theorem store_free (c : Cache K V) (p : Ptr) (e : Entry K V) :
    (c.store p e).free_entry_list_ = c.free_entry_list_ := by
  cases p <;> rfl

theorem store_map (c : Cache K V) (p : Ptr) (e : Entry K V) :
    (c.store p e).key_entry_map_ = c.key_entry_map_ := by
  cases p <;> rfl

theorem store_length (c : Cache K V) (p : Ptr) (e : Entry K V) :
    (c.store p e).z_entry_.length = c.z_entry_.length := by
  cases p <;> simp [Cache.store]

theorem ent_store_self (c : Cache K V) (p : Ptr) (e0 e : Entry K V) (h : c.ent p = some e0) :
    (c.store p e).ent p = some e := by
  simp [ent_store, h]

theorem ent_store_ne (c : Cache K V) (p q : Ptr) (e : Entry K V) (h : q ≠ p) :
    (c.store p e).ent q = c.ent q := by
  simp [ent_store, h]

/-! ## `Detach` and `Attach` on valid pointers -/

theorem Detach_ok (c : Cache K V) (p a b : Ptr) (ep ea eb : Entry K V)
    (hp : c.ent p = some ep) (hpa : ep.prev = a) (hpb : ep.next = b)
    (ha : c.ent a = some ea) (hb : c.ent b = some eb) (hap : a ≠ p) (hab : a ≠ b) :
    c.Detach p = Except.ok
      ((c.store a { ea with next := b }).store b { eb with prev := a }) := by
  have h1 : (c.store a { ea with next := b }).ent p = some ep := by
    rw [ent_store_ne _ _ _ _ (Ne.symm hap), hp]
  have h2 : (c.store a { ea with next := b }).ent b = some eb := by
    rw [ent_store_ne _ _ _ _ (Ne.symm hab), hb]
  subst hpa hpb
  simp only [Cache.Detach, bind, Except.bind, deref_ok c p ep hp,
    update_ok c ep.prev _ ea ha, deref_ok _ p ep h1, update_ok _ ep.next _ eb h2, pure, Except.pure]

theorem Attach_ok (c : Cache K V) (p n : Ptr) (ep en : Entry K V)
    (hp : c.ent p = some ep) (hh : c.head_.next = n) (hn : c.ent n = some en)
    (hph : p ≠ Ptr.head) (hnp : n ≠ p) (hnh : n ≠ Ptr.head) :
    c.Attach p = Except.ok
      (((c.store p { ep with prev := Ptr.head, next := n }).store n { en with prev := p }).store
        Ptr.head { c.head_ with next := p }) := by
  subst hh
  have e1 : c.update p (fun x => { x with prev := Ptr.head }) =
      Except.ok (c.store p { ep with prev := Ptr.head }) := update_ok c p _ ep hp
  have e2 : (c.store p { ep with prev := Ptr.head }).deref Ptr.head = Except.ok c.head_ := by
    apply deref_ok
    rw [ent_store_ne _ _ _ _ (Ne.symm hph)]; rfl
  have e3 : (c.store p { ep with prev := Ptr.head }).update p
      (fun x => { x with next := c.head_.next }) =
      Except.ok (c.store p { ep with prev := Ptr.head, next := c.head_.next }) := by
    rw [update_ok _ p _ { ep with prev := Ptr.head } (ent_store_self c p ep _ hp)]
    cases p <;> simp_all [Cache.store, Cache.ent]
  have e4 : (c.store p { ep with prev := Ptr.head, next := c.head_.next }).deref Ptr.head =
      Except.ok c.head_ := by
    apply deref_ok
    rw [ent_store_ne _ _ _ _ (Ne.symm hph)]; rfl
  have e5 : (c.store p { ep with prev := Ptr.head, next := c.head_.next }).update c.head_.next
      (fun x => { x with prev := p }) =
      Except.ok ((c.store p { ep with prev := Ptr.head, next := c.head_.next }).store c.head_.next
        { en with prev := p }) := by
    apply update_ok
    rw [ent_store_ne _ _ _ _ hnp, hn]
  have e6 : ((c.store p { ep with prev := Ptr.head, next := c.head_.next }).store c.head_.next
        { en with prev := p }).ent Ptr.head = some c.head_ := by
    rw [ent_store_ne _ _ _ _ (Ne.symm hnh), ent_store_ne _ _ _ _ (Ne.symm hph)]; rfl
  simp only [Cache.Attach, bind, Except.bind, e1, e2, e3, e4, e5, update_ok _ _ _ _ e6,
    pure, Except.pure]

/-! ## Surgery on the doubly-linked list -/

theorem chain_frame (c c' : Cache K V) (L : List Ptr) (h : List.Chain' c.Link L)
    (hn : ∀ x ∈ L.dropLast, c'.nextOf x = c.nextOf x)
    (hp : ∀ y ∈ L.tail, c'.prevOf y = c.prevOf y) : List.Chain' c'.Link L := by
  induction L with
  | nil => exact List.chain'_nil
  | cons x L ih =>
    cases L with
    | nil => exact List.chain'_singleton x
    | cons y L =>
      rw [List.chain'_cons] at h ⊢
      refine ⟨?_, ih h.2 ?_ ?_⟩
      · have h1 := hn x (by simp)
        have h2 := hp y (by simp)
        simpa [Cache.Link, h1, h2] using h.1
      · intro z hz
        exact hn z (by rw [List.dropLast_cons₂]; exact List.mem_cons_of_mem _ hz)
      · intro z hz
        exact hp z (by simp only [List.tail_cons] at hz ⊢; exact List.mem_cons_of_mem _ hz)

theorem mem_of_mem_dropLast {α : Type} (L : List α) (x : α) (h : x ∈ L.dropLast) : x ∈ L :=
  (List.dropLast_sublist L).subset h

theorem mem_of_mem_tail {α : Type} (L : List α) (x : α) (h : x ∈ L.tail) : x ∈ L :=
  (List.tail_sublist L).subset h

theorem nextOf_store (c : Cache K V) (p q : Ptr) (e0 e : Entry K V) (h : c.ent p = some e0) :
    (c.store p e).nextOf q = if q = p then some e.next else c.nextOf q := by
  by_cases hq : q = p <;> simp [Cache.nextOf, ent_store, h, hq]

theorem prevOf_store (c : Cache K V) (p q : Ptr) (e0 e : Entry K V) (h : c.ent p = some e0) :
    (c.store p e).prevOf q = if q = p then some e.prev else c.prevOf q := by
  by_cases hq : q = p <;> simp [Cache.prevOf, ent_store, h, hq]

theorem keyOf_store (c : Cache K V) (p q : Ptr) (e0 e : Entry K V) (h : c.ent p = some e0) :
    (c.store p e).keyOf q = if q = p then some e.key else c.keyOf q := by
  by_cases hq : q = p <;> simp [Cache.keyOf, ent_store, h, hq]

theorem valueAt_store (c : Cache K V) (p q : Ptr) (e0 e : Entry K V) (h : c.ent p = some e0) :
    (c.store p e).valueAt q = if q = p then some e.value else c.valueAt q := by
  by_cases hq : q = p <;> simp [Cache.valueAt, ent_store, h, hq]

theorem ent_store_some (c : Cache K V) (p q : Ptr) (e0 e e1 : Entry K V) (h : c.ent p = some e0)
    (hq : c.ent q = some e1) : ∃ e2, (c.store p e).ent q = some e2 := by
  by_cases hqp : q = p
  · exact ⟨e, by simp [ent_store, hqp, h]⟩
  · exact ⟨e1, by simp [ent_store, hqp, hq]⟩

theorem Cache.Frame.refl (c : Cache K V) : c.Frame c :=
  ⟨fun _ => rfl, fun _ => rfl, fun _ => rfl, rfl, rfl, rfl, rfl, rfl⟩

theorem Cache.Frame.trans {c c' c'' : Cache K V} (h : c.Frame c') (h' : c'.Frame c'') : c.Frame c'' :=
  ⟨fun q => (h'.key q).trans (h.key q), fun q => (h'.val q).trans (h.val q),
    fun q => (h'.valid q).trans (h.valid q), h'.free.trans h.free, h'.map.trans h.map,
    h'.len.trans h.len, h'.headPrev.trans h.headPrev, h'.tailNext.trans h.tailNext⟩

theorem isSome_ent_store (c : Cache K V) (p q : Ptr) (e : Entry K V) :
    ((c.store p e).ent q).isSome = (c.ent q).isSome := by
  rw [ent_store]
  by_cases h : q = p ∧ (c.ent p).isSome = true
  · rw [if_pos h, h.1, h.2]; rfl
  · rw [if_neg h]

/-- Rewriting only the links of a valid entry is a frame step, provided the
outward links of the sentinels are not the ones rewritten. -/
theorem Cache.Frame.store_links (c : Cache K V) (p : Ptr) (e0 e : Entry K V) (h : c.ent p = some e0)
    (hk : e.key = e0.key) (hv : e.value = e0.value)
    (hh : p = Ptr.head → e.prev = e0.prev) (ht : p = Ptr.tail → e.next = e0.next) :
    c.Frame (c.store p e) := by
  refine ⟨?_, ?_, fun q => isSome_ent_store c p q e, store_free c p e, store_map c p e,
    store_length c p e, ?_, ?_⟩
  · intro q
    rw [keyOf_store c p q e0 e h]
    split
    · next hq => subst hq; simp [Cache.keyOf, h, hk]
    · rfl
  · intro q
    rw [valueAt_store c p q e0 e h]
    split
    · next hq => subst hq; simp [Cache.valueAt, h, hv]
    · rfl
  · cases p <;> simp_all [Cache.store, Cache.ent]
  · cases p <;> simp_all [Cache.store, Cache.ent]

theorem nodup_split3 {α : Type} (xs ys : List α) (a p b : α)
    (hnd : (xs ++ a :: p :: b :: ys).Nodup) :
    a ∉ xs ∧ p ∉ xs ∧ b ∉ xs ∧ a ≠ p ∧ a ≠ b ∧ p ≠ b ∧ a ∉ ys ∧ b ∉ ys ∧ p ∉ ys := by
  simp [List.nodup_append, List.nodup_cons, List.disjoint_cons_right] at hnd
  tauto

theorem detach_chain (c : Cache K V) (xs ys : List Ptr) (a p b : Ptr)
    (hnd : (xs ++ a :: p :: b :: ys).Nodup)
    (hch : List.Chain' c.Link (xs ++ a :: p :: b :: ys))
    (hpt : p ≠ Ptr.tail) (hat : a ≠ Ptr.tail) (hbh : b ≠ Ptr.head) :
    ∃ c', c.Detach p = Except.ok c' ∧ List.Chain' c'.Link (xs ++ a :: b :: ys) ∧ c.Frame c' := by
  rw [List.chain'_split] at hch
  obtain ⟨hxs, hch⟩ := hch
  rw [List.chain'_cons, List.chain'_cons] at hch
  obtain ⟨hap, hpb, hys⟩ := hch
  obtain ⟨haxs, -, hbxs, hap', hab, -, hays, hbys, -⟩ := nodup_split3 xs ys a p b hnd
  obtain ⟨ea, hea⟩ : ∃ ea, c.ent a = some ea := by
    have := hap.1
    simp only [Cache.nextOf, Option.map_eq_some'] at this
    obtain ⟨e, he, _⟩ := this
    exact ⟨e, he⟩
  obtain ⟨ep, hep, hepn⟩ : ∃ ep, c.ent p = some ep ∧ ep.next = b := by
    have := hpb.1
    simp only [Cache.nextOf, Option.map_eq_some'] at this
    exact this
  have hepp : ep.prev = a := by
    rcases hap.2 with h | h
    · simp only [Cache.prevOf, hep, Option.map_some', Option.some.injEq] at h
      exact h
    · exact absurd h.2 hpt
  obtain ⟨eb, heb⟩ : ∃ eb, c.ent b = some eb := by
    rcases hpb.2 with h | h
    · simp only [Cache.prevOf, Option.map_eq_some'] at h
      obtain ⟨e, he, _⟩ := h
      exact ⟨e, he⟩
    · rw [h.2]; exact ⟨c.tail_, rfl⟩
  have heb1 : (c.store a { ea with next := b }).ent b = some eb := by
    rw [ent_store_ne _ _ _ _ (Ne.symm hab), heb]
  refine ⟨_, Detach_ok c p a b ep ea eb hep hepp hepn hea heb hap' hab, ?_, ?_⟩
  · have hnx : ∀ q, q ≠ a → ((c.store a { ea with next := b }).store b
        { eb with prev := a }).nextOf q = c.nextOf q := by
      intro q hq
      rw [nextOf_store _ b q eb _ heb1, nextOf_store c a q ea _ hea]
      by_cases hqb : q = b
      · subst hqb; simp [Cache.nextOf, heb, hq]
      · simp [hqb, hq]
    have hpv : ∀ q, q ≠ b → ((c.store a { ea with next := b }).store b
        { eb with prev := a }).prevOf q = c.prevOf q := by
      intro q hq
      rw [prevOf_store _ b q eb _ heb1, prevOf_store c a q ea _ hea]
      by_cases hqa : q = a
      · subst hqa; simp [Cache.prevOf, hea, hq]
      · simp [hqa, hq]
    rw [List.chain'_split, List.chain'_cons]
    refine ⟨chain_frame c _ _ hxs ?_ ?_, ?_, chain_frame c _ _ hys ?_ ?_⟩
    · intro x hx
      apply hnx
      rintro rfl
      simp at hx
      exact haxs hx
    · intro y hy
      apply hpv
      rintro rfl
      have hy' := mem_of_mem_tail _ _ hy
      simp only [List.mem_append, List.mem_singleton] at hy'
      rcases hy' with h | h
      · exact hbxs h
      · exact hab h.symm
    · constructor
      · rw [nextOf_store _ b a eb _ heb1, nextOf_store c a a ea _ hea]
        simp [hab]
      · left
        rw [prevOf_store _ b b eb _ heb1]
        simp
    · intro x hx
      apply hnx
      rintro rfl
      have hx' := mem_of_mem_dropLast _ _ hx
      simp only [List.mem_cons] at hx'
      rcases hx' with h | h
      · exact hab h
      · exact hays h
    · intro y hy
      apply hpv
      rintro rfl
      simp only [List.tail_cons] at hy
      exact hbys hy
  · exact Cache.Frame.trans
      (Cache.Frame.store_links c a ea { ea with next := b } hea rfl rfl (fun _ => rfl)
        (fun h => absurd h hat))
      (Cache.Frame.store_links _ b eb { eb with prev := a } heb1 rfl rfl (fun h => absurd h hbh)
        (fun _ => rfl))

theorem attach_chain (c : Cache K V) (p n : Ptr) (ys : List Ptr)
    (hnd : (Ptr.head :: n :: ys).Nodup)
    (hch : List.Chain' c.Link (Ptr.head :: n :: ys))
    (hp : p ∉ Ptr.head :: n :: ys) (hpv : (c.ent p).isSome = true) (hpt : p ≠ Ptr.tail) :
    ∃ c', c.Attach p = Except.ok c' ∧ List.Chain' c'.Link (Ptr.head :: p :: n :: ys) ∧
      c.Frame c' := by
  rw [List.chain'_cons] at hch
  obtain ⟨hhn, hys⟩ := hch
  simp only [List.mem_cons, not_or] at hp
  obtain ⟨hph, hpn, hpys⟩ := hp
  simp only [List.nodup_cons, List.mem_cons, not_or] at hnd
  obtain ⟨⟨hhn', hhys⟩, hnys, -⟩ := hnd
  obtain ⟨ep, hep⟩ := Option.isSome_iff_exists.1 hpv
  have hnext : c.head_.next = n := by
    have := hhn.1
    simpa [Cache.nextOf, Cache.ent] using this
  obtain ⟨en, hen⟩ : ∃ en, c.ent n = some en := by
    rcases hhn.2 with h | h
    · simp only [Cache.prevOf, Option.map_eq_some'] at h
      obtain ⟨e, he, _⟩ := h
      exact ⟨e, he⟩
    · rw [h.2]; exact ⟨c.tail_, rfl⟩
  have h1 : (c.store p { ep with prev := Ptr.head, next := n }).ent n = some en := by
    rw [ent_store_ne _ _ _ _ (Ne.symm hpn), hen]
  have h2 : ((c.store p { ep with prev := Ptr.head, next := n }).store n
      { en with prev := p }).ent Ptr.head = some c.head_ := by
    rw [ent_store_ne _ _ _ _ hhn', ent_store_ne _ _ _ _ (Ne.symm hph)]; rfl
  refine ⟨_, Attach_ok c p n ep en hep hnext hen hph (Ne.symm hpn) (Ne.symm hhn'), ?_, ?_⟩
  · have hnx : ∀ q, q ≠ Ptr.head → q ≠ p →
        (((c.store p { ep with prev := Ptr.head, next := n }).store n { en with prev := p }).store
          Ptr.head { c.head_ with next := p }).nextOf q = c.nextOf q := by
      intro q hq1 hq2
      rw [nextOf_store _ _ q _ _ h2, nextOf_store _ _ q _ _ h1, nextOf_store _ _ q _ _ hep]
      by_cases hqn : q = n
      · subst hqn; simp [Cache.nextOf, hen, hq1, hq2]
      · simp [hqn, hq1, hq2]
    have hpr : ∀ q, q ≠ n → q ≠ p →
        (((c.store p { ep with prev := Ptr.head, next := n }).store n { en with prev := p }).store
          Ptr.head { c.head_ with next := p }).prevOf q = c.prevOf q := by
      intro q hq1 hq2
      rw [prevOf_store _ _ q _ _ h2, prevOf_store _ _ q _ _ h1, prevOf_store _ _ q _ _ hep]
      by_cases hqh : q = Ptr.head
      · subst hqh; simp [Cache.prevOf, Cache.ent, hq1, hq2]
      · simp [hqh, hq1, hq2]
    rw [List.chain'_cons, List.chain'_cons]
    refine ⟨⟨?_, ?_⟩, ⟨?_, ?_⟩, chain_frame c _ _ hys ?_ ?_⟩
    · rw [nextOf_store _ _ _ _ _ h2]; simp
    · left
      rw [prevOf_store _ _ _ _ _ h2, prevOf_store _ _ _ _ _ h1, prevOf_store _ _ _ _ _ hep]
      simp [hph, hpn]
    · rw [nextOf_store _ _ _ _ _ h2, nextOf_store _ _ _ _ _ h1, nextOf_store _ _ _ _ _ hep]
      simp [hph, hpn]
    · left
      rw [prevOf_store _ _ _ _ _ h2, prevOf_store _ _ _ _ _ h1]
      simp [Ne.symm hhn']
    · intro x hx
      have hx' := mem_of_mem_dropLast _ _ hx
      apply hnx
      · rintro rfl
        simp only [List.mem_cons] at hx'
        rcases hx' with h | h
        · exact hhn' h
        · exact hhys h
      · rintro rfl
        simp only [List.mem_cons] at hx'
        rcases hx' with h | h
        · exact hpn h
        · exact hpys h
    · intro y hy
      simp only [List.tail_cons] at hy
      apply hpr
      · rintro rfl; exact hnys hy
      · rintro rfl; exact hpys hy
  · exact Cache.Frame.trans (Cache.Frame.trans
      (Cache.Frame.store_links c p ep { ep with prev := Ptr.head, next := n } hep rfl rfl
        (fun h => absurd h hph) (fun h => absurd h hpt))
      (Cache.Frame.store_links _ n en { en with prev := p } h1 rfl rfl
        (fun h => absurd h.symm hhn') (fun _ => rfl)))
      (Cache.Frame.store_links _ Ptr.head c.head_ { c.head_ with next := p } h2 rfl rfl
        (fun _ => rfl) (fun h => by cases h))

/-! ## The pointer list of a sequence of live slots -/

theorem ptrs_nodup (live : List Nat) (h : live.Nodup) : (ptrs live).Nodup := by
  have hinj : Function.Injective Ptr.slot := fun a b hab => by cases hab; rfl
  have h1 : (live.map Ptr.slot).Nodup := h.map hinj
  have h2 : Ptr.tail ∉ live.map Ptr.slot := by simp
  have h3 : Ptr.head ∉ live.map Ptr.slot := by simp
  unfold ptrs
  rw [List.nodup_cons]
  constructor
  · simp
  · rw [List.nodup_append]
    exact ⟨h1, List.nodup_singleton _, by simp⟩

theorem ptrs_split (la lb : List Nat) (i : Nat) :
    ∃ xs a b ys, ptrs (la ++ i :: lb) = xs ++ a :: Ptr.slot i :: b :: ys ∧
      ptrs (la ++ lb) = xs ++ a :: b :: ys ∧ a ≠ Ptr.tail ∧ b ≠ Ptr.head := by
  rcases List.eq_nil_or_concat la with rfl | ⟨la', j, rfl⟩
  · cases lb with
    | nil => exact ⟨[], Ptr.head, Ptr.tail, [], rfl, rfl, by decide, by decide⟩
    | cons j lb' =>
      exact ⟨[], Ptr.head, Ptr.slot j, lb'.map Ptr.slot ++ [Ptr.tail], rfl, rfl, by decide,
        by simp⟩
  · cases lb with
    | nil =>
      exact ⟨Ptr.head :: la'.map Ptr.slot, Ptr.slot j, Ptr.tail, [], by simp [ptrs],
        by simp [ptrs], by simp, by decide⟩
    | cons j' lb' =>
      exact ⟨Ptr.head :: la'.map Ptr.slot, Ptr.slot j, Ptr.slot j',
        lb'.map Ptr.slot ++ [Ptr.tail], by simp [ptrs], by simp [ptrs], by simp, by simp⟩

theorem ptrs_cons_split (l : List Nat) (i : Nat) :
    ∃ n ys, ptrs l = Ptr.head :: n :: ys ∧ ptrs (i :: l) = Ptr.head :: Ptr.slot i :: n :: ys := by
  cases l with
  | nil => exact ⟨Ptr.tail, [], rfl, rfl⟩
  | cons j l' => exact ⟨Ptr.slot j, l'.map Ptr.slot ++ [Ptr.tail], rfl, rfl⟩

theorem slot_mem_ptrs (l : List Nat) (i : Nat) : Ptr.slot i ∈ ptrs l ↔ i ∈ l := by
  simp [ptrs]

/-! ## The key index -/

theorem mapFind_append [DecidableEq K] (m m' : List (K × Ptr)) (k : K) :
    mapFind (m ++ m') k = (mapFind m k).orElse (fun _ => mapFind m' k) := by
  induction m with
  | nil => simp [mapFind]
  | cons kp m ih =>
    obtain ⟨k', p⟩ := kp
    by_cases h : k' = k <;> simp [mapFind, h, ih]

theorem mapFind_mapIndex [DecidableEq K] (m : List (K × Ptr)) (k k' : K) :
    mapFind (mapIndex m k).1 k' =
      if k' = k ∧ mapFind m k = none then some Ptr.null else mapFind m k' := by
  unfold mapIndex
  cases h : mapFind m k with
  | some p => simp
  | none =>
    simp only [mapFind_append, mapFind]
    by_cases hk : k' = k
    · subst hk; simp [h]
    · have : ¬ k = k' := fun h => hk h.symm
      simp [hk, this]

theorem mapIndex_snd [DecidableEq K] (m : List (K × Ptr)) (k : K) :
    mapFind (mapIndex m k).1 k = some (mapIndex m k).2 := by
  unfold mapIndex
  cases h : mapFind m k with
  | some p => simp [h]
  | none => simp [mapFind_append, mapFind, h]

theorem mapFind_mapAssign [DecidableEq K] (m : List (K × Ptr)) (k k' : K) (p : Ptr) :
    mapFind (mapAssign m k p) k' = if k' = k then some p else mapFind m k' := by
  induction m with
  | nil =>
    by_cases h : k' = k
    · subst h; simp [mapAssign, mapFind]
    · have : ¬ k = k' := fun h' => h h'.symm
      simp [mapAssign, mapFind, h, this]
  | cons kp m ih =>
    obtain ⟨k1, p1⟩ := kp
    by_cases h1 : k1 = k
    · subst h1
      by_cases h : k' = k1
      · subst h; simp [mapAssign, mapFind]
      · have : ¬ k1 = k' := fun h' => h h'.symm
        simp [mapAssign, mapFind, h, this]
    · by_cases h : k' = k
      · subst h; simp [mapAssign, mapFind, h1, ih]
      · simp [mapAssign, mapFind, h1, ih, h]

theorem mapFind_mapErase [DecidableEq K] (m : List (K × Ptr)) (k k' : K) :
    mapFind (mapErase m k) k' = if k' = k then none else mapFind m k' := by
  induction m with
  | nil => simp [mapErase, mapFind]
  | cons kp m ih =>
    obtain ⟨k1, p1⟩ := kp
    unfold mapErase at ih ⊢
    by_cases h1 : k1 = k
    · subst h1
      by_cases h : k' = k1
      · subst h; simp [mapFind, ih]
      · have : ¬ k1 = k' := fun h' => h h'.symm
        simp [mapFind, ih, h, this]
    · by_cases h : k' = k
      · subst h; simp [mapFind, ih, h1]
      · simp [mapFind, ih, h1, h]

/-! ## The invariant along the two methods -/

theorem Cache.Frame.keyAt [Inhabited K] {c c' : Cache K V} (h : c.Frame c') (i : Nat) :
    c'.keyAt i = c.keyAt i := by
  simp [Cache.keyAt, h.key]

theorem Cache.Frame.valAt [Inhabited V] {c c' : Cache K V} (h : c.Frame c') (i : Nat) :
    c'.valAt i = c.valAt i := by
  simp [Cache.valAt, h.val]

theorem Cache.Inv.transfer [DecidableEq K] [Inhabited K] {c c' : Cache K V} {live live' : List Nat}
    (hinv : c.Inv live) (hperm : live'.Perm live) (hch : List.Chain' c'.Link (ptrs live'))
    (hkey : ∀ i ∈ live, c'.keyAt i = c.keyAt i)
    (hmap : ∀ k, mapFind c'.key_entry_map_ k = mapFind c.key_entry_map_ k)
    (hfree : c'.free_entry_list_ = c.free_entry_list_)
    (hlen : c'.z_entry_.length = c.z_entry_.length)
    (hhp : c'.head_.prev = c.head_.prev) (htn : c'.tail_.next = c.tail_.next) :
    c'.Inv live' := by
  refine ⟨hperm.nodup_iff.2 hinv.nodup, hch, hhp.trans hinv.headPrev, htn.trans hinv.tailNext,
    ?_, ?_, ?_⟩
  · obtain ⟨fl, hfl, hp⟩ := hinv.free
    exact ⟨fl, hfree.trans hfl, by rw [hlen]; exact (hperm.append_right fl).trans hp⟩
  · intro k p hkp
    rw [hmap] at hkp
    rcases hinv.mapSound k p hkp with h | ⟨i, hi, hil, hik⟩
    · exact Or.inl h
    · exact Or.inr ⟨i, hi, hperm.mem_iff.2 hil, (hkey i hil).trans hik⟩
  · intro i hi
    have hil := hperm.mem_iff.1 hi
    rw [hmap, hkey i hil]
    exact hinv.mapComplete i hil

theorem Cache.Inv.of_frame [DecidableEq K] [Inhabited K] {c c' : Cache K V} {live live' : List Nat}
    (hinv : c.Inv live) (hf : c.Frame c') (hperm : live'.Perm live)
    (hch : List.Chain' c'.Link (ptrs live')) : c'.Inv live' :=
  hinv.transfer hperm hch (fun i _ => hf.keyAt i) (fun _ => by rw [hf.map]) hf.free hf.len
    hf.headPrev hf.tailNext

theorem Cache.Inv.lt [DecidableEq K] [Inhabited K] {c : Cache K V} {live : List Nat}
    (hinv : c.Inv live) {i : Nat} (hi : i ∈ live) : i < c.z_entry_.length := by
  obtain ⟨fl, -, hp⟩ := hinv.free
  have : i ∈ live ++ fl := List.mem_append_left _ hi
  exact List.mem_range.1 (hp.mem_iff.1 this)

theorem ent_slot_isSome (c : Cache K V) (i : Nat) (h : i < c.z_entry_.length) :
    (c.ent (Ptr.slot i)).isSome = true := by
  simp [Cache.ent, h]

/-- Detaching a live slot and attaching it again moves it to the front. -/
theorem touch_chain (c : Cache K V) (la lb : List Nat) (i : Nat)
    (hnd : (la ++ i :: lb).Nodup) (hch : List.Chain' c.Link (ptrs (la ++ i :: lb)))
    (hv : (c.ent (Ptr.slot i)).isSome = true) :
    ∃ c1 c2, c.Detach (Ptr.slot i) = Except.ok c1 ∧ c1.Attach (Ptr.slot i) = Except.ok c2 ∧
      List.Chain' c1.Link (ptrs (la ++ lb)) ∧ c.Frame c1 ∧
      List.Chain' c2.Link (ptrs (i :: (la ++ lb))) ∧ c.Frame c2 := by
  obtain ⟨xs, a, b, ys, h1, h2, hat, hbh⟩ := ptrs_split la lb i
  have hnd1 := ptrs_nodup _ hnd
  rw [h1] at hnd1 hch
  obtain ⟨c1, hd, hch1, hf1⟩ := detach_chain c xs ys a (Ptr.slot i) b hnd1 hch (by simp) hat hbh
  rw [← h2] at hch1
  have hnd' : (la ++ lb).Nodup := by
    have := hnd
    rw [List.nodup_append] at this ⊢
    exact ⟨this.1, (List.nodup_cons.1 this.2.1).2,
      fun x hx hy => this.2.2 hx (List.mem_cons_of_mem _ hy)⟩
  have hi : i ∉ la ++ lb := by
    have := hnd
    simp only [List.nodup_append, List.nodup_cons, List.disjoint_cons_right] at this
    simp only [List.mem_append, not_or]
    exact ⟨this.2.2.1, this.2.1.1⟩
  obtain ⟨n, ys', h3, h4⟩ := ptrs_cons_split (la ++ lb) i
  have hnd2 := ptrs_nodup _ hnd'
  rw [h3] at hnd2 hch1
  have hnotin : Ptr.slot i ∉ Ptr.head :: n :: ys' := by
    rw [← h3, slot_mem_ptrs]; exact hi
  obtain ⟨c2, ha, hch2, hf2⟩ := attach_chain c1 (Ptr.slot i) n ys' hnd2 hch1 hnotin
    (by rw [hf1.valid]; exact hv) (by simp)
  rw [← h4] at hch2
  rw [← h3] at hch1
  exact ⟨c1, c2, hd, ha, hch1, hf1, hch2, hf1.trans hf2⟩

theorem chain_store_data (c : Cache K V) (p : Ptr) (e0 e : Entry K V) (h : c.ent p = some e0)
    (hp : e.prev = e0.prev) (hn : e.next = e0.next) (L : List Ptr)
    (hch : List.Chain' c.Link L) : List.Chain' (c.store p e).Link L := by
  apply chain_frame c _ L hch
  · intro x _
    rw [nextOf_store c p x e0 e h]
    split
    · next hx => subst hx; simp [Cache.nextOf, h, hn]
    · rfl
  · intro x _
    rw [prevOf_store c p x e0 e h]
    split
    · next hx => subst hx; simp [Cache.prevOf, h, hp]
    · rfl

theorem head_store_slot (c : Cache K V) (i : Nat) (e : Entry K V) :
    (c.store (Ptr.slot i) e).head_ = c.head_ ∧ (c.store (Ptr.slot i) e).tail_ = c.tail_ :=
  ⟨rfl, rfl⟩

theorem keyAt_store [Inhabited K] (c : Cache K V) (i j : Nat) (e0 e : Entry K V)
    (h : c.ent (Ptr.slot i) = some e0) :
    (c.store (Ptr.slot i) e).keyAt j = if j = i then e.key else c.keyAt j := by
  unfold Cache.keyAt
  rw [keyOf_store c _ _ e0 e h]
  by_cases hj : j = i <;> simp [hj]

theorem valAt_store [Inhabited V] (c : Cache K V) (i j : Nat) (e0 e : Entry K V)
    (h : c.ent (Ptr.slot i) = some e0) :
    (c.store (Ptr.slot i) e).valAt j = if j = i then e.value else c.valAt j := by
  unfold Cache.valAt
  rw [valueAt_store c _ _ e0 e h]
  by_cases hj : j = i <;> simp [hj]

theorem Put_hit_eq [DecidableEq K] (c : Cache K V) (k : K) (v : V) (p : Ptr)
    (h : mapFind c.key_entry_map_ k = some p) (hp : p ≠ Ptr.null) :
    c.Put k v = (do
      let c ← c.update p (fun x => { x with value := v })
      let c ← c.Detach p
      c.Attach p) := by
  simp [Cache.Put, mapIndex, h, hp]

theorem Get_hit_eq [DecidableEq K] (c : Cache K V) (k : K) (p : Ptr)
    (h : mapFind c.key_entry_map_ k = some p) (hp : p ≠ Ptr.null) :
    c.Get k = (do
      let c ← c.Detach p
      let c ← c.Attach p
      return (c, p)) := by
  simp [Cache.Get, mapIndex, h, hp]

theorem Put_hit [DecidableEq K] [Inhabited K] [Inhabited V] (c : Cache K V) (live : List Nat)
    (hinv : c.Inv live) (k : K) (v : V) (i : Nat)
    (h : mapFind c.key_entry_map_ k = some (Ptr.slot i)) :
    ∃ c' la lb, c.Put k v = Except.ok c' ∧ live = la ++ i :: lb ∧ c'.Inv (i :: (la ++ lb)) ∧
      c'.z_entry_.length = c.z_entry_.length ∧ (∀ j, c'.keyAt j = c.keyAt j) ∧
      c'.valAt i = v ∧ (∀ j, j ≠ i → c'.valAt j = c.valAt j) ∧
      c'.free_entry_list_ = c.free_entry_list_ ∧ c'.key_entry_map_ = c.key_entry_map_ := by
  have hil : i ∈ live := by
    rcases hinv.mapSound k _ h with h1 | ⟨j, hj, hjl, -⟩
    · cases h1
    · cases hj; exact hjl
  obtain ⟨la, lb, rfl⟩ := List.append_of_mem hil
  obtain ⟨ep, hep⟩ := Option.isSome_iff_exists.1 (ent_slot_isSome c i (hinv.lt hil))
  have hch1 := chain_store_data c (Ptr.slot i) ep { ep with value := v } hep rfl rfl _ hinv.chain
  obtain ⟨c2, c3, hd, ha, -, -, hch3, hf⟩ := touch_chain _ la lb i hinv.nodup hch1
    (by rw [isSome_ent_store]; exact ent_slot_isSome c i (hinv.lt hil))
  refine ⟨c3, la, lb, ?_, rfl, ?_, ?_, ?_, ?_, ?_, ?_, ?_⟩
  · rw [Put_hit_eq c k v _ h (by simp)]
    simp only [bind, Except.bind, update_ok c _ _ ep hep, hd, ha]
  · refine hinv.transfer List.perm_middle.symm hch3 ?_ ?_ ?_ ?_ ?_ ?_
    · intro j _
      rw [hf.keyAt, keyAt_store c i j ep _ hep]
      by_cases hj : j = i
      · subst hj; simp [Cache.keyAt, Cache.keyOf, hep]
      · simp [hj]
    · intro k'; rw [hf.map, store_map]
    · rw [hf.free, store_free]
    · rw [hf.len, store_length]
    · rw [hf.headPrev]; rfl
    · rw [hf.tailNext]; rfl
  · rw [hf.len, store_length]
  · intro j
    rw [hf.keyAt, keyAt_store c i j ep _ hep]
    by_cases hj : j = i
    · subst hj; simp [Cache.keyAt, Cache.keyOf, hep]
    · simp [hj]
  · rw [hf.valAt, valAt_store c i i ep _ hep]; simp
  · intro j hj
    rw [hf.valAt, valAt_store c i j ep _ hep]; simp [hj]
  · rw [hf.free, store_free]
  · rw [hf.map, store_map]

theorem Get_hit [DecidableEq K] [Inhabited K] (c : Cache K V) (live : List Nat)
    (hinv : c.Inv live) (k : K) (i : Nat)
    (h : mapFind c.key_entry_map_ k = some (Ptr.slot i)) :
    ∃ c' la lb, c.Get k = Except.ok (c', Ptr.slot i) ∧ live = la ++ i :: lb ∧
      c'.Inv (i :: (la ++ lb)) ∧ c.Frame c' := by
  have hil : i ∈ live := by
    rcases hinv.mapSound k _ h with h1 | ⟨j, hj, hjl, -⟩
    · cases h1
    · cases hj; exact hjl
  obtain ⟨la, lb, rfl⟩ := List.append_of_mem hil
  obtain ⟨c2, c3, hd, ha, -, -, hch3, hf⟩ := touch_chain c la lb i hinv.nodup hinv.chain
    (ent_slot_isSome c i (hinv.lt hil))
  refine ⟨c3, la, lb, ?_, rfl, hinv.of_frame hf List.perm_middle.symm hch3, hf⟩
  rw [Get_hit_eq c k _ h (by simp)]
  simp only [bind, Except.bind, hd, ha, pure, Except.pure]

theorem Cache.Inv.mapIndex [DecidableEq K] [Inhabited K] {c : Cache K V} {live : List Nat}
    (hinv : c.Inv live) (k : K) :
    Cache.Inv { c with key_entry_map_ := (mapIndex c.key_entry_map_ k).1 } live := by
  refine ⟨hinv.nodup, hinv.chain, hinv.headPrev, hinv.tailNext, hinv.free, ?_, ?_⟩
  · intro k' p hkp
    simp only [mapFind_mapIndex] at hkp
    split at hkp
    · left; cases hkp; rfl
    · exact hinv.mapSound k' p hkp
  · intro i hi
    have h1 := hinv.mapComplete i hi
    simp only [mapFind_mapIndex]
    have h2 : (Cache.keyAt { c with key_entry_map_ := (LRU.mapIndex c.key_entry_map_ k).1 } i)
        = c.keyAt i := rfl
    rw [h2]
    split
    · next hk =>
      obtain ⟨hk1, hn⟩ := hk
      rw [hk1, hn] at h1
      cases h1
    · exact h1

theorem mapIndex_null [DecidableEq K] [Inhabited K] (c : Cache K V) (live : List Nat)
    (hinv : c.Inv live) (k : K)
    (h : ∀ i, mapFind c.key_entry_map_ k ≠ some (Ptr.slot i)) :
    (mapIndex c.key_entry_map_ k).2 = Ptr.null := by
  unfold mapIndex
  cases hm : mapFind c.key_entry_map_ k with
  | none => rfl
  | some p =>
    rcases hinv.mapSound k p hm with h1 | ⟨j, hj, -, -⟩
    · exact h1
    · subst hj; exact absurd hm (h j)

theorem Get_miss [DecidableEq K] [Inhabited K] (c : Cache K V) (live : List Nat)
    (hinv : c.Inv live) (k : K)
    (h : ∀ i, mapFind c.key_entry_map_ k ≠ some (Ptr.slot i)) :
    ∃ c', c.Get k = Except.ok (c', Ptr.null) ∧ c'.Inv live ∧
      c' = { c with key_entry_map_ := (mapIndex c.key_entry_map_ k).1 } := by
  have hnull := mapIndex_null c live hinv k h
  refine ⟨_, ?_, hinv.mapIndex k, rfl⟩
  unfold Cache.Get
  generalize mapIndex c.key_entry_map_ k = mp at hnull
  obtain ⟨m, p⟩ := mp
  simp only at hnull
  subst hnull
  simp [pure, Except.pure]

theorem Put_miss_eq [DecidableEq K] [Inhabited K] (c : Cache K V) (live : List Nat)
    (hinv : c.Inv live) (k : K) (v : V)
    (h : ∀ i, mapFind c.key_entry_map_ k ≠ some (Ptr.slot i)) :
    c.Put k v = (do
      let c0 : Cache K V := { c with key_entry_map_ := (mapIndex c.key_entry_map_ k).1 }
      let c1 ← if c0.free_entry_list_.isEmpty then c0.evict else pure c0
      c1.insert k v) := by
  have hnull := mapIndex_null c live hinv k h
  unfold Cache.Put
  generalize mapIndex c.key_entry_map_ k = mp at hnull
  obtain ⟨m, p⟩ := mp
  simp only at hnull
  subst hnull
  simp

theorem chain_last_link (c : Cache K V) (la : List Nat) (j : Nat)
    (hch : List.Chain' c.Link (ptrs (la ++ [j]))) : c.Link (Ptr.slot j) Ptr.tail := by
  have hs : [Ptr.slot j, Ptr.tail] <:+ ptrs (la ++ [j]) :=
    ⟨Ptr.head :: la.map Ptr.slot, by simp [ptrs]⟩
  have := hch.suffix hs
  simpa using this

theorem evict_spec [DecidableEq K] [Inhabited K] (c : Cache K V) (la : List Nat) (j : Nat)
    (hinv : c.Inv (la ++ [j])) (hfree : c.free_entry_list_ = []) :
    ∃ c', c.evict = Except.ok c' ∧ c'.Inv la ∧ c'.free_entry_list_ = [Ptr.slot j] ∧
      (∀ q, c'.keyOf q = c.keyOf q) ∧ (∀ q, c'.valueAt q = c.valueAt q) ∧
      c'.z_entry_.length = c.z_entry_.length ∧
      c'.key_entry_map_ = mapErase c.key_entry_map_ (c.keyAt j) := by
  have hjl : j ∈ la ++ [j] := by simp
  have hlink := chain_last_link c la j hinv.chain
  have htp : c.tail_.prev = Ptr.slot j := by
    rcases hlink.2 with h | h
    · simpa [Cache.prevOf, Cache.ent] using h
    · cases h.1
  have hv := ent_slot_isSome c j (hinv.lt hjl)
  obtain ⟨c1, -, hd, -, hch1, hf, -, -⟩ := touch_chain c la [] j hinv.nodup hinv.chain hv
  rw [List.append_nil] at hch1
  obtain ⟨e, he⟩ := Option.isSome_iff_exists.1 (by rw [hf.valid]; exact hv :
    (c1.ent (Ptr.slot j)).isSome = true)
  have hek : e.key = c.keyAt j := by
    have := hf.keyAt (K := K) j
    simp only [Cache.keyAt, Cache.keyOf, he, Option.map_some', Option.getD_some] at this
    exact this
  have hnd : la.Nodup ∧ j ∉ la := by
    have := hinv.nodup
    rw [List.nodup_append] at this
    exact ⟨this.1, fun h => this.2.2 h (by simp)⟩
  refine ⟨{ c1 with free_entry_list_ := c1.free_entry_list_ ++ [Ptr.slot j],
                    key_entry_map_ := mapErase c1.key_entry_map_ e.key }, ?_, ?_, ?_, ?_, ?_, ?_, ?_⟩
  · have hd0 : c.deref Ptr.tail = Except.ok c.tail_ := deref_ok _ _ _ rfl
    have hd1 : Cache.deref { c1 with free_entry_list_ := c1.free_entry_list_ ++ [Ptr.slot j] }
        (Ptr.slot j) = Except.ok e := deref_ok _ _ _ he
    simp only [Cache.evict, bind, Except.bind, hd0, htp, hd, hd1, pure, Except.pure]
  · refine ⟨hnd.1, hch1, hf.headPrev.trans hinv.headPrev, hf.tailNext.trans hinv.tailNext,
      ?_, ?_, ?_⟩
    · obtain ⟨fl, hfl, hp⟩ := hinv.free
      rw [hfree] at hfl
      have : fl = [] := by simpa using hfl.symm
      subst this
      refine ⟨[j], ?_, ?_⟩
      · simp [hf.free, hfree]
      · simp only [hf.len]
        simpa using hp
    · intro k' p hkp
      simp only [hf.map, mapFind_mapErase] at hkp
      split at hkp
      · cases hkp
      · next hk =>
        rcases hinv.mapSound k' p hkp with h | ⟨i, hi, hil, hik⟩
        · exact Or.inl h
        · refine Or.inr ⟨i, hi, ?_, (hf.keyAt i).trans hik⟩
          simp only [List.mem_append, List.mem_singleton] at hil
          rcases hil with h | h
          · exact h
          · subst h; exact absurd (hik.symm.trans hek.symm) hk
    · intro i hi
      have hil : i ∈ la ++ [j] := List.mem_append_left _ hi
      have h1 := hinv.mapComplete i hil
      change mapFind (mapErase c1.key_entry_map_ e.key) (c1.keyAt i) = _
      rw [hf.keyAt i]
      simp only [hf.map, mapFind_mapErase]
      split
      · next hk =>
        have h3 := hinv.mapComplete j hjl
        rw [hek] at hk
        rw [hk, h3] at h1
        cases h1
        exact absurd hi hnd.2
      · exact h1
  · simp [hf.free, hfree]
  · exact hf.key
  · exact hf.val
  · exact hf.len
  · simp [hf.map, hek]

theorem insert_spec [DecidableEq K] [Inhabited K] [Inhabited V] (c : Cache K V) (l : List Nat)
    (hinv : c.Inv l) (fl : List Ptr) (i : Nat) (hfree : c.free_entry_list_ = fl ++ [Ptr.slot i])
    (k : K) (v : V) (hk : ∀ j, mapFind c.key_entry_map_ k ≠ some (Ptr.slot j)) :
    ∃ c', c.insert k v = Except.ok c' ∧ c'.Inv (i :: l) ∧ c'.free_entry_list_ = fl ∧
      c'.keyAt i = k ∧ c'.valAt i = v ∧
      (∀ j, j ≠ i → c'.keyAt j = c.keyAt j ∧ c'.valAt j = c.valAt j) ∧
      c'.z_entry_.length = c.z_entry_.length ∧
      c'.key_entry_map_ = mapAssign c.key_entry_map_ k (Ptr.slot i) := by
  obtain ⟨fl0, hfl0, hperm⟩ := hinv.free
  obtain ⟨fl1, rfl, hfl1⟩ : ∃ fl1, fl0 = fl1 ++ [i] ∧ fl = fl1.map Ptr.slot := by
    rw [hfree] at hfl0
    rcases List.eq_nil_or_concat fl0 with rfl | ⟨fl1, i', rfl⟩
    · simp at hfl0
    · rw [List.concat_eq_append, List.map_append, List.map_singleton] at hfl0
      have h1 := List.append_inj' hfl0 rfl
      simp only [List.cons.injEq, Ptr.slot.injEq, and_true] at h1
      exact ⟨fl1, by rw [h1.2, List.concat_eq_append], h1.1⟩
  have hnd : (l ++ (fl1 ++ [i])).Nodup := hperm.nodup_iff.2 (List.nodup_range _)
  have hil : i ∉ l := by
    intro h
    exact (List.nodup_append.1 hnd).2.2 h (by simp)
  have hlt : i < c.z_entry_.length :=
    List.mem_range.1 (hperm.mem_iff.1 (by simp))
  obtain ⟨e0, he0⟩ := Option.isSome_iff_exists.1 (ent_slot_isSome c i hlt)
  have he1 : (c.store (Ptr.slot i) { e0 with key := k }).ent (Ptr.slot i) =
      some { e0 with key := k } := ent_store_self c _ e0 _ he0
  have he2 : ((c.store (Ptr.slot i) { e0 with key := k }).store (Ptr.slot i)
      { e0 with key := k, value := v }).ent (Ptr.slot i) = some { e0 with key := k, value := v } :=
    ent_store_self _ _ _ _ he1
  have hch2 := chain_store_data _ (Ptr.slot i) _ { e0 with key := k, value := v } he1 rfl rfl _
    (chain_store_data c (Ptr.slot i) e0 { e0 with key := k } he0 rfl rfl _ hinv.chain)
  obtain ⟨n, ys, h3, h4⟩ := ptrs_cons_split l i
  have hnd2 := ptrs_nodup _ hinv.nodup
  rw [h3] at hnd2 hch2
  have hnotin : Ptr.slot i ∉ Ptr.head :: n :: ys := by
    rw [← h3, slot_mem_ptrs]; exact hil
  obtain ⟨c3, ha, hch3, hf⟩ := attach_chain _ (Ptr.slot i) n ys hnd2 hch2 hnotin
    (by rw [he2]; rfl) (by simp)
  rw [← h4] at hch3
  have hkey : ∀ j, c3.keyAt j = if j = i then k else c.keyAt j := by
    intro j
    rw [hf.keyAt, keyAt_store _ i j _ _ he1, keyAt_store c i j _ _ he0]
    by_cases hj : j = i <;> simp [hj]
  have hval : ∀ j, c3.valAt j = if j = i then v else c.valAt j := by
    intro j
    rw [hf.valAt, valAt_store _ i j _ _ he1, valAt_store c i j _ _ he0]
    by_cases hj : j = i
    · simp [hj]
    · simp only [hj, if_false]
  have hmap3 : c3.key_entry_map_ = c.key_entry_map_ := by
    rw [hf.map, store_map, store_map]
  have hfree3 : c3.free_entry_list_ = fl ++ [Ptr.slot i] := by
    rw [hf.free, store_free, store_free, hfree]
  have hlen3 : c3.z_entry_.length = c.z_entry_.length := by
    rw [hf.len, store_length, store_length]
  refine ⟨{ c3 with free_entry_list_ := c3.free_entry_list_.dropLast,
                    key_entry_map_ := mapAssign c3.key_entry_map_ k (Ptr.slot i) },
    ?_, ?_, ?_, ?_, ?_, ?_, ?_, ?_⟩
  · have hlast : c.free_entry_list_.getLast? = some (Ptr.slot i) := by
      rw [hfree]; simp
    simp only [Cache.insert, hlast, bind, Except.bind, update_ok c _ _ e0 he0,
      update_ok _ _ _ _ he1, ha, pure, Except.pure]
  · refine ⟨List.nodup_cons.2 ⟨hil, hinv.nodup⟩, hch3, ?_, ?_, ?_, ?_, ?_⟩
    · exact hf.headPrev.trans hinv.headPrev
    · exact hf.tailNext.trans hinv.tailNext
    · refine ⟨fl1, ?_, ?_⟩
      · simp [hfree3, hfl1]
      · change ((i :: l) ++ fl1).Perm (List.range c3.z_entry_.length)
        rw [hlen3]
        refine List.Perm.trans ?_ hperm
        rw [← List.append_assoc]
        exact (List.perm_append_singleton i (l ++ fl1)).symm
    · intro k' p hkp
      change mapFind (mapAssign c3.key_entry_map_ k (Ptr.slot i)) k' = some p at hkp
      rw [mapFind_mapAssign, hmap3] at hkp
      split at hkp
      · next hk' =>
        cases hkp
        refine Or.inr ⟨i, rfl, by simp, ?_⟩
        rw [hk']
        exact (hkey i).trans (if_pos rfl)
      · rcases hinv.mapSound k' p hkp with h | ⟨j, hj, hjl, hjk⟩
        · exact Or.inl h
        · refine Or.inr ⟨j, hj, List.mem_cons_of_mem _ hjl, ?_⟩
          have hji : j ≠ i := fun h => hil (h ▸ hjl)
          exact ((hkey j).trans (if_neg hji)).trans hjk
    · intro j hj
      change mapFind (mapAssign c3.key_entry_map_ k (Ptr.slot i)) (c3.keyAt j) = _
      rw [mapFind_mapAssign, hmap3, hkey j]
      rcases List.mem_cons.1 hj with rfl | hjl
      · simp
      · have hji : j ≠ i := fun h => hil (h ▸ hjl)
        have h1 := hinv.mapComplete j hjl
        have hne : c.keyAt j ≠ k := fun h => hk j (h ▸ h1)
        simp only [hji, if_false, hne]
        exact h1
  · simp [hfree3]
  · exact (hkey i).trans (if_pos rfl)
  · exact (hval i).trans (if_pos rfl)
  · intro j hj
    exact ⟨(hkey j).trans (if_neg hj), (hval j).trans (if_neg hj)⟩
  · exact hlen3
  · simp [hmap3]

theorem Put_miss [DecidableEq K] [Inhabited K] [Inhabited V] (c : Cache K V) (live : List Nat)
    (hinv : c.Inv live) (hpos : 1 ≤ c.z_entry_.length) (k : K) (v : V)
    (hk : ∀ i, mapFind c.key_entry_map_ k ≠ some (Ptr.slot i)) :
    ∃ c' i, c.Put k v = Except.ok c' ∧
      c'.Inv (i :: (if live.length = c.z_entry_.length then live.dropLast else live)) ∧
      (c.free_entry_list_ = [] ↔ live.length = c.z_entry_.length) ∧
      (live.length = c.z_entry_.length → live.getLast? = some i) ∧
      c'.free_entry_list_ = c.free_entry_list_.dropLast ∧
      c'.z_entry_.length = c.z_entry_.length ∧ c'.keyAt i = k ∧ c'.valAt i = v ∧
      (∀ j, j ≠ i → c'.keyAt j = c.keyAt j ∧ c'.valAt j = c.valAt j) := by
  rw [Put_miss_eq c live hinv k v hk]
  have hinv0 := hinv.mapIndex k
  have hk0 : ∀ j, mapFind (mapIndex c.key_entry_map_ k).1 k ≠ some (Ptr.slot j) := by
    intro j
    rw [mapFind_mapIndex]
    split
    · simp
    · exact hk j
  obtain ⟨fl, hfl, hperm⟩ := hinv.free
  have hlen : live.length + fl.length = c.z_entry_.length := by
    have := hperm.length_eq
    simpa using this
  have hiff : c.free_entry_list_ = [] ↔ live.length = c.z_entry_.length := by
    rw [hfl]
    constructor
    · intro h
      have : fl = [] := by simpa using h
      subst this
      simpa using hlen
    · intro h
      have : fl.length = 0 := by omega
      rw [List.length_eq_zero] at this
      subst this
      rfl
  by_cases hfull : live.length = c.z_entry_.length
  · have hfree := hiff.2 hfull
    have hne : live ≠ [] := by
      intro h; subst h; simp at hfull; omega
    obtain ⟨la, j, rfl⟩ : ∃ la j, live = la ++ [j] := by
      rcases List.eq_nil_or_concat live with h | ⟨la, j, h⟩
      · exact absurd h hne
      · exact ⟨la, j, by rw [h, List.concat_eq_append]⟩
    obtain ⟨c1, hev, hinv1, hfree1, hkey1, hval1, hlen1, hmap1⟩ :=
      evict_spec _ la j hinv0 hfree
    have hk1 : ∀ i, mapFind c1.key_entry_map_ k ≠ some (Ptr.slot i) := by
      intro i
      rw [hmap1, mapFind_mapErase]
      split
      · simp
      · exact hk0 i
    obtain ⟨c2, hins, hinv2, hfree2, hkey2, hval2, hrest, hlen2, -⟩ :=
      insert_spec c1 la hinv1 [] j (by simpa using hfree1) k v hk1
    refine ⟨c2, j, ?_, ?_, hiff, ?_, ?_, ?_, hkey2, hval2, ?_⟩
    · simp only [bind, Except.bind]
      rw [if_pos (by rw [hfree]; rfl), hev]
      exact hins
    · simpa [hfull] using hinv2
    · intro _; simp
    · rw [hfree2, hfree]; rfl
    · rw [hlen2, hlen1]
    · intro i hi
      obtain ⟨h1, h2⟩ := hrest i hi
      refine ⟨h1.trans ?_, h2.trans ?_⟩
      · simp only [Cache.keyAt, hkey1]; rfl
      · simp only [Cache.valAt, hval1]; rfl
  · have hne : c.free_entry_list_ ≠ [] := fun h => hfull (hiff.1 h)
    obtain ⟨fl', p, hfp⟩ : ∃ fl' p, c.free_entry_list_ = fl' ++ [p] := by
      rcases List.eq_nil_or_concat c.free_entry_list_ with h | ⟨fl', p, h⟩
      · exact absurd h hne
      · exact ⟨fl', p, by rw [h, List.concat_eq_append]⟩
    obtain ⟨i, rfl⟩ : ∃ i, p = Ptr.slot i := by
      have : p ∈ fl.map Ptr.slot := by rw [← hfl, hfp]; simp
      obtain ⟨i, -, hi⟩ := List.mem_map.1 this
      exact ⟨i, hi.symm⟩
    obtain ⟨c2, hins, hinv2, hfree2, hkey2, hval2, hrest, hlen2, -⟩ :=
      insert_spec _ live hinv0 fl' i hfp k v hk0
    refine ⟨c2, i, ?_, ?_, hiff, ?_, ?_, hlen2, hkey2, hval2, hrest⟩
    · have : c.free_entry_list_.isEmpty = false := by
        rw [hfp]; simp
      simp only [bind, Except.bind]
      rw [if_neg (by rw [this]; simp)]
      exact hins
    · simpa [hfull] using hinv2
    · intro h; exact absurd h hfull
    · rw [hfree2, hfp]; simp

/-! ## Refinement of the reference model -/

theorem Cache.Inv.key_inj [DecidableEq K] [Inhabited K] {c : Cache K V} {live : List Nat}
    (hinv : c.Inv live) {i j : Nat} (hi : i ∈ live) (hj : j ∈ live)
    (h : c.keyAt i = c.keyAt j) : i = j := by
  have h1 := hinv.mapComplete i hi
  have h2 := hinv.mapComplete j hj
  rw [h, h2] at h1
  cases h1
  rfl

theorem Cache.Inv.keys_nodup [DecidableEq K] [Inhabited K] {c : Cache K V} {live : List Nat}
    (hinv : c.Inv live) : (live.map c.keyAt).Nodup :=
  List.Nodup.map_on (fun _ hx _ hy h => hinv.key_inj hx hy h) hinv.nodup

theorem pairs_keys [Inhabited K] [Inhabited V] (c : Cache K V) (l : List Nat) :
    (c.pairs l).map Prod.fst = l.map c.keyAt := by
  simp [Cache.pairs, Function.comp_def]

theorem Cache.Inv.mem_keys [DecidableEq K] [Inhabited K] [Inhabited V] {c : Cache K V}
    {live : List Nat} (hinv : c.Inv live) (k : K) :
    k ∈ (c.pairs live).map Prod.fst ↔ ∃ i, mapFind c.key_entry_map_ k = some (Ptr.slot i) := by
  rw [pairs_keys, List.mem_map]
  constructor
  · rintro ⟨i, hi, rfl⟩
    exact ⟨i, hinv.mapComplete i hi⟩
  · rintro ⟨i, hi⟩
    rcases hinv.mapSound k _ hi with h | ⟨j, hj, hjl, hjk⟩
    · cases h
    · exact ⟨j, hjl, hjk⟩

theorem pairs_congr [Inhabited K] [Inhabited V] (c c' : Cache K V) (l : List Nat)
    (h : ∀ j ∈ l, c'.keyAt j = c.keyAt j ∧ c'.valAt j = c.valAt j) : c'.pairs l = c.pairs l := by
  unfold Cache.pairs
  apply List.map_congr_left
  intro j hj
  rw [(h j hj).1, (h j hj).2]

theorem pairs_append [Inhabited K] [Inhabited V] (c : Cache K V) (l l' : List Nat) :
    c.pairs (l ++ l') = c.pairs l ++ c.pairs l' := by
  simp [Cache.pairs]

theorem pairs_cons [Inhabited K] [Inhabited V] (c : Cache K V) (i : Nat) (l : List Nat) :
    c.pairs (i :: l) = (c.keyAt i, c.valAt i) :: c.pairs l := rfl

theorem pairs_filter_ne [DecidableEq K] [Inhabited K] [Inhabited V] (c : Cache K V)
    (l : List Nat) (k : K) (h : ∀ j ∈ l, c.keyAt j ≠ k) :
    (c.pairs l).filter (fun kv => !decide (kv.1 = k)) = c.pairs l := by
  rw [List.filter_eq_self]
  intro kv hkv
  obtain ⟨j, hj, rfl⟩ := List.mem_map.1 hkv
  simpa using h j hj

theorem pairs_find_none [DecidableEq K] [Inhabited K] [Inhabited V] (c : Cache K V)
    (l : List Nat) (k : K) (h : ∀ j ∈ l, c.keyAt j ≠ k) :
    (c.pairs l).find? (fun kv => decide (kv.1 = k)) = none := by
  rw [List.find?_eq_none]
  intro kv hkv
  obtain ⟨j, hj, rfl⟩ := List.mem_map.1 hkv
  simpa using h j hj

theorem pairs_filter_split [DecidableEq K] [Inhabited K] [Inhabited V] (c : Cache K V)
    (la lb : List Nat) (i : Nat) (h : ∀ j ∈ la ++ lb, c.keyAt j ≠ c.keyAt i) :
    (c.pairs (la ++ i :: lb)).filter (fun kv => !decide (kv.1 = c.keyAt i)) =
      c.pairs (la ++ lb) := by
  rw [pairs_append, pairs_cons, List.filter_append, List.filter_cons, pairs_append,
    pairs_filter_ne c la _ (fun j hj => h j (List.mem_append_left _ hj)),
    pairs_filter_ne c lb _ (fun j hj => h j (List.mem_append_right _ hj))]
  simp

theorem pairs_find_split [DecidableEq K] [Inhabited K] [Inhabited V] (c : Cache K V)
    (la lb : List Nat) (i : Nat) (h : ∀ j ∈ la ++ lb, c.keyAt j ≠ c.keyAt i) :
    (c.pairs (la ++ i :: lb)).find? (fun kv => decide (kv.1 = c.keyAt i)) =
      some (c.keyAt i, c.valAt i) := by
  rw [pairs_append, pairs_cons, List.find?_append,
    pairs_find_none c la _ (fun j hj => h j (List.mem_append_left _ hj))]
  simp

theorem Cache.Inv.others_ne [DecidableEq K] [Inhabited K] {c : Cache K V} {la lb : List Nat}
    {i : Nat} (hinv : c.Inv (la ++ i :: lb)) : ∀ j ∈ la ++ lb, c.keyAt j ≠ c.keyAt i := by
  intro j hj hk
  have hjl : j ∈ la ++ i :: lb := by
    simp only [List.mem_append, List.mem_cons] at hj ⊢
    tauto
  have := hinv.key_inj hjl (by simp) hk
  subst this
  have hnd := hinv.nodup
  simp only [List.nodup_append, List.nodup_cons, List.disjoint_cons_right] at hnd
  simp only [List.mem_append] at hj
  rcases hj with h | h
  · exact hnd.2.2.1 h
  · exact hnd.2.1.1 h

theorem valueAt_slot [Inhabited V] (c : Cache K V) (i : Nat) (h : i < c.z_entry_.length) :
    c.valueAt (Ptr.slot i) = some (c.valAt i) := by
  obtain ⟨e, he⟩ := Option.isSome_iff_exists.1 (ent_slot_isSome c i h)
  simp [Cache.valAt, Cache.valueAt, he]

/-- One call on a cache in a state that satisfies the invariant does what the
reference model does on the list of live pairs. -/
theorem step_sim [DecidableEq K] [Inhabited K] [Inhabited V] (c : Cache K V) (live : List Nat)
    (hinv : c.Inv live) (hpos : 1 ≤ c.z_entry_.length) (op : Op K V) :
    ∃ c' live', c.step op =
        Except.ok (c', (RefLRU.step c.z_entry_.length (c.pairs live) op).2) ∧
      c'.Inv live' ∧ c'.z_entry_.length = c.z_entry_.length ∧
      c'.pairs live' = (RefLRU.step c.z_entry_.length (c.pairs live) op).1 := by
  cases op with
  | put k v =>
    by_cases hk : ∃ i, mapFind c.key_entry_map_ k = some (Ptr.slot i)
    · obtain ⟨i, hi⟩ := hk
      obtain ⟨c', la, lb, hput, rfl, hinv', hlen, hkey, hvi, hvj, -, -⟩ :=
        Put_hit c live hinv k v i hi
      have hki : c.keyAt i = k := by
        have := hinv.mapComplete i (by simp)
        rcases hinv.mapSound k _ hi with h | ⟨j, hj, hjl, hjk⟩
        · cases h
        · cases hj; exact hjk
      have hne := hinv.others_ne
      have hnot : i ∉ la ++ lb := by
        have hnd := hinv'.nodup
        exact (List.nodup_cons.1 hnd).1
      refine ⟨c', i :: (la ++ lb), ?_, hinv', hlen, ?_⟩
      · simp [Cache.step, hput, bind, Except.bind, pure, Except.pure, RefLRU.step]
      · have hmem : k ∈ (c.pairs (la ++ i :: lb)).map Prod.fst := hinv.mem_keys k |>.2 ⟨i, hi⟩
        simp only [RefLRU.step, RefLRU.put, if_pos hmem]
        rw [← hki, pairs_filter_split c la lb i hne, pairs_cons, hkey i, hvi, hki]
        congr 1
        exact pairs_congr c c' _ (fun j hj => ⟨hkey j, hvj j (fun h => hnot (h ▸ hj))⟩)
    · have hk' : ∀ i, mapFind c.key_entry_map_ k ≠ some (Ptr.slot i) :=
        fun i h => hk ⟨i, h⟩
      obtain ⟨c', i, hput, hinv', hiff, hlast, -, hlen, hki, hvi, hrest⟩ :=
        Put_miss c live hinv hpos k v hk'
      have hmem : k ∉ (c.pairs live).map Prod.fst := fun h => hk ((hinv.mem_keys k).1 h)
      have hnot : i ∉ (if live.length = c.z_entry_.length then live.dropLast else live) :=
        (List.nodup_cons.1 hinv'.nodup).1
      refine ⟨c', _, ?_, hinv', hlen, ?_⟩
      · simp [Cache.step, hput, bind, Except.bind, pure, Except.pure, RefLRU.step]
      · simp only [RefLRU.step, RefLRU.put, if_neg hmem]
        rw [pairs_cons, hki, hvi]
        congr 1
        have hlp : (c.pairs live).length = live.length := by simp [Cache.pairs]
        rw [hlp]
        rw [pairs_congr c c' _ (fun j hj => hrest j (fun h => hnot (h ▸ hj)))]
        split
        · simp [Cache.pairs, List.map_dropLast]
        · rfl
  | get k =>
    by_cases hk : ∃ i, mapFind c.key_entry_map_ k = some (Ptr.slot i)
    · obtain ⟨i, hi⟩ := hk
      obtain ⟨c', la, lb, hget, rfl, hinv', hf⟩ := Get_hit c live hinv k i hi
      have hki : c.keyAt i = k := by
        rcases hinv.mapSound k _ hi with h | ⟨j, hj, hjl, hjk⟩
        · cases h
        · cases hj; exact hjk
      have hne := hinv.others_ne
      have hlt : i < c'.z_entry_.length := hinv'.lt (by simp)
      refine ⟨c', i :: (la ++ lb), ?_, hinv', hf.len, ?_⟩
      · simp only [Cache.step, hget, bind, Except.bind, pure, Except.pure, RefLRU.step,
          RefLRU.get]
        rw [← hki, pairs_find_split c la lb i hne, valueAt_slot c' i hlt, hf.valAt]
      · simp only [RefLRU.step, RefLRU.get]
        rw [← hki, pairs_find_split c la lb i hne]
        simp only
        rw [pairs_filter_split c la lb i hne, pairs_cons, hf.keyAt, hf.valAt]
        congr 1
        exact pairs_congr c c' _ (fun j _ => ⟨hf.keyAt j, hf.valAt j⟩)
    · have hk' : ∀ i, mapFind c.key_entry_map_ k ≠ some (Ptr.slot i) :=
        fun i h => hk ⟨i, h⟩
      obtain ⟨c', hget, hinv', hc'⟩ := Get_miss c live hinv k hk'
      have hnone : (c.pairs live).find? (fun kv => decide (kv.1 = k)) = none := by
        apply pairs_find_none
        intro j hj hjk
        exact hk ⟨j, hjk ▸ hinv.mapComplete j hj⟩
      refine ⟨c', live, ?_, hinv', by rw [hc'], ?_⟩
      · simp only [Cache.step, hget, bind, Except.bind, pure, Except.pure, RefLRU.step,
          RefLRU.get, hnone]
        rfl
      · simp only [RefLRU.step, RefLRU.get, hnone]
        rw [hc']
        rfl

theorem init_inv [DecidableEq K] [Inhabited K] [Inhabited V] (capacity : Nat) :
    (Cache.init capacity : Cache K V).Inv [] := by
  refine ⟨List.nodup_nil, ?_, rfl, rfl, ⟨List.range capacity, ?_, ?_⟩, ?_, ?_⟩
  · simp [ptrs, Cache.Link, Cache.nextOf, Cache.ent, Cache.init]
  · simp [Cache.init]
  · simp [Cache.init]
  · intro k p h
    simp [Cache.init, mapFind] at h
  · intro i hi
    cases hi

theorem init_length [Inhabited K] [Inhabited V] (capacity : Nat) :
    (Cache.init capacity : Cache K V).z_entry_.length = capacity := by
  simp [Cache.init]

/-- A run on a cache in a state that satisfies the invariant does what the
reference model does on the list of live pairs. -/
theorem run_sim [DecidableEq K] [Inhabited K] [Inhabited V] (ops : List (Op K V)) :
    ∀ (c : Cache K V) (live : List Nat), c.Inv live → 1 ≤ c.z_entry_.length →
    ∃ c' live', c.run ops =
        Except.ok (c', (RefLRU.run c.z_entry_.length (c.pairs live) ops).2) ∧
      c'.Inv live' ∧ c'.z_entry_.length = c.z_entry_.length ∧
      c'.pairs live' = (RefLRU.run c.z_entry_.length (c.pairs live) ops).1 := by
  induction ops with
  | nil =>
    intro c live hinv _
    exact ⟨c, live, rfl, hinv, rfl, rfl⟩
  | cons op ops ih =>
    intro c live hinv hpos
    obtain ⟨c1, live1, hstep, hinv1, hlen1, hp1⟩ := step_sim c live hinv hpos op
    obtain ⟨c2, live2, hrun, hinv2, hlen2, hp2⟩ := ih c1 live1 hinv1 (by omega)
    refine ⟨c2, live2, ?_, hinv2, hlen2.trans hlen1, ?_⟩
    · simp only [Cache.run, bind, Except.bind, hstep, hrun, pure, Except.pure, RefLRU.run,
        hlen1, hp1]
    · simp only [RefLRU.run]
      rw [hp2, hlen1, hp1]

/-! ## The recency list of a state that satisfies the invariant -/

theorem linked_of_chain (c : Cache K V) (l : List Nat) :
    ∀ p, List.Chain' c.Link (p :: (l.map Ptr.slot ++ [Ptr.tail])) → c.Linked p l := by
  induction l with
  | nil =>
    intro p h
    simp only [List.map_nil, List.nil_append, List.chain'_cons] at h
    exact h.1.1
  | cons i l ih =>
    intro p h
    simp only [List.map_cons, List.cons_append, List.chain'_cons] at h
    exact ⟨h.1.1, ih _ h.2⟩

theorem linked_unique (c : Cache K V) (l : List Nat) :
    ∀ p l', c.Linked p l → c.Linked p l' → l = l' := by
  induction l with
  | nil =>
    intro p l' h h'
    cases l' with
    | nil => rfl
    | cons j l' =>
      simp only [Cache.Linked] at h h'
      rw [h] at h'
      cases h'.1
  | cons i l ih =>
    intro p l' h h'
    cases l' with
    | nil =>
      simp only [Cache.Linked] at h h'
      rw [h'] at h
      cases h.1
    | cons j l' =>
      simp only [Cache.Linked] at h h'
      have := h.1.symm.trans h'.1
      cases this
      rw [ih _ _ h.2 h'.2]

theorem walk_of_linked (c : Cache K V) (l : List Nat) :
    ∀ p fuel, c.Linked p l → l.length ≤ fuel → c.walk fuel p = l := by
  induction l with
  | nil =>
    intro p fuel h _
    cases fuel with
    | zero => rfl
    | succ n =>
      simp only [Cache.Linked] at h
      simp [Cache.walk, h]
  | cons i l ih =>
    intro p fuel h hf
    cases fuel with
    | zero => simp at hf
    | succ n =>
      simp only [Cache.Linked] at h
      simp only [Cache.walk, h.1]
      rw [ih _ n h.2 (by simpa using hf)]

theorem Cache.Inv.length_le [DecidableEq K] [Inhabited K] {c : Cache K V} {live : List Nat}
    (hinv : c.Inv live) : live.length ≤ c.z_entry_.length := by
  obtain ⟨fl, -, hp⟩ := hinv.free
  have := hp.length_eq
  simp only [List.length_append, List.length_range] at this
  omega

theorem Cache.Inv.recency [DecidableEq K] [Inhabited K] {c : Cache K V} {live : List Nat}
    (hinv : c.Inv live) : c.RecencyList live :=
  linked_of_chain c live Ptr.head hinv.chain

theorem Cache.Inv.liveSlots [DecidableEq K] [Inhabited K] {c : Cache K V} {live : List Nat}
    (hinv : c.Inv live) : c.liveSlots = live :=
  walk_of_linked c live Ptr.head _ hinv.recency hinv.length_le

theorem Cache.Inv.liveKeys [DecidableEq K] [Inhabited K] {c : Cache K V} {live : List Nat}
    (hinv : c.Inv live) : c.liveKeys = live.map c.keyAt := by
  rw [Cache.liveKeys, hinv.liveSlots]

/-- Every state a cache with at least one slot goes through satisfies the
invariant, and no call of a run fails. -/
theorem run_inv [DecidableEq K] [Inhabited K] [Inhabited V] (capacity : Nat) (hc : 1 ≤ capacity)
    (ops : List (Op K V)) :
    ∃ c live, (Cache.init capacity : Cache K V).run ops =
        Except.ok (c, (RefLRU.run capacity [] ops).2) ∧
      c.Inv live ∧ c.z_entry_.length = capacity ∧
      c.pairs live = (RefLRU.run capacity [] ops).1 := by
  obtain ⟨c, live, h1, h2, h3, h4⟩ := run_sim ops (Cache.init capacity : Cache K V) []
    (init_inv capacity) (by rw [init_length]; exact hc)
  rw [init_length] at h1 h3 h4
  exact ⟨c, live, h1, h2, h3, h4⟩

/-! ## Touch times -/

theorem lastTouch_append [DecidableEq K] (t : List K) (k a : K) :
    lastTouch (t ++ [k]) a = if a = k then t.length + 1 else lastTouch t a := by
  unfold lastTouch
  rw [List.reverse_append, List.reverse_singleton, List.singleton_append, List.indexOf_cons,
    List.length_append, List.length_singleton]
  by_cases h : a = k
  · subst h; simp
  · have h' : (k == a) = false := by simpa using fun h' => h h'.symm
    simp only [h', cond_false, h, if_false]
    omega

theorem lastTouch_le [DecidableEq K] (t : List K) (a : K) : lastTouch t a ≤ t.length :=
  Nat.sub_le _ _

theorem ordered_nil [DecidableEq K] : Ordered ([] : List K) [] := by
  unfold Ordered
  simp

theorem ordered_touch [DecidableEq K] (t ks ks' : List K) (k : K) (h : Ordered t ks)
    (hsub : ks'.Sublist ks) (hk : k ∉ ks') : Ordered (t ++ [k]) (k :: ks') := by
  unfold Ordered at h ⊢
  obtain ⟨hpw, hpos, -, -⟩ := h
  refine ⟨?_, ?_, (fun h => by cases h), ?_⟩
  · rw [List.pairwise_cons]
    constructor
    · intro b hb
      have hbk : b ≠ k := fun h => hk (h ▸ hb)
      rw [lastTouch_append, lastTouch_append, if_neg hbk, if_pos rfl]
      have := lastTouch_le t b
      omega
    · refine (hpw.sublist hsub).imp_of_mem ?_
      intro a b ha hb hab
      have hak : a ≠ k := fun h => hk (h ▸ ha)
      have hbk : b ≠ k := fun h => hk (h ▸ hb)
      rw [lastTouch_append, lastTouch_append, if_neg hak, if_neg hbk]
      exact hab
  · intro a ha
    rw [lastTouch_append]
    split
    · omega
    · rcases List.mem_cons.1 ha with h | h
      · contradiction
      · exact hpos a (hsub.subset h)
  · intro a ha b hb
    simp only [List.head?_cons, Option.mem_def, Option.some.injEq] at ha
    have hl : (t ++ [k]).getLast? = some k := by simp
    rw [hl] at hb
    simp only [Option.mem_def, Option.some.injEq] at hb
    exact ha.symm.trans hb

/-! ## The keys of the reference model -/

theorem ref_put_keys [DecidableEq K] (cap : Nat) (l : List (K × V)) (k : K) (v : V) :
    (RefLRU.put cap l k v).map Prod.fst =
      k :: (if k ∈ l.map Prod.fst then (l.map Prod.fst).filter (fun a => !decide (a = k))
        else if (l.map Prod.fst).length = cap then (l.map Prod.fst).dropLast
        else l.map Prod.fst) := by
  unfold RefLRU.put
  by_cases h : k ∈ l.map Prod.fst
  · simp only [if_pos h, List.map_cons, List.filter_map]
    rfl
  · simp only [if_neg h, List.map_cons, List.length_map]
    split
    · rw [List.map_dropLast]
    · rfl

theorem ref_get_hit [DecidableEq K] (l : List (K × V)) (k : K) (h : k ∈ l.map Prod.fst) :
    (RefLRU.get l k).1.map Prod.fst = k :: (l.map Prod.fst).filter (fun a => !decide (a = k)) ∧
      ∃ x, (RefLRU.get l k).2 = some x := by
  unfold RefLRU.get
  cases hf : l.find? (fun kv => decide (kv.1 = k)) with
  | none =>
    rw [List.find?_eq_none] at hf
    obtain ⟨kv, hkv, hk⟩ := List.mem_map.1 h
    exact absurd (by simpa using hk) (hf kv hkv)
  | some kv =>
    have := List.find?_some hf
    simp only [decide_eq_true_eq] at this
    simp only [List.map_cons, this, List.filter_map]
    exact ⟨rfl, _, rfl⟩

theorem ref_get_miss [DecidableEq K] (l : List (K × V)) (k : K) (h : k ∉ l.map Prod.fst) :
    RefLRU.get l k = (l, none) := by
  unfold RefLRU.get
  have : l.find? (fun kv => decide (kv.1 = k)) = none := by
    rw [List.find?_eq_none]
    intro kv hkv hk
    exact h (List.mem_map.2 ⟨kv, hkv, by simpa using hk⟩)
  rw [this]

/-! ## The live keys along a call -/

/-- What a call does to the list of live keys. -/
theorem step_keys [DecidableEq K] [Inhabited K] [Inhabited V] (c : Cache K V) (live : List Nat)
    (hinv : c.Inv live) (hpos : 1 ≤ c.z_entry_.length) (op : Op K V) :
    ∃ c' live' o, c.step op = Except.ok (c', o) ∧ c'.Inv live' ∧
      c'.z_entry_.length = c.z_entry_.length ∧
      (∀ k v, op = Op.put k v → o = none ∧ live'.map c'.keyAt =
        k :: (if k ∈ live.map c.keyAt then (live.map c.keyAt).filter (fun a => !decide (a = k))
          else if (live.map c.keyAt).length = c.z_entry_.length then (live.map c.keyAt).dropLast
          else live.map c.keyAt)) ∧
      (∀ k, op = Op.get k → k ∈ live.map c.keyAt → (∃ x, o = some x) ∧
        live'.map c'.keyAt = k :: (live.map c.keyAt).filter (fun a => !decide (a = k))) ∧
      (∀ k, op = Op.get k → k ∉ live.map c.keyAt → o = none ∧
        live'.map c'.keyAt = live.map c.keyAt) := by
  obtain ⟨c', live', hstep, hinv', hlen, hp⟩ := step_sim c live hinv hpos op
  have hk := congrArg (List.map Prod.fst) hp
  rw [pairs_keys] at hk
  refine ⟨c', live', _, hstep, hinv', hlen, ?_, ?_, ?_⟩
  · rintro k v rfl
    refine ⟨rfl, ?_⟩
    rw [hk]
    simp only [RefLRU.step]
    rw [ref_put_keys, pairs_keys]
  · rintro k rfl hmem
    rw [← pairs_keys (V := V)] at hmem
    obtain ⟨h1, h2⟩ := ref_get_hit (c.pairs live) k hmem
    refine ⟨h2, ?_⟩
    rw [hk]
    simp only [RefLRU.step]
    rw [h1, pairs_keys]
  · rintro k rfl hmem
    rw [← pairs_keys (V := V)] at hmem
    have h1 := ref_get_miss (c.pairs live) k hmem
    simp only [RefLRU.step, h1] at hk ⊢
    rw [pairs_keys] at hk
    exact ⟨trivial, hk⟩

theorem not_mem_filter_ne [DecidableEq K] (ks : List K) (k : K) :
    k ∉ ks.filter (fun a => !decide (a = k)) := by
  simp [List.mem_filter]

theorem touches_cons (op : Op K V) (ops : List (Op K V)) (o : Option V)
    (os : List (Option V)) :
    touches (op :: ops) (o :: os) = (touch op o).toList ++ touches ops os := by
  unfold touches
  cases h : touch op o <;> simp [h]

/-- One call keeps the invariant, with the touch of the call added to the log. -/
theorem step_good [DecidableEq K] [Inhabited K] [Inhabited V] (capacity : Nat)
    (hc : 1 ≤ capacity) (c : Cache K V) (t : List K) (h : c.Good capacity t) (op : Op K V) :
    ∃ c' o, c.step op = Except.ok (c', o) ∧ c'.Good capacity (t ++ (touch op o).toList) := by
  obtain ⟨live, hinv, hlen, hord⟩ := h
  obtain ⟨c', live', o, hstep, hinv', hlen', hput, hhit, hmiss⟩ :=
    step_keys c live hinv (by omega) op
  refine ⟨c', o, hstep, live', hinv', hlen'.trans hlen, ?_⟩
  cases op with
  | put k v =>
    obtain ⟨rfl, hk⟩ := hput k v rfl
    rw [hk]
    simp only [touch, Option.toList]
    apply ordered_touch t _ _ k hord
    · split
      · exact List.filter_sublist _
      · split
        · exact List.dropLast_sublist _
        · exact List.Sublist.refl _
    · split
      · exact not_mem_filter_ne _ k
      · next hn =>
        split
        · exact fun h => hn (List.dropLast_subset _ h)
        · exact hn
  | get k =>
    by_cases hmem : k ∈ live.map c.keyAt
    · obtain ⟨⟨x, rfl⟩, hk⟩ := hhit k rfl hmem
      rw [hk]
      simp only [touch, Option.toList]
      exact ordered_touch t _ _ k hord (List.filter_sublist _) (not_mem_filter_ne _ k)
    · obtain ⟨rfl, hk⟩ := hmiss k rfl hmem
      rw [hk]
      simpa [touch] using hord

/-- No call of a run fails, and the run keeps the invariant, with its touches
added to the log. -/
theorem run_good [DecidableEq K] [Inhabited K] [Inhabited V] (capacity : Nat)
    (hc : 1 ≤ capacity) (ops : List (Op K V)) :
    ∀ (c : Cache K V) (t : List K), c.Good capacity t →
    ∃ c' outs, c.run ops = Except.ok (c', outs) ∧ c'.Good capacity (t ++ touches ops outs) := by
  induction ops with
  | nil =>
    intro c t h
    exact ⟨c, [], rfl, by simpa [touches] using h⟩
  | cons op ops ih =>
    intro c t h
    obtain ⟨c1, o, hstep, h1⟩ := step_good capacity hc c t h op
    obtain ⟨c2, os, hrun, h2⟩ := ih c1 _ h1
    refine ⟨c2, o :: os, ?_, ?_⟩
    · simp only [Cache.run, bind, Except.bind, hstep, hrun, pure, Except.pure]
    · rw [touches_cons, ← List.append_assoc]
      exact h2

theorem init_good [DecidableEq K] [Inhabited K] [Inhabited V] (capacity : Nat) :
    (Cache.init capacity : Cache K V).Good capacity [] :=
  ⟨[], init_inv capacity, init_length capacity, ordered_nil⟩

/-- A state reached by a run from a fresh cache with at least one slot
satisfies the invariant, with the touches of the run as log. -/
theorem reachable_good [DecidableEq K] [Inhabited K] [Inhabited V] (capacity : Nat)
    (hc : 1 ≤ capacity) (ops : List (Op K V)) (c : Cache K V) (outs : List (Option V))
    (h : (Cache.init capacity : Cache K V).run ops = Except.ok (c, outs)) :
    c.Good capacity (touches ops outs) := by
  obtain ⟨c', outs', hrun, hg⟩ := run_good capacity hc ops (Cache.init capacity : Cache K V) []
    (init_good capacity)
  rw [hrun] at h
  cases h
  simpa using hg

/-! ## Reachable states -/

theorem step_put_ok [DecidableEq K] (c c' : Cache K V) (k : K) (v : V) (o : Option V)
    (h : c.step (Op.put k v) = Except.ok (c', o)) : c.Put k v = Except.ok c' ∧ o = none := by
  simp only [Cache.step, bind, Except.bind, pure, Except.pure] at h
  cases hp : c.Put k v with
  | error e => rw [hp] at h; cases h
  | ok c1 =>
    rw [hp] at h
    cases h
    exact ⟨rfl, rfl⟩

theorem step_get_ok [DecidableEq K] (c c' : Cache K V) (k : K) (o : Option V)
    (h : c.step (Op.get k) = Except.ok (c', o)) :
    ∃ pp, c.Get k = Except.ok (c', pp) ∧ o = c'.valueAt pp := by
  simp only [Cache.step, bind, Except.bind, pure, Except.pure] at h
  cases hp : c.Get k with
  | error e => rw [hp] at h; cases h
  | ok r =>
    obtain ⟨c1, pp⟩ := r
    rw [hp] at h
    cases h
    exact ⟨pp, rfl, rfl⟩

/-- In a cache without slots, in which `tail_->prev` is still `NULL`, `Put`
follows that null pointer. -/
theorem Put_zero [DecidableEq K] [Inhabited K] (c : Cache K V) (hinv : c.Inv [])
    (hlen : c.z_entry_.length = 0) (htp : c.tail_.prev = Ptr.null) (k : K) (v : V) :
    c.Put k v = Except.error Fault.nullDeref := by
  have hk : ∀ i, mapFind c.key_entry_map_ k ≠ some (Ptr.slot i) := by
    intro i hi
    rcases hinv.mapSound k _ hi with h | ⟨j, -, hj, -⟩
    · cases h
    · cases hj
  rw [Put_miss_eq c [] hinv k v hk]
  obtain ⟨fl, hfl, hp⟩ := hinv.free
  have hfree : c.free_entry_list_ = [] := by
    have := hp.length_eq
    simp only [List.nil_append, hlen, List.length_range, List.length_eq_zero] at this
    rw [hfl, this]; rfl
  have hd0 : Cache.deref { c with key_entry_map_ := (mapIndex c.key_entry_map_ k).1 } Ptr.tail =
      Except.ok c.tail_ := deref_ok _ _ _ rfl
  simp only [bind, Except.bind]
  rw [if_pos (by rw [hfree]; rfl)]
  simp only [Cache.evict, bind, Except.bind, hd0, htp, Cache.Detach, Cache.deref, Cache.ent]
  rfl

theorem step_zero [DecidableEq K] [Inhabited K] (c c' : Cache K V) (op : Op K V) (o : Option V)
    (hinv : c.Inv []) (hlen : c.z_entry_.length = 0) (htp : c.tail_.prev = Ptr.null)
    (h : c.step op = Except.ok (c', o)) :
    c'.Inv [] ∧ c'.z_entry_.length = 0 ∧ c'.tail_.prev = Ptr.null := by
  cases op with
  | put k v =>
    have h1 := (step_put_ok c c' k v o h).1
    rw [Put_zero c hinv hlen htp k v] at h1
    cases h1
  | get k =>
    obtain ⟨pp, h1, -⟩ := step_get_ok c c' k o h
    have hk : ∀ i, mapFind c.key_entry_map_ k ≠ some (Ptr.slot i) := by
      intro i hi
      rcases hinv.mapSound k _ hi with h | ⟨j, -, hj, -⟩
      · cases h
      · cases hj
    obtain ⟨c1, hget, hinv1, hc1⟩ := Get_miss c [] hinv k hk
    rw [hget] at h1
    cases h1
    rw [hc1]
    exact ⟨hc1 ▸ hinv1, hlen, htp⟩

theorem run_cons_ok [DecidableEq K] (c c' : Cache K V) (op : Op K V) (ops : List (Op K V))
    (outs : List (Option V)) (h : c.run (op :: ops) = Except.ok (c', outs)) :
    ∃ c1 o os, c.step op = Except.ok (c1, o) ∧ c1.run ops = Except.ok (c', os) ∧
      outs = o :: os := by
  simp only [Cache.run, bind, Except.bind, pure, Except.pure] at h
  cases hs : c.step op with
  | error e => rw [hs] at h; cases h
  | ok r =>
    obtain ⟨c1, o⟩ := r
    rw [hs] at h
    simp only at h
    cases hr : c1.run ops with
    | error e => rw [hr] at h; cases h
    | ok r =>
      obtain ⟨c2, os⟩ := r
      rw [hr] at h
      cases h
      exact ⟨c1, o, os, rfl, hr, rfl⟩

theorem run_zero [DecidableEq K] [Inhabited K] (ops : List (Op K V)) :
    ∀ (c c' : Cache K V) (outs : List (Option V)), c.Inv [] → c.z_entry_.length = 0 →
      c.tail_.prev = Ptr.null → c.run ops = Except.ok (c', outs) →
      c'.Inv [] ∧ c'.z_entry_.length = 0 ∧ c'.tail_.prev = Ptr.null := by
  induction ops with
  | nil =>
    intro c c' outs h1 h2 h3 h
    simp only [Cache.run] at h
    cases h
    exact ⟨h1, h2, h3⟩
  | cons op ops ih =>
    intro c c' outs h1 h2 h3 h
    obtain ⟨c1, o, os, hs, hr, -⟩ := run_cons_ok c c' op ops outs h
    obtain ⟨g1, g2, g3⟩ := step_zero c c1 op o h1 h2 h3 hs
    exact ih c1 c' os g1 g2 g3 hr

theorem reachableFrom_inv [DecidableEq K] [Inhabited K] [Inhabited V] (capacity : Nat)
    (c : Cache K V) (h : c.ReachableFrom capacity) :
    ∃ live, c.Inv live ∧ c.z_entry_.length = capacity := by
  obtain ⟨ops, outs, hrun⟩ := h
  rcases Nat.eq_zero_or_pos capacity with h0 | hpos
  · subst h0
    obtain ⟨g1, g2, -⟩ := run_zero ops (Cache.init 0 : Cache K V) c outs (init_inv 0)
      (init_length 0) rfl hrun
    exact ⟨[], g1, g2⟩
  · obtain ⟨c', live, h1, h2, h3, -⟩ := run_inv (K := K) (V := V) capacity hpos ops
    rw [hrun] at h1
    cases h1
    exact ⟨live, h2, h3⟩

theorem reachable_iff [DecidableEq K] [Inhabited K] [Inhabited V] (c : Cache K V) :
    c.Reachable ↔ ∃ capacity, c.ReachableFrom capacity := by
  constructor
  · rintro ⟨capacity, c0, ops, outs, hc, hrun⟩
    unfold Cache.construct at hc
    split at hc
    · cases hc
    · cases hc
      exact ⟨capacity.toNat, ops, outs, hrun⟩
  · rintro ⟨capacity, ops, outs, hrun⟩
    refine ⟨(capacity : Int), Cache.init capacity, ops, outs, ?_, hrun⟩
    simp [Cache.construct]

theorem reachable_inv [DecidableEq K] [Inhabited K] [Inhabited V] (c : Cache K V)
    (h : c.Reachable) : ∃ live, c.Inv live := by
  obtain ⟨capacity, hc⟩ := (reachable_iff c).1 h
  obtain ⟨live, hinv, -⟩ := reachableFrom_inv capacity c hc
  exact ⟨live, hinv⟩

/-! ## The run of `main` -/

theorem main_run_ok (n : Nat) :
    (Cache.init 3 : Cache Int String).run (mainOps.take n) =
      Except.ok (mainState n, mainOuts n) := by
  obtain ⟨c, live, h, -⟩ := run_inv (K := Int) (V := String) 3 (by decide) (mainOps.take n)
  simp only [mainState, mainOuts, h]

theorem mainState_reachable (n : Nat) : (mainState n).Reachable :=
  ⟨3, Cache.init 3, mainOps.take n, mainOuts n, rfl, main_run_ok n⟩

/-! ## Order of the live keys -/

theorem ordered_last [DecidableEq K] (t ks : List K) (e : K) (h : Ordered t (ks ++ [e])) :
    ∀ k' ∈ ks ++ [e], k' ≠ e → lastTouch t e < lastTouch t k' := by
  intro k' hk' hne
  have hpw := h.1
  rw [List.pairwise_append] at hpw
  simp only [List.mem_append, List.mem_singleton] at hk'
  rcases hk' with h1 | h1
  · exact hpw.2.2 k' h1 e (by simp)
  · exact absurd h1 hne

theorem ordered_head [DecidableEq K] (t ks : List K) (a : K) (h : Ordered t (a :: ks)) :
    t.getLast? = some a := by
  obtain ⟨-, hpos, -, hhead⟩ := h
  have h1 := hpos a (by simp)
  have h2 := lastTouch_le t a
  have hne : t ≠ [] := by
    intro h0; subst h0; simp at h2; omega
  rw [List.getLast?_eq_getLast _ hne]
  have := hhead a (by simp) (t.getLast hne) (by rw [List.getLast?_eq_getLast _ hne]; simp)
  rw [this]

theorem ordered_sublist [DecidableEq K] (t ks ks' : List K) (h : Ordered t ks)
    (hs : ks'.Sublist ks) : ks'.Pairwise (fun a b => lastTouch t b < lastTouch t a) :=
  h.1.sublist hs

theorem Cache.Inv.free_nil_iff [DecidableEq K] [Inhabited K] {c : Cache K V} {live : List Nat}
    (hinv : c.Inv live) : c.free_entry_list_ = [] ↔ live.length = c.z_entry_.length := by
  obtain ⟨fl, hfl, hp⟩ := hinv.free
  have hlen := hp.length_eq
  simp only [List.length_append, List.length_range] at hlen
  rw [hfl]
  constructor
  · intro h
    have : fl = [] := by simpa using h
    subst this
    simpa using hlen
  · intro h
    have : fl.length = 0 := by omega
    rw [List.length_eq_zero] at this
    subst this
    rfl

theorem filter_ne_length [DecidableEq K] (ks : List K) (k : K) (hnd : ks.Nodup) (hk : k ∈ ks) :
    (ks.filter (fun a => !decide (a = k))).length + 1 = ks.length := by
  have h1 := hnd.erase_eq_filter k
  have h2 : ks.filter (fun a => !decide (a = k)) = ks.erase k := by
    rw [h1]
    apply List.filter_congr
    intro x _
    by_cases hx : x = k <;> simp [hx]
  rw [h2, List.length_erase_of_mem hk]
  have : 0 < ks.length := List.length_pos_of_mem hk
  omega

theorem mem_filter_ne [DecidableEq K] (ks : List K) (k x : K) :
    x ∈ ks.filter (fun a => !decide (a = k)) ↔ x ∈ ks ∧ x ≠ k := by
  simp [List.mem_filter]

/-- `Put` of a key that is not live, on a full cache: the key takes the front
and the last live key goes. -/
theorem evict_keys [DecidableEq K] [Inhabited K] [Inhabited V] (c : Cache K V) (live : List Nat)
    (hinv : c.Inv live) (hpos : 1 ≤ c.z_entry_.length) (hfull : live.length = c.z_entry_.length)
    (k : K) (v : V) (hk : k ∉ live.map c.keyAt) :
    ∃ c' live' ks0 e, c.Put k v = Except.ok c' ∧ c'.Inv live' ∧
      c'.z_entry_.length = c.z_entry_.length ∧ live.map c.keyAt = ks0 ++ [e] ∧
      live'.map c'.keyAt = k :: ks0 := by
  obtain ⟨c', live', o, hstep, hinv', hlen', hput, -, -⟩ := step_keys c live hinv hpos (Op.put k v)
  obtain ⟨-, hkeys⟩ := hput k v rfl
  rw [if_neg hk, if_pos (by simpa using hfull)] at hkeys
  have hne : live.map c.keyAt ≠ [] := by
    intro h
    have := congrArg List.length h
    simp only [List.length_map, List.length_nil] at this
    omega
  refine ⟨c', live', (live.map c.keyAt).dropLast, (live.map c.keyAt).getLast hne,
    (step_put_ok c c' k v o hstep).1, hinv', hlen', ?_, hkeys⟩
  exact (List.dropLast_append_getLast hne).symm

/-! ## A pair that stays in the reference model -/

theorem ref_step_nodup [DecidableEq K] (cap : Nat) (l : List (K × V)) (op : Op K V)
    (h : (l.map Prod.fst).Nodup) : ((RefLRU.step cap l op).1.map Prod.fst).Nodup := by
  cases op with
  | put k v =>
    simp only [RefLRU.step]
    rw [ref_put_keys, List.nodup_cons]
    split
    · exact ⟨not_mem_filter_ne _ k, h.filter _⟩
    · next hk =>
      split
      · exact ⟨fun h' => hk (List.dropLast_subset _ h'), h.sublist (List.dropLast_sublist _)⟩
      · exact ⟨hk, h⟩
  | get k =>
    simp only [RefLRU.step]
    by_cases hk : k ∈ l.map Prod.fst
    · rw [(ref_get_hit l k hk).1, List.nodup_cons]
      exact ⟨not_mem_filter_ne _ k, h.filter _⟩
    · rw [ref_get_miss l k hk]
      exact h

theorem ref_run_concat [DecidableEq K] (cap : Nat) (ops : List (Op K V)) (op : Op K V) :
    ∀ l : List (K × V), RefLRU.run cap l (ops ++ [op]) =
      ((RefLRU.step cap (RefLRU.run cap l ops).1 op).1,
        (RefLRU.run cap l ops).2 ++ [(RefLRU.step cap (RefLRU.run cap l ops).1 op).2]) := by
  induction ops with
  | nil => intro l; rfl
  | cons o ops ih =>
    intro l
    rw [List.cons_append]
    simp only [RefLRU.run]
    rw [ih]
    rfl

theorem keeps_get_self [DecidableEq K] (D : List K) (k : K) (v : V) (l : List (K × V))
    (hkD : k ∉ D) (h : RefLRU.Keeps D k v l) :
    RefLRU.get l k = ((k, v) :: l.filter (fun kv => !decide (kv.1 = k)), some v) := by
  obtain ⟨-, pre, post, rfl, hpre⟩ := h
  have hf : (pre ++ (k, v) :: post).find? (fun kv => decide (kv.1 = k)) = some (k, v) := by
    rw [List.find?_append]
    have : pre.find? (fun kv => decide (kv.1 = k)) = none := by
      rw [List.find?_eq_none]
      intro kv hkv hk
      simp only [decide_eq_true_eq] at hk
      exact hkD (hpre k (List.mem_map.2 ⟨kv, hkv, hk⟩))
    rw [this]
    simp
  simp only [RefLRU.get, hf]

theorem keeps_front [DecidableEq K] (D : List K) (k : K) (v : V) (l : List (K × V))
    (h : (((k, v) :: l).map Prod.fst).Nodup) : RefLRU.Keeps D k v ((k, v) :: l) :=
  ⟨h, [], l, rfl, fun _ hx => by cases hx⟩

/-- Moving another key to the front keeps the pair and adds that key to the
ones in front of it. -/
theorem keeps_touch [DecidableEq K] (D : List K) (k k' : K) (v : V) (kv' : K × V)
    (l : List (K × V)) (hk' : kv'.1 = k') (hne : k' ≠ k) (hD : k' ∈ D)
    (hnd : ((kv' :: l.filter (fun kv => !decide (kv.1 = k'))).map Prod.fst).Nodup)
    (h : RefLRU.Keeps D k v l) :
    RefLRU.Keeps D k v (kv' :: l.filter (fun kv => !decide (kv.1 = k'))) := by
  obtain ⟨-, pre, post, rfl, hpre⟩ := h
  refine ⟨hnd, kv' :: pre.filter (fun kv => !decide (kv.1 = k')),
    post.filter (fun kv => !decide (kv.1 = k')), ?_, ?_⟩
  · have : ¬ k = k' := fun h => hne h.symm
    simp [List.filter_append, List.filter_cons, this]
  · intro x hx
    simp only [List.map_cons, List.mem_cons] at hx
    rcases hx with h | h
    · rw [h, hk']; exact hD
    · obtain ⟨kv, hkv, rfl⟩ := List.mem_map.1 h
      exact hpre _ (List.mem_map.2 ⟨kv, (List.mem_filter.1 hkv).1, rfl⟩)

theorem keeps_step [DecidableEq K] (cap : Nat) (hc : 1 ≤ cap) (D : List K) (k : K) (v : V)
    (hkD : k ∉ D) (hDlen : D.length ≤ cap - 1) (l : List (K × V)) (op : Op K V)
    (hop : op = Op.get k ∨ ((∀ v', op ≠ Op.put k v') ∧ op.key ≠ k ∧ op.key ∈ D))
    (h : RefLRU.Keeps D k v l) : RefLRU.Keeps D k v (RefLRU.step cap l op).1 := by
  have hnd' := ref_step_nodup cap l op h.1
  rcases hop with rfl | ⟨-, hne, hD⟩
  · simp only [RefLRU.step] at hnd' ⊢
    rw [keeps_get_self D k v l hkD h] at hnd' ⊢
    exact keeps_front D k v _ hnd'
  · cases op with
    | put k' v' =>
      simp only [Op.key] at hne hD
      simp only [RefLRU.step, RefLRU.put] at hnd' ⊢
      by_cases hmem : k' ∈ l.map Prod.fst
      · rw [if_pos hmem] at hnd' ⊢
        exact keeps_touch D k k' v (k', v') l rfl hne hD hnd' h
      · rw [if_neg hmem] at hnd' ⊢
        obtain ⟨hnd, pre, post, rfl, hpre⟩ := h
        refine ⟨hnd', (k', v') :: pre, ?_⟩
        have hpre' : ∀ x ∈ ((k', v') :: pre).map Prod.fst, x ∈ D := by
          intro x hx
          simp only [List.map_cons, List.mem_cons] at hx
          rcases hx with h | h
          · rw [h]; exact hD
          · exact hpre x h
        split
        · next hfull =>
          cases post with
          | nil =>
            exfalso
            have h1 : (((k', v') :: pre).map Prod.fst).Nodup := by
              rw [List.map_cons, List.nodup_cons]
              constructor
              · intro hx
                exact hmem (by rw [List.map_append]; exact List.mem_append_left _ hx)
              · rw [List.map_append] at hnd
                exact (List.nodup_append.1 hnd).1
            have h2 := (h1.subperm hpre').length_le
            simp only [List.length_map, List.length_cons, List.length_append,
              List.length_singleton, List.length_nil] at h2 hfull
            omega
          | cons p post =>
            refine ⟨(p :: post).dropLast, ?_, hpre'⟩
            rw [List.dropLast_append_cons]
            rfl
        · exact ⟨post, rfl, hpre'⟩
    | get k' =>
      simp only [Op.key] at hne hD
      simp only [RefLRU.step] at hnd' ⊢
      unfold RefLRU.get at hnd' ⊢
      cases hf : l.find? (fun kv => decide (kv.1 = k')) with
      | none => simpa [hf] using h
      | some kv =>
        rw [hf] at hnd'
        have hkv := List.find?_some hf
        simp only [decide_eq_true_eq] at hkv
        exact keeps_touch D k k' v kv l hkv hne hD hnd' h

theorem keeps_run [DecidableEq K] (cap : Nat) (hc : 1 ≤ cap) (D : List K) (k : K) (v : V)
    (hkD : k ∉ D) (hDlen : D.length ≤ cap - 1) (ops : List (Op K V)) :
    ∀ l : List (K × V),
      (∀ op ∈ ops, op = Op.get k ∨ ((∀ v', op ≠ Op.put k v') ∧ op.key ≠ k ∧ op.key ∈ D)) →
      RefLRU.Keeps D k v l → RefLRU.Keeps D k v (RefLRU.run cap l ops).1 := by
  induction ops with
  | nil => intro l _ h; exact h
  | cons op ops ih =>
    intro l hops h
    simp only [RefLRU.run]
    exact ih _ (fun o ho => hops o (List.mem_cons_of_mem _ ho))
      (keeps_step cap hc D k v hkD hDlen l op (hops op (by simp)) h)

/-! ## A second `Get` on the same key -/

theorem ent_store_valid (c : Cache K V) (p q : Ptr) (e : Entry K V)
    (h : (c.ent p).isSome = true) :
    (c.store p e).ent q = if q = p then some e else c.ent q := by
  rw [ent_store]
  simp [h]

theorem cache_ext (c c' : Cache K V) (h : ∀ q, c.ent q = c'.ent q)
    (hf : c.free_entry_list_ = c'.free_entry_list_)
    (hm : c.key_entry_map_ = c'.key_entry_map_) : c = c' := by
  have h1 := h Ptr.head
  have h2 := h Ptr.tail
  have h3 : c.z_entry_ = c'.z_entry_ := List.ext_getElem? (fun j => h (Ptr.slot j))
  simp only [Cache.ent, Option.some.injEq] at h1 h2
  cases c
  cases c'
  simp only [Cache.mk.injEq]
  exact ⟨h1, h2, h3, hf, hm⟩

/-- Detaching the slot at the front and attaching it again rebuilds the very
same state. -/
theorem touch_front_fixed (c : Cache K V) (i : Nat) (l : List Nat)
    (hnd : (i :: l).Nodup) (hch : List.Chain' c.Link (ptrs (i :: l))) :
    ∃ c1, c.Detach (Ptr.slot i) = Except.ok c1 ∧ c1.Attach (Ptr.slot i) = Except.ok c := by
  obtain ⟨n, ys, h3, h4⟩ := ptrs_cons_split l i
  have hndp := ptrs_nodup _ hnd
  rw [h4] at hch hndp
  rw [List.chain'_cons, List.chain'_cons] at hch
  obtain ⟨hhi, hin, -⟩ := hch
  simp only [List.nodup_cons, List.mem_cons, not_or] at hndp
  obtain ⟨⟨-, hhn, -⟩, ⟨hsn, -⟩, -⟩ := hndp
  obtain ⟨ei, hei, hein⟩ : ∃ ei, c.ent (Ptr.slot i) = some ei ∧ ei.next = n := by
    have := hin.1
    simp only [Cache.nextOf, Option.map_eq_some'] at this
    exact this
  have heip : ei.prev = Ptr.head := by
    rcases hhi.2 with h | h
    · simpa [Cache.prevOf, hei] using h
    · cases h.2
  have hhn' : c.head_.next = Ptr.slot i := by
    simpa [Cache.nextOf, Cache.ent] using hhi.1
  obtain ⟨en, hen, henp⟩ : ∃ en, c.ent n = some en ∧ en.prev = Ptr.slot i := by
    rcases hin.2 with h | h
    · simp only [Cache.prevOf, Option.map_eq_some'] at h
      exact h
    · cases h.1
  have hd := Detach_ok c (Ptr.slot i) Ptr.head n ei c.head_ en hei heip hein rfl hen
    (by simp) hhn
  refine ⟨_, hd, ?_⟩
  have e1 : (c.store Ptr.head { c.head_ with next := n }).ent n = some en := by
    rw [ent_store_ne _ _ _ _ (Ne.symm hhn), hen]
  have e2 : ((c.store Ptr.head { c.head_ with next := n }).store n
      { en with prev := Ptr.head }).ent (Ptr.slot i) = some ei := by
    rw [ent_store_ne _ _ _ _ hsn, ent_store_ne _ _ _ _ (by simp), hei]
  have e3 : ((c.store Ptr.head { c.head_ with next := n }).store n
      { en with prev := Ptr.head }).ent n = some { en with prev := Ptr.head } :=
    ent_store_self _ _ _ _ e1
  have e5 : ((c.store Ptr.head { c.head_ with next := n }).store n
      { en with prev := Ptr.head }).head_ = { c.head_ with next := n } := by
    have : ((c.store Ptr.head { c.head_ with next := n }).store n
      { en with prev := Ptr.head }).ent Ptr.head = some { c.head_ with next := n } := by
      rw [ent_store_ne _ _ _ _ hhn]
      exact ent_store_self c Ptr.head c.head_ _ rfl
    simpa only [Cache.ent, Option.some.injEq] using this
  have e4 : ((c.store Ptr.head { c.head_ with next := n }).store n
      { en with prev := Ptr.head }).head_.next = n := by
    rw [e5]
  rw [Attach_ok _ (Ptr.slot i) n ei _ e2 e4 e3 (by simp) (Ne.symm hsn) (Ne.symm hhn)]
  congr 1
  apply cache_ext
  · intro q
    have v1 : (c.ent Ptr.head).isSome = true := rfl
    have v2 : (c.ent n).isSome = true := by rw [hen]; rfl
    have v3 : (c.ent (Ptr.slot i)).isSome = true := by rw [hei]; rfl
    have hn1 : ¬ n = Ptr.head := fun h => hhn h.symm
    have hn2 : ¬ n = Ptr.slot i := fun h => hsn h.symm
    by_cases q1 : q = Ptr.head
    · subst q1
      rw [ent_store_valid _ _ _ _ (by simp only [isSome_ent_store, v1]), if_pos rfl]
      have : c.ent Ptr.head = some c.head_ := rfl
      rw [this, e5]
      cases hc : c.head_
      rw [hc] at hhn'
      simp only at hhn'
      simp [hhn']
    · rw [ent_store_valid _ _ _ _ (by simp only [isSome_ent_store, v1]), if_neg q1]
      rw [ent_store_valid _ _ _ _ (by simp only [isSome_ent_store, v2])]
      by_cases q2 : q = n
      · subst q2
        rw [if_pos rfl, hen]
        cases en
        simp only at henp
        simp [henp]
      · rw [if_neg q2]
        rw [ent_store_valid _ _ _ _ (by simp only [isSome_ent_store, v3])]
        by_cases q3 : q = Ptr.slot i
        · subst q3
          rw [if_pos rfl, hei]
          cases ei
          simp only at heip hein
          simp [heip, hein]
        · rw [if_neg q3, ent_store_ne _ _ _ _ q2, ent_store_ne _ _ _ _ q1]
  · simp only [store_free]
  · simp only [store_map]

/-! ## Well-formed lists -/

theorem chain_weak_of_strong (c : Cache K V) (L : List Ptr) (h : List.Chain' c.DLink L) :
    List.Chain' c.Link L :=
  h.imp (fun {a b} (hab : c.DLink a b) => (⟨hab.1, Or.inl hab.2⟩ : c.Link a b))

theorem chain_strong_of_weak (c : Cache K V) (i : Nat) (l : List Nat)
    (h : List.Chain' c.Link (ptrs (i :: l))) : List.Chain' c.DLink (ptrs (i :: l)) := by
  have hp : ptrs (i :: l) = Ptr.head :: Ptr.slot i :: (l.map Ptr.slot ++ [Ptr.tail]) := rfl
  rw [hp] at h ⊢
  rw [List.chain'_cons] at h ⊢
  constructor
  · refine ⟨h.1.1, ?_⟩
    rcases h.1.2 with h1 | h1
    · exact h1
    · cases h1.2
  · refine (List.Chain'.iff_mem.1 h.2).imp ?_
    rintro a b ⟨ha, -, hab⟩
    refine ⟨hab.1, ?_⟩
    rcases hab.2 with h1 | h1
    · exact h1
    · exfalso
      rw [h1.1] at ha
      simp at ha

theorem run_length [DecidableEq K] (ops : List (Op K V)) :
    ∀ (c c' : Cache K V) (outs : List (Option V)), c.run ops = Except.ok (c', outs) →
      outs.length = ops.length := by
  induction ops with
  | nil =>
    intro c c' outs h
    simp only [Cache.run] at h
    cases h
    rfl
  | cons op ops ih =>
    intro c c' outs h
    obtain ⟨c1, o, os, -, hr, rfl⟩ := run_cons_ok c c' op ops outs h
    simp [ih c1 c' os hr]

theorem touches_of_put (ops : List (Op K V)) :
    ∀ (outs : List (Option V)) (k : K) (v : V), outs.length = ops.length →
      Op.put k v ∈ ops → k ∈ touches ops outs := by
  induction ops with
  | nil => intro outs k v _ h; cases h
  | cons op ops ih =>
    intro outs k v hlen h
    cases outs with
    | nil => simp at hlen
    | cons o os =>
      rw [touches_cons]
      rcases List.mem_cons.1 h with h1 | h1
      · subst h1
        simp [touch]
      · exact List.mem_append_right _ (ih os k v (by simpa using hlen) h1)

/-- After a run with a `Put` in it, a cache with at least one slot has a live
slot. -/
theorem live_nonempty_of_put [DecidableEq K] [Inhabited K] [Inhabited V] (capacity : Nat)
    (hc : 1 ≤ capacity) (ops : List (Op K V)) (c : Cache K V) (outs : List (Option V))
    (hrun : (Cache.init capacity : Cache K V).run ops = Except.ok (c, outs))
    (hput : ∃ k v, Op.put k v ∈ ops) :
    ∃ live, c.Inv live ∧ c.z_entry_.length = capacity ∧ live ≠ [] := by
  obtain ⟨live, hinv, hlen, hord⟩ := reachable_good capacity hc ops c outs hrun
  obtain ⟨k, v, hkv⟩ := hput
  have hk := touches_of_put ops outs k v (run_length ops _ c outs hrun) hkv
  refine ⟨live, hinv, hlen, ?_⟩
  intro h
  subst h
  have := hord.2.2.1 rfl
  rw [this] at hk
  cases hk

theorem main_five_well_formed : (mainState 5).WellFormed ([1] ++ 0 :: [2]) := by
  refine ⟨by decide, ?_⟩
  show List.Chain' _ [Ptr.head, Ptr.slot 1, Ptr.slot 0, Ptr.slot 2, Ptr.tail]
  simp only [List.chain'_cons, List.chain'_singleton, and_true]
  decide

/-! ## The keys of the key index -/

theorem bind_ok {α β : Type} (x : Except Fault α) (f : α → Except Fault β) (b : β)
    (h : x >>= f = Except.ok b) : ∃ a, x = Except.ok a ∧ f a = Except.ok b := by
  cases x with
  | error e => cases h
  | ok a => exact ⟨a, rfl, h⟩

theorem update_map (c c' : Cache K V) (p : Ptr) (f : Entry K V → Entry K V)
    (h : c.update p f = Except.ok c') : c'.key_entry_map_ = c.key_entry_map_ := by
  unfold Cache.update at h
  cases hd : c.deref p with
  | error e => rw [hd] at h; cases h
  | ok e =>
    rw [hd] at h
    cases h
    exact store_map c p _

theorem Detach_map (c c' : Cache K V) (p : Ptr) (h : c.Detach p = Except.ok c') :
    c'.key_entry_map_ = c.key_entry_map_ := by
  unfold Cache.Detach at h
  obtain ⟨e, -, h⟩ := bind_ok _ _ _ h
  obtain ⟨c1, h1, h⟩ := bind_ok _ _ _ h
  obtain ⟨e', -, h⟩ := bind_ok _ _ _ h
  obtain ⟨c2, h2, h⟩ := bind_ok _ _ _ h
  cases h
  rw [update_map _ _ _ _ h2, update_map _ _ _ _ h1]

theorem Attach_map (c c' : Cache K V) (p : Ptr) (h : c.Attach p = Except.ok c') :
    c'.key_entry_map_ = c.key_entry_map_ := by
  unfold Cache.Attach at h
  obtain ⟨c1, h1, h⟩ := bind_ok _ _ _ h
  obtain ⟨e, -, h⟩ := bind_ok _ _ _ h
  obtain ⟨c2, h2, h⟩ := bind_ok _ _ _ h
  obtain ⟨e', -, h⟩ := bind_ok _ _ _ h
  obtain ⟨c3, h3, h⟩ := bind_ok _ _ _ h
  obtain ⟨c4, h4, h⟩ := bind_ok _ _ _ h
  cases h
  rw [update_map _ _ _ _ h4, update_map _ _ _ _ h3, update_map _ _ _ _ h2,
    update_map _ _ _ _ h1]

theorem evict_map [DecidableEq K] (c c' : Cache K V) (h : c.evict = Except.ok c') :
    ∃ k0, c'.key_entry_map_ = mapErase c.key_entry_map_ k0 := by
  unfold Cache.evict at h
  obtain ⟨t, -, h⟩ := bind_ok _ _ _ h
  obtain ⟨c1, h1, h⟩ := bind_ok _ _ _ h
  obtain ⟨e, -, h⟩ := bind_ok _ _ _ h
  cases h
  exact ⟨e.key, by simp only [Detach_map _ _ _ h1]⟩

theorem insert_map [DecidableEq K] (c c' : Cache K V) (k : K) (v : V)
    (h : c.insert k v = Except.ok c') :
    ∃ p, c'.key_entry_map_ = mapAssign c.key_entry_map_ k p := by
  unfold Cache.insert at h
  cases hl : c.free_entry_list_.getLast? with
  | none => rw [hl] at h; cases h
  | some p =>
    rw [hl] at h
    simp only at h
    obtain ⟨c1, h1, h⟩ := bind_ok _ _ _ h
    obtain ⟨c2, h2, h⟩ := bind_ok _ _ _ h
    obtain ⟨c3, h3, h⟩ := bind_ok _ _ _ h
    cases h
    exact ⟨p, by simp only [Attach_map _ _ _ h3, update_map _ _ _ _ h2, update_map _ _ _ _ h1]⟩

theorem mapFind_none_iff [DecidableEq K] (m : List (K × Ptr)) (k : K) :
    mapFind m k = none ↔ k ∉ m.map Prod.fst := by
  induction m with
  | nil => simp [mapFind]
  | cons kp m ih =>
    obtain ⟨k1, p1⟩ := kp
    by_cases h : k1 = k
    · subst h; simp [mapFind]
    · have : ¬ k = k1 := fun h' => h h'.symm
      simp [mapFind, h, ih, this]

theorem mapIndex_keys_nodup [DecidableEq K] (m : List (K × Ptr)) (k : K)
    (h : (m.map Prod.fst).Nodup) : ((mapIndex m k).1.map Prod.fst).Nodup := by
  unfold mapIndex
  cases hf : mapFind m k with
  | some p => exact h
  | none =>
    have hk := (mapFind_none_iff m k).1 hf
    simp only [List.map_append, List.map_cons, List.map_nil]
    rw [List.nodup_append]
    refine ⟨h, List.nodup_singleton _, ?_⟩
    intro x hx hx'
    simp only [List.mem_singleton] at hx'
    exact hk (hx' ▸ hx)

theorem mapAssign_keys [DecidableEq K] (m : List (K × Ptr)) (k : K) (p : Ptr) :
    (mapAssign m k p).map Prod.fst =
      if k ∈ m.map Prod.fst then m.map Prod.fst else m.map Prod.fst ++ [k] := by
  induction m with
  | nil => simp [mapAssign]
  | cons kp m ih =>
    obtain ⟨k1, p1⟩ := kp
    by_cases h : k1 = k
    · subst h; simp [mapAssign]
    · have : ¬ k = k1 := fun h' => h h'.symm
      simp only [mapAssign, h, if_false, List.map_cons, ih, List.mem_cons, this, false_or]
      split <;> simp

theorem mapAssign_keys_nodup [DecidableEq K] (m : List (K × Ptr)) (k : K) (p : Ptr)
    (h : (m.map Prod.fst).Nodup) : ((mapAssign m k p).map Prod.fst).Nodup := by
  rw [mapAssign_keys]
  split
  · exact h
  · next hk =>
    rw [List.nodup_append]
    refine ⟨h, List.nodup_singleton _, ?_⟩
    intro x hx hx'
    simp only [List.mem_singleton] at hx'
    exact hk (hx' ▸ hx)

theorem mapErase_keys_nodup [DecidableEq K] (m : List (K × Ptr)) (k : K)
    (h : (m.map Prod.fst).Nodup) : ((mapErase m k).map Prod.fst).Nodup :=
  h.sublist ((List.filter_sublist m).map Prod.fst)

theorem Put_keys_nodup [DecidableEq K] (c c' : Cache K V) (k : K) (v : V)
    (h : c.Put k v = Except.ok c') (hnd : (c.key_entry_map_.map Prod.fst).Nodup) :
    (c'.key_entry_map_.map Prod.fst).Nodup := by
  have h0 := mapIndex_keys_nodup c.key_entry_map_ k hnd
  unfold Cache.Put at h
  generalize mapIndex c.key_entry_map_ k = mp at h h0
  obtain ⟨m, p⟩ := mp
  simp only at h h0
  split at h
  · obtain ⟨c1, h1, h⟩ := bind_ok _ _ _ h
    obtain ⟨c2, h2, h⟩ := bind_ok _ _ _ h
    rw [Attach_map _ _ _ h, Detach_map _ _ _ h2, update_map _ _ _ _ h1]
    exact h0
  · split at h
    · obtain ⟨c1, h1, h⟩ := bind_ok _ _ _ h
      obtain ⟨q, hq⟩ := insert_map _ _ _ _ h
      obtain ⟨k0, hk0⟩ := evict_map _ _ h1
      rw [hq, hk0]
      exact mapAssign_keys_nodup _ _ _ (mapErase_keys_nodup _ _ h0)
    · obtain ⟨c1, h1, h⟩ := bind_ok _ _ _ h
      cases h1
      obtain ⟨q, hq⟩ := insert_map _ _ _ _ h
      rw [hq]
      exact mapAssign_keys_nodup _ _ _ h0

theorem Get_keys_nodup [DecidableEq K] (c c' : Cache K V) (k : K) (pp : Ptr)
    (h : c.Get k = Except.ok (c', pp)) (hnd : (c.key_entry_map_.map Prod.fst).Nodup) :
    (c'.key_entry_map_.map Prod.fst).Nodup := by
  have h0 := mapIndex_keys_nodup c.key_entry_map_ k hnd
  unfold Cache.Get at h
  generalize mapIndex c.key_entry_map_ k = mp at h h0
  obtain ⟨m, p⟩ := mp
  simp only at h h0
  split at h
  · obtain ⟨c1, h1, h⟩ := bind_ok _ _ _ h
    obtain ⟨c2, h2, h⟩ := bind_ok _ _ _ h
    cases h
    rw [Attach_map _ _ _ h2, Detach_map _ _ _ h1]
    exact h0
  · cases h
    exact h0

theorem run_keys_nodup [DecidableEq K] (ops : List (Op K V)) :
    ∀ (c c' : Cache K V) (outs : List (Option V)), c.run ops = Except.ok (c', outs) →
      (c.key_entry_map_.map Prod.fst).Nodup → (c'.key_entry_map_.map Prod.fst).Nodup := by
  induction ops with
  | nil =>
    intro c c' outs h hnd
    simp only [Cache.run] at h
    cases h
    exact hnd
  | cons op ops ih =>
    intro c c' outs h hnd
    obtain ⟨c1, o, os, hs, hr, -⟩ := run_cons_ok c c' op ops outs h
    refine ih c1 c' os hr ?_
    cases op with
    | put k v => exact Put_keys_nodup c c1 k v (step_put_ok c c1 k v o hs).1 hnd
    | get k =>
      obtain ⟨pp, hg, -⟩ := step_get_ok c c1 k o hs
      exact Get_keys_nodup c c1 k pp hg hnd

theorem mem_iff_mapFind [DecidableEq K] (m : List (K × Ptr))
    (hnd : (m.map Prod.fst).Nodup) (k : K) (p : Ptr) :
    (k, p) ∈ m ↔ mapFind m k = some p := by
  induction m with
  | nil => simp [mapFind]
  | cons kp m ih =>
    obtain ⟨k1, p1⟩ := kp
    simp only [List.map_cons, List.nodup_cons] at hnd
    by_cases h : k1 = k
    · subst h
      have hnot : (k1, p) ∉ m := fun hm => hnd.1 (List.mem_map.2 ⟨(k1, p), hm, rfl⟩)
      simp only [List.mem_cons, Prod.mk.injEq, true_and, hnot, or_false, mapFind, if_true,
        Option.some.injEq]
      exact eq_comm
    · have : ¬ k = k1 := fun h' => h h'.symm
      simp only [List.mem_cons, Prod.mk.injEq, this, false_and, false_or, mapFind, h, if_false]
      exact ih hnd.2

/-- The entries of the key index that hold a slot are as many as the live
slots. -/
theorem Cache.Inv.index_count [DecidableEq K] [Inhabited K] {c : Cache K V} {live : List Nat}
    (hinv : c.Inv live) (hnd : (c.key_entry_map_.map Prod.fst).Nodup) :
    (c.key_entry_map_.filter (fun kp => !decide (kp.2 = Ptr.null))).length = live.length := by
  have hsub : (c.key_entry_map_.filter (fun kp => !decide (kp.2 = Ptr.null))).Sublist
      c.key_entry_map_ := List.filter_sublist _
  have hE : (c.key_entry_map_.filter (fun kp => !decide (kp.2 = Ptr.null))).Nodup :=
    (List.Nodup.of_map Prod.fst hnd).sublist hsub
  have hmemE : ∀ kp, kp ∈ c.key_entry_map_.filter (fun kp => !decide (kp.2 = Ptr.null)) ↔
      ∃ i, i ∈ live ∧ kp = (c.keyAt i, Ptr.slot i) := by
    rintro ⟨k, p⟩
    rw [List.mem_filter, mem_iff_mapFind _ hnd]
    constructor
    · rintro ⟨hf, hp⟩
      rcases hinv.mapSound k p hf with h | ⟨i, hi, hil, hik⟩
      · simp [h] at hp
      · exact ⟨i, hil, by rw [hi, hik]⟩
    · rintro ⟨i, hil, h⟩
      cases h
      exact ⟨hinv.mapComplete i hil, by simp⟩
  have hperm : ((c.key_entry_map_.filter (fun kp => !decide (kp.2 = Ptr.null))).map
      Prod.snd).Perm (live.map Ptr.slot) := by
    rw [List.perm_ext_iff_of_nodup]
    · intro q
      simp only [List.mem_map]
      constructor
      · rintro ⟨kp, hkp, rfl⟩
        obtain ⟨i, hil, rfl⟩ := (hmemE kp).1 hkp
        exact ⟨i, hil, rfl⟩
      · rintro ⟨i, hil, rfl⟩
        exact ⟨(c.keyAt i, Ptr.slot i), (hmemE _).2 ⟨i, hil, rfl⟩, rfl⟩
    · refine List.Nodup.map_on ?_ hE
      intro x hx y hy hxy
      obtain ⟨i, -, rfl⟩ := (hmemE x).1 hx
      obtain ⟨j, -, rfl⟩ := (hmemE y).1 hy
      simp only [Ptr.slot.injEq] at hxy
      rw [hxy]
    · exact hinv.nodup.map (fun a b hab => by cases hab; rfl)
  have := hperm.length_eq
  simpa using this

/-! ## The claims -/

/-- C1: for every capacity `c ≥ 1` and every finite sequence of `Put`/`Get`
calls on a freshly constructed cache, the run succeeds and every call returns
what the reference LRU model returns on the same sequence; the model's list
never holds more than `c` pairs. -/
theorem C1_refines_reference_model [DecidableEq K] [Inhabited K] [Inhabited V]
    (capacity : Nat) (hc : 1 ≤ capacity) (ops : List (Op K V)) :
    (∃ c, (Cache.init capacity : Cache K V).run ops =
        Except.ok (c, (RefLRU.run capacity [] ops).2)) ∧
      (RefLRU.run capacity ([] : List (K × V)) ops).1.length ≤ capacity := by
  obtain ⟨c, live, h1, h2, h3, h4⟩ := run_inv (K := K) (V := V) capacity hc ops
  refine ⟨⟨c, h1⟩, ?_⟩
  rw [← h4, ← h3]
  simpa [Cache.pairs] using h2.length_le

/-- C1 at the calls of `main`, capacity 3. -/
theorem C1_refines_reference_model_witness :
    (1 ≤ 3) ∧ ((∃ c, (Cache.init 3 : Cache Int String).run mainOps =
        Except.ok (c, (RefLRU.run 3 [] mainOps).2)) ∧
      (RefLRU.run 3 ([] : List (Int × String)) mainOps).1.length ≤ 3) :=
  ⟨by decide, C1_refines_reference_model 3 (by decide) mainOps⟩

/-- C4: for every capacity `c ≥ 1` and every sequence of `Put`/`Get` calls on
a freshly constructed cache, in the state after any number `n` of the calls the
slots linked between `head_` and `tail_` are at most `c`. -/
theorem C4_live_count_bounded [DecidableEq K] [Inhabited K] [Inhabited V]
    (capacity : Nat) (hc : 1 ≤ capacity) (ops : List (Op K V)) (n : Nat) :
    ∃ c outs, (Cache.init capacity : Cache K V).run (ops.take n) = Except.ok (c, outs) ∧
      c.RecencyList c.liveSlots ∧ ∀ l, c.RecencyList l → l.length ≤ capacity := by
  obtain ⟨c, live, h1, h2, h3, -⟩ := run_inv (K := K) (V := V) capacity hc (ops.take n)
  refine ⟨c, _, h1, ?_, ?_⟩
  · rw [h2.liveSlots]; exact h2.recency
  · intro l hl
    rw [linked_unique c l Ptr.head live hl h2.recency, ← h3]
    exact h2.length_le

/-- C4 at the calls of `main`, capacity 3, after six calls. -/
theorem C4_live_count_bounded_witness :
    (1 ≤ 3) ∧ ∃ c outs, (Cache.init 3 : Cache Int String).run (mainOps.take 6) =
        Except.ok (c, outs) ∧
      c.RecencyList c.liveSlots ∧ ∀ l, c.RecencyList l → l.length ≤ 3 :=
  ⟨by decide, C4_live_count_bounded 3 (by decide) mainOps 6⟩

/-- C10: for every capacity `≥ 1` and every finite sequence of `Put`/`Get`
calls on a freshly constructed cache, no call fails: the run ends in a state,
never in a fault, and any further call succeeds as well. -/
theorem C10_no_call_fails [DecidableEq K] [Inhabited K] [Inhabited V]
    (capacity : Nat) (hc : 1 ≤ capacity) (ops : List (Op K V)) (op : Op K V) :
    ∃ c outs, (Cache.init capacity : Cache K V).run ops = Except.ok (c, outs) ∧
      (∀ e, (Cache.init capacity : Cache K V).run ops ≠ Except.error e) ∧
      ∃ c' o, c.step op = Except.ok (c', o) := by
  obtain ⟨c, live, h1, h2, h3, -⟩ := run_inv (K := K) (V := V) capacity hc ops
  obtain ⟨c', live', h4, -⟩ := step_sim c live h2 (by omega) op
  refine ⟨c, _, h1, ?_, c', _, h4⟩
  intro e he
  rw [h1] at he
  cases he

/-- C10 at the calls of `main`, capacity 3, followed by a `Put` of a new key. -/
theorem C10_no_call_fails_witness :
    (1 ≤ 3) ∧ ∃ c outs, (Cache.init 3 : Cache Int String).run mainOps = Except.ok (c, outs) ∧
      (∀ e, (Cache.init 3 : Cache Int String).run mainOps ≠ Except.error e) ∧
      ∃ c' o, c.step (Op.put 7 "q") = Except.ok (c', o) :=
  ⟨by decide, C10_no_call_fails 3 (by decide) mainOps (Op.put 7 "q")⟩

/-- C5: in every reachable state, `Put` on a key that is live leaves the live
keys and the live slots the same up to order, leaves the free list unchanged
and keeps the live count: nothing is evicted. -/
theorem C5_put_present_keeps_live_set [DecidableEq K] [Inhabited K] [Inhabited V]
    (c : Cache K V) (h : c.Reachable) (k : K) (v : V) (hk : k ∈ c.liveKeys) :
    ∃ c', c.Put k v = Except.ok c' ∧ c'.liveKeys.Perm c.liveKeys ∧
      c'.liveSlots.Perm c.liveSlots ∧ c'.free_entry_list_ = c.free_entry_list_ ∧
      c'.liveSlots.length = c.liveSlots.length := by
  obtain ⟨live, hinv⟩ := reachable_inv c h
  rw [hinv.liveKeys] at hk
  obtain ⟨i, hi, rfl⟩ := List.mem_map.1 hk
  obtain ⟨c', la, lb, hput, rfl, hinv', -, hkey, -, -, hfree, -⟩ :=
    Put_hit c live hinv (c.keyAt i) v i (hinv.mapComplete i hi)
  have hperm : (i :: (la ++ lb)).Perm (la ++ i :: lb) := List.perm_middle.symm
  refine ⟨c', hput, ?_, ?_, hfree, ?_⟩
  · rw [hinv.liveKeys, hinv'.liveKeys]
    have : (i :: (la ++ lb)).map c'.keyAt = (i :: (la ++ lb)).map c.keyAt :=
      List.map_congr_left (fun j _ => hkey j)
    rw [this]
    exact hperm.map _
  · rw [hinv.liveSlots, hinv'.liveSlots]
    exact hperm
  · rw [hinv.liveSlots, hinv'.liveSlots]
    exact hperm.length_eq

/-- C5 in `main`: the sixth call, `Put(3, "ghijk")`, on the state after five
calls, where key 3 is live. -/
theorem C5_put_present_keeps_live_set_witness :
    (mainState 5).Reachable ∧ (3 : Int) ∈ (mainState 5).liveKeys ∧
      ∃ c', (mainState 5).Put 3 "ghijk" = Except.ok c' ∧
        c'.liveKeys.Perm (mainState 5).liveKeys ∧
        c'.liveSlots.Perm (mainState 5).liveSlots ∧
        c'.free_entry_list_ = (mainState 5).free_entry_list_ ∧
        c'.liveSlots.length = (mainState 5).liveSlots.length :=
  ⟨mainState_reachable 5, by decide,
    C5_put_present_keeps_live_set (mainState 5)
      (mainState_reachable 5) 3 "ghijk" (by decide)⟩

/-- C8, as stated, fails: after the first five calls of `main` key 2 has been
evicted and has no entry in the key index; `Get(2)` reports absent and leaves
an entry for key 2, holding `NULL`, in the key index. -/
theorem C8_counterexample :
    (mainState 5).Reachable ∧ (2 : Int) ∉ (mainState 5).liveKeys ∧
      ∃ c', (mainState 5).Get 2 = Except.ok (c', Ptr.null) ∧
        mapFind (mainState 5).key_entry_map_ 2 = none ∧
        mapFind c'.key_entry_map_ 2 = some Ptr.null ∧
        c'.key_entry_map_.length = (mainState 5).key_entry_map_.length + 1 :=
  ⟨mainState_reachable 5, by decide, _, rfl, rfl, rfl, rfl⟩

/-- C8, amended: in every reachable state, `Get` on a key that is not live
reports absent and leaves the sentinels, the slot pool with all its links and
the free list as they were; in the key index the entries of all other keys are
unchanged, and the key itself ends with an entry holding `NULL`, which is new
exactly when the key had no entry before. -/
theorem C8_get_absent_frame [DecidableEq K] [Inhabited K] [Inhabited V]
    (c : Cache K V) (h : c.Reachable) (k : K) (hk : k ∉ c.liveKeys) :
    ∃ c', c.Get k = Except.ok (c', Ptr.null) ∧ c.step (Op.get k) = Except.ok (c', none) ∧
      c'.head_ = c.head_ ∧ c'.tail_ = c.tail_ ∧ c'.z_entry_ = c.z_entry_ ∧
      c'.free_entry_list_ = c.free_entry_list_ ∧
      (∀ k', k' ≠ k → mapFind c'.key_entry_map_ k' = mapFind c.key_entry_map_ k') ∧
      mapFind c'.key_entry_map_ k = some Ptr.null ∧
      (mapFind c.key_entry_map_ k = some Ptr.null → c'.key_entry_map_ = c.key_entry_map_) ∧
      (mapFind c.key_entry_map_ k = none →
        c'.key_entry_map_ = c.key_entry_map_ ++ [(k, Ptr.null)]) := by
  obtain ⟨live, hinv⟩ := reachable_inv c h
  rw [hinv.liveKeys] at hk
  have hk' : ∀ i, mapFind c.key_entry_map_ k ≠ some (Ptr.slot i) := by
    intro i hi
    rcases hinv.mapSound k _ hi with h1 | ⟨j, hj, hjl, hjk⟩
    · cases h1
    · exact hk (List.mem_map.2 ⟨j, hjl, hjk⟩)
  obtain ⟨c', hget, -, hc'⟩ := Get_miss c live hinv k hk'
  have hnull := mapIndex_null c live hinv k hk'
  refine ⟨c', hget, ?_, by rw [hc'], by rw [hc'], by rw [hc'], by rw [hc'], ?_, ?_, ?_, ?_⟩
  · simp only [Cache.step, hget, bind, Except.bind, pure, Except.pure]
    rfl
  · intro k' hne
    rw [hc']
    simp only [mapFind_mapIndex, hne, false_and, if_false]
  · rw [hc']
    have := mapIndex_snd c.key_entry_map_ k
    rw [hnull] at this
    exact this
  · intro hm
    rw [hc']
    simp [mapIndex, hm]
  · intro hm
    rw [hc']
    simp [mapIndex, hm]

/-- C8, amended, in `main`: `Get(2)` after the first five calls. -/
theorem C8_get_absent_frame_witness :
    (mainState 5).Reachable ∧ (2 : Int) ∉ (mainState 5).liveKeys ∧
      ∃ c', (mainState 5).Get 2 = Except.ok (c', Ptr.null) ∧
      (mainState 5).step (Op.get 2) = Except.ok (c', none) ∧
      c'.head_ = (mainState 5).head_ ∧ c'.tail_ = (mainState 5).tail_ ∧
      c'.z_entry_ = (mainState 5).z_entry_ ∧
      c'.free_entry_list_ = (mainState 5).free_entry_list_ ∧
      (∀ k', k' ≠ 2 →
        mapFind c'.key_entry_map_ k' = mapFind (mainState 5).key_entry_map_ k') ∧
      mapFind c'.key_entry_map_ 2 = some Ptr.null ∧
      (mapFind (mainState 5).key_entry_map_ 2 = some Ptr.null →
        c'.key_entry_map_ = (mainState 5).key_entry_map_) ∧
      (mapFind (mainState 5).key_entry_map_ 2 = none →
        c'.key_entry_map_ = (mainState 5).key_entry_map_ ++ [(2, Ptr.null)]) :=
  ⟨mainState_reachable 5, by decide,
    C8_get_absent_frame (mainState 5)
      (mainState_reachable 5) 2 (by decide)⟩

/-- C9, as stated, fails: construction with capacity 0 succeeds, and yields a
cache whose pool and free list are empty. -/
theorem C9_counterexample :
    ∃ c : Cache Int String, Cache.construct 0 = Except.ok c ∧ c.z_entry_ = [] ∧
      c.free_entry_list_ = [] :=
  ⟨_, rfl, rfl, rfl⟩

/-- C9, amended: construction with any capacity `≥ 0`, capacity 0 included,
succeeds and yields a cache with that many pool slots, all of them in the free
list; only a negative capacity fails, with the length error of the pool's
allocation, and then no cache is produced. -/
theorem C9_construct [Inhabited K] [Inhabited V] (capacity : Int) :
    (0 ≤ capacity → ∃ c : Cache K V, Cache.construct capacity = Except.ok c ∧
      c.z_entry_.length = capacity.toNat ∧
      c.free_entry_list_ = (List.range capacity.toNat).map Ptr.slot ∧
      c.key_entry_map_ = []) ∧
    (capacity < 0 →
      (Cache.construct capacity : Except Fault (Cache K V)) = Except.error Fault.lengthError) := by
  constructor
  · intro h
    refine ⟨Cache.init capacity.toNat, ?_, init_length _, ?_, rfl⟩
    · simp [Cache.construct, not_lt.2 h]
    · simp [Cache.init]
  · intro h
    simp [Cache.construct, h]

/-- C9, amended, at capacities 0, 3 and -1. -/
theorem C9_construct_witness :
    ((0 : Int) ≤ 0 ∧ ∃ c : Cache Int String, Cache.construct 0 = Except.ok c ∧
      c.z_entry_.length = (0 : Int).toNat ∧
      c.free_entry_list_ = (List.range (0 : Int).toNat).map Ptr.slot ∧
      c.key_entry_map_ = []) ∧
    ((-1 : Int) < 0 ∧
      (Cache.construct (-1) : Except Fault (Cache Int String)) =
        Except.error Fault.lengthError) :=
  ⟨⟨by decide, (C9_construct 0).1 (by decide)⟩, ⟨by decide, (C9_construct (-1)).2 (by decide)⟩⟩

/-- C7: in every state reached from a freshly constructed cache of capacity
`≥ 1` that has a live entry, `head_->next` is a slot that holds the key of the
most recent `Put` or successful `Get`, and `tail_->prev` is a slot that holds
the live key whose most recent `Put` or successful `Get` is the earliest. -/
theorem C7_head_is_mru_tail_is_lru [DecidableEq K] [Inhabited K] [Inhabited V]
    (capacity : Nat) (hc : 1 ≤ capacity) (ops : List (Op K V)) (c : Cache K V)
    (outs : List (Option V))
    (hrun : (Cache.init capacity : Cache K V).run ops = Except.ok (c, outs))
    (hlive : c.liveSlots ≠ []) :
    ∃ i j, c.nextOf Ptr.head = some (Ptr.slot i) ∧
      (touches ops outs).getLast? = some (c.keyAt i) ∧
      c.prevOf Ptr.tail = some (Ptr.slot j) ∧ c.keyAt j ∈ c.liveKeys ∧
      ∀ k' ∈ c.liveKeys, k' ≠ c.keyAt j →
        lastTouch (touches ops outs) (c.keyAt j) < lastTouch (touches ops outs) k' := by
  obtain ⟨live, hinv, -, hord⟩ := reachable_good capacity hc ops c outs hrun
  rw [hinv.liveSlots] at hlive
  rw [hinv.liveKeys]
  obtain ⟨la, j, hla⟩ : ∃ la j, live = la ++ [j] := by
    rcases List.eq_nil_or_concat live with h | ⟨la, j, h⟩
    · exact absurd h hlive
    · exact ⟨la, j, by rw [h, List.concat_eq_append]⟩
  obtain ⟨i, lb, hlb⟩ : ∃ i lb, live = i :: lb := by
    cases live with
    | nil => exact absurd rfl hlive
    | cons i lb => exact ⟨i, lb, rfl⟩
  refine ⟨i, j, ?_, ?_, ?_, ?_, ?_⟩
  · have := hinv.recency
    rw [hlb] at this
    exact this.1
  · rw [hlb] at hord
    exact ordered_head _ _ _ hord
  · have hch := hinv.chain
    rw [hla] at hch
    rcases (chain_last_link c la j hch).2 with h | h
    · exact h
    · cases h.1
  · rw [hla]; simp
  · rw [hla, List.map_append, List.map_singleton] at hord ⊢
    exact ordered_last _ _ _ hord

/-- C7 in `main`: the state after the first five calls. -/
theorem C7_head_is_mru_tail_is_lru_witness :
    (1 ≤ 3) ∧ (mainState 5).liveSlots ≠ [] ∧
    ∃ i j, (mainState 5).nextOf Ptr.head = some (Ptr.slot i) ∧
      (touches (mainOps.take 5) (mainOuts 5)).getLast? = some ((mainState 5).keyAt i) ∧
      (mainState 5).prevOf Ptr.tail = some (Ptr.slot j) ∧
      (mainState 5).keyAt j ∈ (mainState 5).liveKeys ∧
      ∀ k' ∈ (mainState 5).liveKeys, k' ≠ (mainState 5).keyAt j →
        lastTouch (touches (mainOps.take 5) (mainOuts 5)) ((mainState 5).keyAt j) <
          lastTouch (touches (mainOps.take 5) (mainOuts 5)) k' :=
  ⟨by decide, by decide,
    C7_head_is_mru_tail_is_lru 3 (by decide) (mainOps.take 5) (mainState 5) (mainOuts 5)
      (main_run_ok 5) (by decide)⟩

/-- C2: in every state reached from a cache of capacity `≥ 1` in which the
free list is empty, `Put` of a key that is not live evicts exactly one key: the
live key whose most recent `Put` or successful `Get` is the earliest among the
live keys.  The other live keys stay, the new key is live, and a `Get` on the
evicted key right afterwards reports absent. -/
theorem C2_put_evicts_least_recent [DecidableEq K] [Inhabited K] [Inhabited V]
    (capacity : Nat) (hc : 1 ≤ capacity) (ops : List (Op K V)) (c : Cache K V)
    (outs : List (Option V))
    (hrun : (Cache.init capacity : Cache K V).run ops = Except.ok (c, outs))
    (hfree : c.free_entry_list_ = []) (k : K) (v : V) (hk : k ∉ c.liveKeys) :
    ∃ c' e, c.Put k v = Except.ok c' ∧ e ∈ c.liveKeys ∧
      (∀ k' ∈ c.liveKeys, k' ≠ e →
        lastTouch (touches ops outs) e < lastTouch (touches ops outs) k') ∧
      (∀ x, x ∈ c'.liveKeys ↔ x = k ∨ (x ∈ c.liveKeys ∧ x ≠ e)) ∧
      c'.liveKeys.length = c.liveKeys.length ∧
      ∃ c'', c'.step (Op.get e) = Except.ok (c'', none) := by
  obtain ⟨live, hinv, hlen, hord⟩ := reachable_good capacity hc ops c outs hrun
  rw [hinv.liveKeys] at hk ⊢
  have hfull := hinv.free_nil_iff.1 hfree
  obtain ⟨c', live', ks0, e, hput, hinv', hlen', hks, hks'⟩ :=
    evict_keys c live hinv (by omega) hfull k v hk
  have hnd := hinv.keys_nodup
  rw [hks] at hnd hord hk ⊢
  have he0 : e ∉ ks0 := by
    intro h
    exact (List.nodup_append.1 hnd).2.2 h (by simp)
  have hek : e ≠ k := by
    intro h
    exact hk (by rw [← h]; simp)
  have hlk : c'.liveKeys = k :: ks0 := by rw [hinv'.liveKeys, hks']
  refine ⟨c', e, hput, by simp, ordered_last _ _ _ hord, ?_, by simp [hlk], ?_⟩
  · intro x
    rw [hlk]
    simp only [List.mem_cons, List.mem_append, List.not_mem_nil, or_false]
    constructor
    · rintro (h | h)
      · exact Or.inl h
      · exact Or.inr ⟨Or.inl h, fun hx => he0 (hx ▸ h)⟩
    · rintro (h | ⟨h | h, hne⟩)
      · exact Or.inl h
      · exact Or.inr h
      · exact absurd h hne
  · obtain ⟨c'', live'', o, hstep, -, -, -, -, hmiss⟩ :=
      step_keys c' live' hinv' (by omega) (Op.get e)
    have hnot : e ∉ live'.map c'.keyAt := by
      rw [hks']
      simp only [List.mem_cons, not_or]
      exact ⟨hek, he0⟩
    obtain ⟨rfl, -⟩ := hmiss e rfl hnot
    exact ⟨c'', hstep⟩

/-- C2 in `main`: the fifth call, `Put(4, "xyz")`, on the state after four
calls, where the three slots hold keys 3, 1 and 2. -/
theorem C2_put_evicts_least_recent_witness :
    (1 ≤ 3) ∧ (mainState 4).free_entry_list_ = [] ∧ (4 : Int) ∉ (mainState 4).liveKeys ∧
    ∃ c' e, (mainState 4).Put 4 "xyz" = Except.ok c' ∧ e ∈ (mainState 4).liveKeys ∧
      (∀ k' ∈ (mainState 4).liveKeys, k' ≠ e →
        lastTouch (touches (mainOps.take 4) (mainOuts 4)) e <
          lastTouch (touches (mainOps.take 4) (mainOuts 4)) k') ∧
      (∀ x, x ∈ c'.liveKeys ↔ x = 4 ∨ (x ∈ (mainState 4).liveKeys ∧ x ≠ e)) ∧
      c'.liveKeys.length = (mainState 4).liveKeys.length ∧
      ∃ c'', c'.step (Op.get e) = Except.ok (c'', none) :=
  ⟨by decide, by decide, by decide,
    C2_put_evicts_least_recent 3 (by decide) (mainOps.take 4) (mainState 4) (mainOuts 4)
      (main_run_ok 4) (by decide) 4 "xyz" (by decide)⟩

/-- C6: in every state reached from a cache of capacity `≥ 2` whose free list
is empty, for a live key `k` and a key `k'` that is not live: `Get(k)` hits,
the following `Put(k', v)` evicts the key that was least recently used among
the live keys other than `k`, and `k` is still live afterwards (a further
`Get(k)` hits). -/
theorem C6_get_promotes [DecidableEq K] [Inhabited K] [Inhabited V]
    (capacity : Nat) (hc : 2 ≤ capacity) (ops : List (Op K V)) (c : Cache K V)
    (outs : List (Option V))
    (hrun : (Cache.init capacity : Cache K V).run ops = Except.ok (c, outs))
    (hfree : c.free_entry_list_ = []) (k k' : K) (v : V)
    (hk : k ∈ c.liveKeys) (hk' : k' ∉ c.liveKeys) :
    ∃ c1 x c2 e c3 y, c.step (Op.get k) = Except.ok (c1, some x) ∧
      c1.Put k' v = Except.ok c2 ∧ c2.step (Op.get k) = Except.ok (c3, some y) ∧
      k ∈ c2.liveKeys ∧ e ∈ c.liveKeys ∧ e ≠ k ∧
      (∀ z ∈ c.liveKeys, z ≠ k → z ≠ e →
        lastTouch (touches ops outs) e < lastTouch (touches ops outs) z) ∧
      (∀ z, z ∈ c2.liveKeys ↔ z = k' ∨ (z ∈ c.liveKeys ∧ z ≠ e)) := by
  obtain ⟨live, hinv, hlen, hord⟩ := reachable_good capacity (by omega) ops c outs hrun
  rw [hinv.liveKeys] at hk hk' ⊢
  have hfull := hinv.free_nil_iff.1 hfree
  have hnd := hinv.keys_nodup
  obtain ⟨c1, live1, o, hstep1, hinv1, hlen1, -, hhit, -⟩ :=
    step_keys c live hinv (by omega) (Op.get k)
  obtain ⟨⟨x, rfl⟩, hks1⟩ := hhit k rfl hk
  have hcount := filter_ne_length _ k hnd hk
  rw [List.length_map] at hcount
  have hfull1 : live1.length = c1.z_entry_.length := by
    have := congrArg List.length hks1
    simp only [List.length_map, List.length_cons] at this
    omega
  have hkk' : k' ≠ k := fun h => hk' (h ▸ hk)
  have hk'1 : k' ∉ live1.map c1.keyAt := by
    rw [hks1]
    simp only [List.mem_cons, not_or]
    exact ⟨hkk', fun h => hk' ((mem_filter_ne _ _ _).1 h).1⟩
  obtain ⟨c2, live2, ks0, e, hput, hinv2, hlen2, hsplit, hks2⟩ :=
    evict_keys c1 live1 hinv1 (by omega) hfull1 k' v hk'1
  rw [hks1] at hsplit
  have hrne : (live.map c.keyAt).filter (fun a => !decide (a = k)) ≠ [] := by
    intro h
    rw [h] at hcount
    simp only [List.length_nil] at hcount
    omega
  obtain ⟨rest0, e', hrest⟩ : ∃ rest0 e',
      (live.map c.keyAt).filter (fun a => !decide (a = k)) = rest0 ++ [e'] := by
    rcases List.eq_nil_or_concat ((live.map c.keyAt).filter (fun a => !decide (a = k))) with
      h | ⟨r, e', h⟩
    · exact absurd h hrne
    · exact ⟨r, e', by rw [h, List.concat_eq_append]⟩
  rw [hrest, ← List.cons_append] at hsplit
  obtain ⟨hks0, he⟩ := List.append_inj' hsplit rfl
  simp only [List.cons.injEq, and_true] at he
  subst he
  subst hks0
  have hmemrest : ∀ z, z ∈ rest0 ++ [e'] ↔ z ∈ live.map c.keyAt ∧ z ≠ k := by
    intro z; rw [← hrest]; exact mem_filter_ne _ _ _
  have he : e' ∈ live.map c.keyAt ∧ e' ≠ k := (hmemrest e').1 (by simp)
  have hrnd : (rest0 ++ [e']).Nodup := by
    rw [← hrest]; exact hnd.filter _
  have he0 : e' ∉ rest0 := fun h => (List.nodup_append.1 hrnd).2.2 h (by simp)
  have hlk2 : c2.liveKeys = k' :: k :: rest0 := by rw [hinv2.liveKeys, hks2]
  obtain ⟨c3, live3, o3, hstep3, -, -, -, hhit3, -⟩ :=
    step_keys c2 live2 hinv2 (by omega) (Op.get k)
  obtain ⟨⟨y, rfl⟩, -⟩ := hhit3 k rfl (by rw [hks2]; simp)
  refine ⟨c1, x, c2, e', c3, y, hstep1, hput, hstep3, by rw [hlk2]; simp, he.1, he.2, ?_, ?_⟩
  · intro z hz hzk hze
    have hzr : z ∈ rest0 ++ [e'] := (hmemrest z).2 ⟨hz, hzk⟩
    have hpw : (rest0 ++ [e']).Pairwise
        (fun a b => lastTouch (touches ops outs) b < lastTouch (touches ops outs) a) := by
      rw [← hrest]; exact ordered_sublist _ _ _ hord (List.filter_sublist _)
    rw [List.pairwise_append] at hpw
    simp only [List.mem_append, List.mem_singleton] at hzr
    rcases hzr with h | h
    · exact hpw.2.2 z h e' (by simp)
    · exact absurd h hze
  · intro z
    rw [hlk2]
    simp only [List.mem_cons]
    constructor
    · rintro (h | h | h)
      · exact Or.inl h
      · exact Or.inr ⟨h ▸ hk, fun h' => he.2 (h'.symm.trans h)⟩
      · have := (hmemrest z).1 (List.mem_append_left _ h)
        exact Or.inr ⟨this.1, fun h' => he0 (h' ▸ h)⟩
    · rintro (h | ⟨h, hne⟩)
      · exact Or.inl h
      · by_cases hzk : z = k
        · exact Or.inr (Or.inl hzk)
        · have := (hmemrest z).2 ⟨h, hzk⟩
          simp only [List.mem_append, List.mem_singleton] at this
          rcases this with h1 | h1
          · exact Or.inr (Or.inr h1)
          · exact absurd h1 hne

/-- C6 in `main`'s cache: on the full state after four calls (keys 3, 1, 2 from
most to least recent), `Get(2)` on the least recently used key and then
`Put(4, "xyz")`. -/
theorem C6_get_promotes_witness :
    (2 ≤ 3) ∧ (mainState 4).free_entry_list_ = [] ∧ (2 : Int) ∈ (mainState 4).liveKeys ∧
    (4 : Int) ∉ (mainState 4).liveKeys ∧
    ∃ c1 x c2 e c3 y, (mainState 4).step (Op.get 2) = Except.ok (c1, some x) ∧
      c1.Put 4 "xyz" = Except.ok c2 ∧ c2.step (Op.get 2) = Except.ok (c3, some y) ∧
      (2 : Int) ∈ c2.liveKeys ∧ e ∈ (mainState 4).liveKeys ∧ e ≠ 2 ∧
      (∀ z ∈ (mainState 4).liveKeys, z ≠ 2 → z ≠ e →
        lastTouch (touches (mainOps.take 4) (mainOuts 4)) e <
          lastTouch (touches (mainOps.take 4) (mainOuts 4)) z) ∧
      (∀ z, z ∈ c2.liveKeys ↔ z = 4 ∨ (z ∈ (mainState 4).liveKeys ∧ z ≠ e)) :=
  ⟨by decide, by decide, by decide, by decide,
    C6_get_promotes 3 (by decide) (mainOps.take 4) (mainState 4) (mainOuts 4)
      (main_run_ok 4) (by decide) 2 4 "xyz" (by decide) (by decide)⟩

/-- C3: in every state reached from a cache of capacity `c ≥ 1`, after
`Put(k, v)`, whether `k` was live or not, followed by any calls among which
there is no `Put` on `k` and which name at most `c - 1` distinct keys other
than `k`, no call fails and a final `Get(k)` hits and returns `v`. -/
theorem C3_put_then_get_hits [DecidableEq K] [Inhabited K] [Inhabited V]
    (capacity : Nat) (hc : 1 ≤ capacity) (ops0 : List (Op K V)) (c : Cache K V)
    (outs0 : List (Option V))
    (hrun : (Cache.init capacity : Cache K V).run ops0 = Except.ok (c, outs0))
    (k : K) (v : V) (ops : List (Op K V)) (hno : ∀ v', Op.put k v' ∉ ops)
    (hfew : (((ops.map Op.key).filter (fun a => !decide (a = k))).dedup).length ≤
      capacity - 1) :
    ∃ c' outs, c.run (Op.put k v :: (ops ++ [Op.get k])) = Except.ok (c', outs) ∧
      outs.getLast? = some (some v) := by
  obtain ⟨c0, live, h1, hinv, hlen, -⟩ := run_inv (K := K) (V := V) capacity hc ops0
  rw [hrun] at h1
  cases h1
  obtain ⟨c', live', hrun', -, -, -⟩ :=
    run_sim (Op.put k v :: (ops ++ [Op.get k])) c live hinv (by omega)
  refine ⟨c', _, hrun', ?_⟩
  rw [hlen]
  have hD : k ∉ ((ops.map Op.key).filter (fun a => !decide (a = k))).dedup := by
    rw [List.mem_dedup]
    exact not_mem_filter_ne _ k
  have hops : ∀ op ∈ ops, op = Op.get k ∨ ((∀ v', op ≠ Op.put k v') ∧ op.key ≠ k ∧
      op.key ∈ ((ops.map Op.key).filter (fun a => !decide (a = k))).dedup) := by
    intro op hop
    by_cases hk : op.key = k
    · left
      cases op with
      | put k' v' =>
        simp only [Op.key] at hk
        subst hk
        exact absurd hop (hno v')
      | get k' =>
        simp only [Op.key] at hk
        rw [hk]
    · right
      refine ⟨?_, hk, ?_⟩
      · rintro v' rfl
        exact hk rfl
      · rw [List.mem_dedup, mem_filter_ne]
        exact ⟨List.mem_map.2 ⟨op, hop, rfl⟩, hk⟩
  have hnd0 : ((c.pairs live).map Prod.fst).Nodup := by
    rw [pairs_keys]; exact hinv.keys_nodup
  have hnd1 := ref_step_nodup capacity (c.pairs live) (Op.put k v) hnd0
  have hk1 : RefLRU.Keeps ((ops.map Op.key).filter (fun a => !decide (a = k))).dedup k v
      (RefLRU.step capacity (c.pairs live) (Op.put k v)).1 := by
    simp only [RefLRU.step, RefLRU.put] at hnd1 ⊢
    split
    · next h => rw [if_pos h] at hnd1; exact keeps_front _ k v _ hnd1
    · next h => rw [if_neg h] at hnd1; exact keeps_front _ k v _ hnd1
  have hk2 := keeps_run capacity hc _ k v hD hfew ops _ hops hk1
  have hget := keeps_get_self _ k v _ hD hk2
  simp only [RefLRU.run, ref_run_concat]
  simp only [RefLRU.step] at hget ⊢
  rw [hget, ← List.cons_append, List.getLast?_append]
  rfl

/-- C3 in `main`: on the state after five calls, `Put(3, "ghijk")` followed by
three times `Get(1)`, then `Get(3)`. -/
theorem C3_put_then_get_hits_witness :
    (1 ≤ 3) ∧ (∀ v', Op.put (3 : Int) v' ∉ [Op.get 1, Op.get 1, (Op.get 1 : Op Int String)]) ∧
    ((([Op.get 1, Op.get 1, (Op.get 1 : Op Int String)].map Op.key).filter
      (fun a => !decide (a = 3))).dedup).length ≤ 3 - 1 ∧
    ∃ c' outs, (mainState 5).run
        (Op.put 3 "ghijk" :: ([Op.get 1, Op.get 1, Op.get 1] ++ [Op.get 3])) =
        Except.ok (c', outs) ∧
      outs.getLast? = some (some "ghijk") :=
  ⟨by decide, by simp, by decide,
    C3_put_then_get_hits 3 (by decide) (mainOps.take 5) (mainState 5) (mainOuts 5)
      (main_run_ok 5) 3 "ghijk" [Op.get 1, Op.get 1, Op.get 1] (by simp) (by decide)⟩

/-- C11: in every reachable state, for a live key `k`, `Get(k)` hits, and a
second `Get(k)` right after it returns the same value and leaves the state
exactly as the first one left it. -/
theorem C11_get_twice_stable [DecidableEq K] [Inhabited K] [Inhabited V]
    (c : Cache K V) (h : c.Reachable) (k : K) (hk : k ∈ c.liveKeys) :
    ∃ c1 x, c.step (Op.get k) = Except.ok (c1, some x) ∧
      c1.step (Op.get k) = Except.ok (c1, some x) := by
  obtain ⟨live, hinv⟩ := reachable_inv c h
  rw [hinv.liveKeys] at hk
  obtain ⟨i, hi, rfl⟩ := List.mem_map.1 hk
  have hfind := hinv.mapComplete i hi
  obtain ⟨c1, la, lb, hget, -, hinv1, hf⟩ := Get_hit c live hinv (c.keyAt i) i hfind
  have hv := valueAt_slot c1 i (hinv1.lt (by simp))
  have hfind1 : mapFind c1.key_entry_map_ (c.keyAt i) = some (Ptr.slot i) := by
    rw [hf.map]; exact hfind
  obtain ⟨c2, hd, ha⟩ := touch_front_fixed c1 i (la ++ lb) hinv1.nodup hinv1.chain
  have hget1 : c1.Get (c.keyAt i) = Except.ok (c1, Ptr.slot i) := by
    rw [Get_hit_eq c1 _ _ hfind1 (by simp)]
    simp only [bind, Except.bind, hd, ha, pure, Except.pure]
  refine ⟨c1, c1.valAt i, ?_, ?_⟩
  · simp only [Cache.step, hget, bind, Except.bind, pure, Except.pure, hv]
  · simp only [Cache.step, hget1, bind, Except.bind, pure, Except.pure, hv]

/-- C11 in `main`: `Get(1)` on the state after six calls, as `main` does three
times in a row. -/
theorem C11_get_twice_stable_witness :
    (mainState 6).Reachable ∧ (1 : Int) ∈ (mainState 6).liveKeys ∧
      ∃ c1 x, (mainState 6).step (Op.get 1) = Except.ok (c1, some x) ∧
        c1.step (Op.get 1) = Except.ok (c1, some x) :=
  ⟨mainState_reachable 6, by decide,
    C11_get_twice_stable (mainState 6) (mainState_reachable 6) 1 (by decide)⟩

/-- C13: what the constructor leaves, for any capacity: `head_->next` is
`tail_`, the recency list is empty and every pool slot is in the free list,
but `tail_->prev` is `NULL`, not `head_` (the assignment `tail_->prev = head_`
is overwritten by the next statement). -/
theorem C13_fresh_tail_prev_is_null [Inhabited K] [Inhabited V] (capacity : Nat) :
    (Cache.init capacity : Cache K V).head_.next = Ptr.tail ∧
      (Cache.init capacity : Cache K V).RecencyList [] ∧
      (Cache.init capacity : Cache K V).free_entry_list_ = (List.range capacity).map Ptr.slot ∧
      (Cache.init capacity : Cache K V).tail_.prev = Ptr.null ∧
      (Cache.init capacity : Cache K V).tail_.prev ≠ Ptr.head := by
  refine ⟨rfl, rfl, ?_, rfl, ?_⟩
  · simp [Cache.init]
  · simp [Cache.init]

/-- C16: right after construction, for any capacity, following `next` from
`head_` arrives at `tail_` at once, but `prev` is not the inverse of `next`
there: `head_->next->prev` is `NULL`, not `head_`. -/
theorem C16_fresh_chain_not_inverse [Inhabited K] [Inhabited V] (capacity : Nat) :
    (Cache.init capacity : Cache K V).nextOf Ptr.head = some Ptr.tail ∧
      (Cache.init capacity : Cache K V).prevOf Ptr.tail = some Ptr.null ∧
      (Cache.init capacity : Cache K V).prevOf Ptr.tail ≠ some Ptr.head := by
  refine ⟨rfl, rfl, ?_⟩
  simp [Cache.prevOf, Cache.ent, Cache.init]

/-- C17: in every state reached from a cache constructed with capacity
`c ≥ 1`, the free list holds pool slots only, and the live slots followed by
the free slots are a rearrangement of the pool indices `0, ..., c - 1`: every
pool slot is in exactly one of the two lists, exactly once, and the two sizes
add up to `c`. -/
theorem C17_slots_partitioned [DecidableEq K] [Inhabited K] [Inhabited V]
    (capacity : Nat) (hc : 1 ≤ capacity) (ops : List (Op K V)) (c : Cache K V)
    (outs : List (Option V))
    (hrun : (Cache.init capacity : Cache K V).run ops = Except.ok (c, outs)) :
    c.RecencyList c.liveSlots ∧ c.z_entry_.length = capacity ∧
      ∃ fl : List Nat, c.free_entry_list_ = fl.map Ptr.slot ∧
        (c.liveSlots ++ fl).Perm (List.range capacity) ∧
        (c.liveSlots ++ fl).Nodup ∧
        (∀ i, i < capacity → (i ∈ c.liveSlots ∧ i ∉ fl) ∨ (i ∉ c.liveSlots ∧ i ∈ fl)) ∧
        c.liveSlots.length + c.free_entry_list_.length = capacity := by
  obtain ⟨c0, live, h1, hinv, hlen, -⟩ := run_inv (K := K) (V := V) capacity hc ops
  rw [hrun] at h1
  cases h1
  rw [hinv.liveSlots]
  obtain ⟨fl, hfl, hp⟩ := hinv.free
  rw [hlen] at hp
  have hnd : (live ++ fl).Nodup := hp.nodup_iff.2 (List.nodup_range _)
  refine ⟨hinv.recency, hlen, fl, hfl, hp, hnd, ?_, ?_⟩
  · intro i hi
    have hmem : i ∈ live ++ fl := hp.mem_iff.2 (List.mem_range.2 hi)
    have hdis := (List.nodup_append.1 hnd).2.2
    rcases List.mem_append.1 hmem with h | h
    · exact Or.inl ⟨h, fun h' => hdis h h'⟩
    · exact Or.inr ⟨fun h' => hdis h' h, h⟩
  · have := hp.length_eq
    simp only [List.length_append, List.length_range] at this
    rw [hfl, List.length_map]
    exact this

/-- C17 in `main`: the state after five calls. -/
theorem C17_slots_partitioned_witness :
    (1 ≤ 3) ∧ (mainState 5).RecencyList (mainState 5).liveSlots ∧
      (mainState 5).z_entry_.length = 3 ∧
      ∃ fl : List Nat, (mainState 5).free_entry_list_ = fl.map Ptr.slot ∧
        ((mainState 5).liveSlots ++ fl).Perm (List.range 3) ∧
        ((mainState 5).liveSlots ++ fl).Nodup ∧
        (∀ i, i < 3 → (i ∈ (mainState 5).liveSlots ∧ i ∉ fl) ∨
          (i ∉ (mainState 5).liveSlots ∧ i ∈ fl)) ∧
        (mainState 5).liveSlots.length + (mainState 5).free_entry_list_.length = 3 :=
  ⟨by decide, C17_slots_partitioned 3 (by decide) (mainOps.take 5) (mainState 5) (mainOuts 5)
    (main_run_ok 5)⟩

/-- C19: the constructor accepts capacity 0, and in every state of the cache
it builds (the fresh one, or one reached through calls that succeeded) the free
list is empty and `tail_->prev` is `NULL`, so that `Put` takes the eviction
branch, `Detach` follows the null pointer, and `Put` ends in the fault. -/
theorem C19_put_fails_at_capacity_zero [DecidableEq K] [Inhabited K] [Inhabited V]
    (ops : List (Op K V)) (c : Cache K V) (outs : List (Option V))
    (hrun : (Cache.init 0 : Cache K V).run ops = Except.ok (c, outs)) (k : K) (v : V) :
    (Cache.construct 0 : Except Fault (Cache K V)) = Except.ok (Cache.init 0) ∧
      c.free_entry_list_ = [] ∧ c.tail_.prev = Ptr.null ∧
      c.Detach c.tail_.prev = Except.error Fault.nullDeref ∧
      c.Put k v = Except.error Fault.nullDeref ∧
      c.step (Op.put k v) = Except.error Fault.nullDeref := by
  obtain ⟨hinv, hlen, htp⟩ := run_zero ops (Cache.init 0 : Cache K V) c outs (init_inv 0)
    (init_length 0) rfl hrun
  have hput := Put_zero c hinv hlen htp k v
  refine ⟨rfl, ?_, htp, ?_, hput, ?_⟩
  · rw [hinv.free_nil_iff, hlen]; rfl
  · rw [htp]; rfl
  · simp only [Cache.step, hput, bind, Except.bind]

/-- C19 on the fresh cache of capacity 0: the first `Put`. -/
theorem C19_put_fails_at_capacity_zero_witness :
    (Cache.init 0 : Cache Int String).run [] = Except.ok (Cache.init 0, []) ∧
      ((Cache.construct 0 : Except Fault (Cache Int String)) = Except.ok (Cache.init 0) ∧
      (Cache.init 0 : Cache Int String).free_entry_list_ = [] ∧
      (Cache.init 0 : Cache Int String).tail_.prev = Ptr.null ∧
      (Cache.init 0 : Cache Int String).Detach (Cache.init 0 : Cache Int String).tail_.prev =
        Except.error Fault.nullDeref ∧
      (Cache.init 0 : Cache Int String).Put 1 "abc" = Except.error Fault.nullDeref ∧
      (Cache.init 0 : Cache Int String).step (Op.put 1 "abc") =
        Except.error Fault.nullDeref) :=
  ⟨rfl, C19_put_fails_at_capacity_zero [] (Cache.init 0) [] rfl 1 "abc"⟩

/-- C18: the constructor leaves `tail_->prev` `NULL`; all the same, for every
capacity `≥ 1`, every state reached by calls with at least one `Put` among them
has a well-formed recency list: `head_->prev` and `tail_->next` are `NULL`,
following `next` from `head_` visits the live slots, which are distinct, not
empty, exactly the slots the key index points to and exactly the pool slots
that are not free, and ends at `tail_`; neighbours on that path are linked in
both directions, and `tail_->prev` is the last live slot. -/
theorem C18_well_formed_after_put [DecidableEq K] [Inhabited K] [Inhabited V]
    (capacity : Nat) (hc : 1 ≤ capacity) (ops : List (Op K V)) (c : Cache K V)
    (outs : List (Option V))
    (hrun : (Cache.init capacity : Cache K V).run ops = Except.ok (c, outs))
    (hput : ∃ k v, Op.put k v ∈ ops) :
    (Cache.init capacity : Cache K V).tail_.prev = Ptr.null ∧
      c.head_.prev = Ptr.null ∧ c.tail_.next = Ptr.null ∧
      c.liveSlots ≠ [] ∧ c.RecencyList c.liveSlots ∧ c.WellFormed c.liveSlots ∧
      c.prevOf Ptr.tail = c.liveSlots.getLast?.map Ptr.slot ∧
      (∀ i, i ∈ c.liveSlots ↔ ∃ k, mapFind c.key_entry_map_ k = some (Ptr.slot i)) ∧
      (∀ i, i ∈ c.liveSlots ↔ i < capacity ∧ Ptr.slot i ∉ c.free_entry_list_) := by
  obtain ⟨live, hinv, hlen, hne⟩ := live_nonempty_of_put capacity hc ops c outs hrun hput
  rw [hinv.liveSlots]
  obtain ⟨i, l, rfl⟩ : ∃ i l, live = i :: l := by
    cases live with
    | nil => exact absurd rfl hne
    | cons i l => exact ⟨i, l, rfl⟩
  refine ⟨rfl, hinv.headPrev, hinv.tailNext, hne, hinv.recency,
    ⟨hinv.nodup, chain_strong_of_weak c i l hinv.chain⟩, ?_, ?_, ?_⟩
  · obtain ⟨la, j, hla⟩ : ∃ la j, i :: l = la ++ [j] := by
      rcases List.eq_nil_or_concat (i :: l) with h | ⟨la, j, h⟩
      · cases h
      · exact ⟨la, j, by rw [h, List.concat_eq_append]⟩
    have hch := hinv.chain
    rw [hla] at hch ⊢
    rcases (chain_last_link c la j hch).2 with h | h
    · simp [h]
    · cases h.1
  · intro j
    constructor
    · intro hj
      exact ⟨c.keyAt j, hinv.mapComplete j hj⟩
    · rintro ⟨k, hk⟩
      rcases hinv.mapSound k _ hk with h | ⟨j', hj', hjl, -⟩
      · cases h
      · cases hj'; exact hjl
  · obtain ⟨fl, hfl, hp⟩ := hinv.free
    rw [hlen] at hp
    have hnd : ((i :: l) ++ fl).Nodup := hp.nodup_iff.2 (List.nodup_range _)
    have hdis := (List.nodup_append.1 hnd).2.2
    have hmem : ∀ j, Ptr.slot j ∈ c.free_entry_list_ ↔ j ∈ fl := by
      intro j
      rw [hfl, List.mem_map]
      constructor
      · rintro ⟨j', hj', h⟩
        cases h
        exact hj'
      · intro h
        exact ⟨j, h, rfl⟩
    intro j
    rw [hmem]
    constructor
    · intro hj
      exact ⟨List.mem_range.1 (hp.mem_iff.1 (List.mem_append_left _ hj)), fun h => hdis hj h⟩
    · rintro ⟨hj, hnot⟩
      rcases List.mem_append.1 (hp.mem_iff.2 (List.mem_range.2 hj)) with h | h
      · exact h
      · exact absurd h hnot

/-- C18 in `main`: the state after five calls. -/
theorem C18_well_formed_after_put_witness :
    (1 ≤ 3) ∧ (∃ k v, Op.put k v ∈ mainOps.take 5) ∧
    ((Cache.init 3 : Cache Int String).tail_.prev = Ptr.null ∧
      (mainState 5).head_.prev = Ptr.null ∧ (mainState 5).tail_.next = Ptr.null ∧
      (mainState 5).liveSlots ≠ [] ∧ (mainState 5).RecencyList (mainState 5).liveSlots ∧
      (mainState 5).WellFormed (mainState 5).liveSlots ∧
      (mainState 5).prevOf Ptr.tail = (mainState 5).liveSlots.getLast?.map Ptr.slot ∧
      (∀ i, i ∈ (mainState 5).liveSlots ↔
        ∃ k, mapFind (mainState 5).key_entry_map_ k = some (Ptr.slot i)) ∧
      (∀ i, i ∈ (mainState 5).liveSlots ↔
        i < 3 ∧ Ptr.slot i ∉ (mainState 5).free_entry_list_)) :=
  ⟨by decide, ⟨1, "abc", by decide⟩,
    C18_well_formed_after_put 3 (by decide) (mainOps.take 5) (mainState 5) (mainOuts 5)
      (main_run_ok 5) ⟨1, "abc", by decide⟩⟩

/-- C20: on a well-formed recency list `head_, s1, ..., sn, tail_`, for a slot
`si` on it, `Detach(si)` followed by `Attach(si)` succeeds and yields the
well-formed list `head_, si, s1, ..., s(i-1), s(i+1), ..., sn, tail_`: `si` is
`head_->next`, the other slots keep their order, and no key or value changes. -/
theorem C20_detach_attach_moves_to_front (c : Cache K V) (la lb : List Nat) (i : Nat)
    (h : c.WellFormed (la ++ i :: lb)) :
    ∃ c1 c2, c.Detach (Ptr.slot i) = Except.ok c1 ∧ c1.Attach (Ptr.slot i) = Except.ok c2 ∧
      c2.WellFormed (i :: (la ++ lb)) ∧ c2.RecencyList (i :: (la ++ lb)) ∧
      c2.nextOf Ptr.head = some (Ptr.slot i) ∧
      (∀ q, c2.keyOf q = c.keyOf q) ∧ (∀ q, c2.valueAt q = c.valueAt q) := by
  obtain ⟨hnd, hch⟩ := h
  have hweak := chain_weak_of_strong c _ hch
  have hv : (c.ent (Ptr.slot i)).isSome = true := by
    have hl := linked_of_chain c (la ++ i :: lb) Ptr.head hweak
    have : ∀ (l : List Nat) (p : Ptr), c.Linked p l → i ∈ l →
        (c.ent (Ptr.slot i)).isSome = true := by
      intro l
      induction l with
      | nil => intro p _ hi; cases hi
      | cons j l ih =>
        intro p hp hi
        simp only [Cache.Linked] at hp
        rcases List.mem_cons.1 hi with rfl | hi'
        · cases l with
          | nil =>
            simp only [Cache.Linked, Cache.nextOf, Option.map_eq_some'] at hp
            obtain ⟨e, he, -⟩ := hp.2
            rw [he]; rfl
          | cons j' l' =>
            simp only [Cache.Linked, Cache.nextOf, Option.map_eq_some'] at hp
            obtain ⟨e, he, -⟩ := hp.2.1
            rw [he]; rfl
        · exact ih _ hp.2 hi'
    exact this _ _ hl (by simp)
  obtain ⟨c1, c2, hd, ha, -, -, hch2, hf⟩ := touch_chain c la lb i hnd hweak hv
  have hnd2 : (i :: (la ++ lb)).Nodup := List.perm_middle.symm.nodup_iff.2 hnd
  have hstrong := chain_strong_of_weak c2 i (la ++ lb) hch2
  refine ⟨c1, c2, hd, ha, ⟨hnd2, hstrong⟩, linked_of_chain c2 _ Ptr.head hch2, ?_, hf.key,
    hf.val⟩
  have := linked_of_chain c2 _ Ptr.head hch2
  exact this.1

/-- C20 in `main`: in the state after five calls the list is slots 1, 0, 2;
the middle one is detached and attached. -/
theorem C20_detach_attach_moves_to_front_witness :
    (mainState 5).WellFormed ([1] ++ 0 :: [2]) ∧
    ∃ c1 c2, (mainState 5).Detach (Ptr.slot 0) = Except.ok c1 ∧
      c1.Attach (Ptr.slot 0) = Except.ok c2 ∧
      c2.WellFormed (0 :: ([1] ++ [2])) ∧ c2.RecencyList (0 :: ([1] ++ [2])) ∧
      c2.nextOf Ptr.head = some (Ptr.slot 0) ∧
      (∀ q, c2.keyOf q = (mainState 5).keyOf q) ∧
      (∀ q, c2.valueAt q = (mainState 5).valueAt q) :=
  ⟨main_five_well_formed,
    C20_detach_attach_moves_to_front (mainState 5) [1] [2] 0 main_five_well_formed⟩

/-- C14, as stated, fails: after the first five calls of `main` and a `Get(2)`
on the evicted key 2, the key index has four entries and three slots are
live. -/
theorem C14_counterexample :
    ∃ c outs, (Cache.init 3 : Cache Int String).run (mainOps.take 5 ++ [Op.get 2]) =
        Except.ok (c, outs) ∧
      c.key_entry_map_.length = 4 ∧ c.liveSlots.length = 3 :=
  ⟨_, _, rfl, rfl, rfl⟩

/-- C14, amended: in every state reached from a fresh cache of capacity `≥ 1`,
the keys of the key index are distinct, the entries that hold a slot pointer
are as many as the live slots, and the other entries, which hold `NULL`, make
up the rest of its size. -/
theorem C14_index_slot_entries_count [DecidableEq K] [Inhabited K] [Inhabited V]
    (capacity : Nat) (hc : 1 ≤ capacity) (ops : List (Op K V)) (c : Cache K V)
    (outs : List (Option V))
    (hrun : (Cache.init capacity : Cache K V).run ops = Except.ok (c, outs)) :
    (c.key_entry_map_.map Prod.fst).Nodup ∧
      (c.key_entry_map_.filter (fun kp => !decide (kp.2 = Ptr.null))).length =
        c.liveSlots.length ∧
      c.key_entry_map_.length = c.liveSlots.length +
        (c.key_entry_map_.filter (fun kp => decide (kp.2 = Ptr.null))).length := by
  have hnd := run_keys_nodup ops (Cache.init capacity : Cache K V) c outs hrun
    (by simp [Cache.init])
  obtain ⟨c0, live, h1, hinv, -, -⟩ := run_inv (K := K) (V := V) capacity hc ops
  rw [hrun] at h1
  cases h1
  have hcount := hinv.index_count hnd
  rw [hinv.liveSlots]
  refine ⟨hnd, hcount, ?_⟩
  have := List.length_eq_length_filter_add (l := c.key_entry_map_)
    (fun kp => !decide (kp.2 = Ptr.null))
  simp only [Bool.not_not] at this
  rw [this, hcount]

/-- C14, amended, in `main`: the state after five calls. -/
theorem C14_index_slot_entries_count_witness :
    (1 ≤ 3) ∧
      ((mainState 5).key_entry_map_.map Prod.fst).Nodup ∧
      ((mainState 5).key_entry_map_.filter (fun kp => !decide (kp.2 = Ptr.null))).length =
        (mainState 5).liveSlots.length ∧
      (mainState 5).key_entry_map_.length = (mainState 5).liveSlots.length +
        ((mainState 5).key_entry_map_.filter (fun kp => decide (kp.2 = Ptr.null))).length :=
  ⟨by decide, C14_index_slot_entries_count 3 (by decide) (mainOps.take 5) (mainState 5)
    (mainOuts 5) (main_run_ok 5)⟩

/-- C15, as stated, fails: after the first five calls of `main` and a `Get(2)`,
key 2 has an entry in the key index, which holds `NULL`, and key 2 is not
live. -/
theorem C15_counterexample :
    ∃ c outs, (Cache.init 3 : Cache Int String).run (mainOps.take 5 ++ [Op.get 2]) =
        Except.ok (c, outs) ∧
      mapFind c.key_entry_map_ 2 = some Ptr.null ∧ (2 : Int) ∉ c.liveKeys :=
  ⟨_, _, rfl, rfl, by decide⟩

/-- C15, amended: in every state reached from a fresh cache of capacity `≥ 1`,
an entry of the key index holds either `NULL`, and then its key is not live,
or a live slot whose stored key is the entry's key; conversely the key of every
live slot has the entry that holds this slot. -/
theorem C15_index_entries_point_to_live_slots [DecidableEq K] [Inhabited K] [Inhabited V]
    (capacity : Nat) (hc : 1 ≤ capacity) (ops : List (Op K V)) (c : Cache K V)
    (outs : List (Option V))
    (hrun : (Cache.init capacity : Cache K V).run ops = Except.ok (c, outs)) :
    (∀ k p, mapFind c.key_entry_map_ k = some p →
      (p = Ptr.null ∧ k ∉ c.liveKeys) ∨
        ∃ i, p = Ptr.slot i ∧ i ∈ c.liveSlots ∧ c.keyOf (Ptr.slot i) = some k) ∧
      (∀ i ∈ c.liveSlots, mapFind c.key_entry_map_ (c.keyAt i) = some (Ptr.slot i)) := by
  obtain ⟨c0, live, h1, hinv, -, -⟩ := run_inv (K := K) (V := V) capacity hc ops
  rw [hrun] at h1
  cases h1
  rw [hinv.liveSlots, hinv.liveKeys]
  refine ⟨?_, hinv.mapComplete⟩
  intro k p hkp
  rcases hinv.mapSound k p hkp with h | ⟨i, hi, hil, hik⟩
  · left
    refine ⟨h, ?_⟩
    intro hmem
    obtain ⟨j, hj, hjk⟩ := List.mem_map.1 hmem
    have := hinv.mapComplete j hj
    rw [hjk, hkp, h] at this
    cases this
  · right
    refine ⟨i, hi, hil, ?_⟩
    obtain ⟨e, he⟩ := Option.isSome_iff_exists.1 (ent_slot_isSome c i (hinv.lt hil))
    simp only [Cache.keyAt, Cache.keyOf, he, Option.map_some', Option.getD_some] at hik ⊢
    rw [hik]

/-- C15, amended, in `main`: the state after five calls. -/
theorem C15_index_entries_point_to_live_slots_witness :
    (1 ≤ 3) ∧
    ((∀ k p, mapFind (mainState 5).key_entry_map_ k = some p →
      (p = Ptr.null ∧ k ∉ (mainState 5).liveKeys) ∨
        ∃ i, p = Ptr.slot i ∧ i ∈ (mainState 5).liveSlots ∧
          (mainState 5).keyOf (Ptr.slot i) = some k) ∧
      (∀ i ∈ (mainState 5).liveSlots,
        mapFind (mainState 5).key_entry_map_ ((mainState 5).keyAt i) = some (Ptr.slot i))) :=
  ⟨by decide, C15_index_entries_point_to_live_slots 3 (by decide) (mainOps.take 5)
    (mainState 5) (mainOuts 5) (main_run_ok 5)⟩

end LRU
